import Mathlib

/-!
A context sensitive grammar parser in Kuroda normal form.

Shallow embedding of `src/main.cpp` (class `Grammar` and its parsing
functions) and theorems about it.

Conventions of the embedding

* `std::vector<T>` is `List T`; `std::map<symbol, T>` is an association list
  read with `List.lookup` (what `find` returns) and written with `mapAssign`
  (what `operator[]` followed by `=` does).
* `int` is `Int`.  The values stored in choice vectors and in `maxes` are
  indices into, and sizes of, the origin lists, so no operation on them
  leaves the range of a 32 bit `int`; loop counters (`unsigned int i`) are
  `Nat`, forms being shorter than `2^32`.
* The member `memo` is an `std::unordered_map<word,bool>`.  The program
  writes it in three places only (an assignment of the single pair
  `(w1, true)` and two `memo.insert` of a pair `(w, true)`), so every stored
  value is `true` and the test
  `check != memo.end() && check->second` is membership of the key.  The memo
  is therefore the list of its keys, passed explicitly as state.
* An access `v[i]` with `i >= v.size()` is undefined behaviour in C++; the
  embedding stops with `Run.fault Fault.outOfRange` there.  A `throw` stops
  with `Run.fault Fault.invalidArgument`.
* `parse_helper` is recursive with no syntactic bound; it takes a `fuel`
  that bounds the recursion depth, and `Run.outOfFuel` says the bound was
  reached.
* The functions whose name ends in `Logged` are `parse_helper` and its loops
  with one more state variable beside the memo: the list of the forms handed
  to `parse_helper`.  The program has no such variable; forgetting it gives
  `parse_helper` again (`parse_helperLogged_erase`).
-/

namespace CSG

/-- Symbols: `typedef std::string symbol;` -/
abbrev symbol := String

/-- Forms: `typedef std::vector<symbol> word;` -/
abbrev word := List symbol

/-- The start symbol: `const symbol S = "S";` -/
def S : symbol := "S"

/-- The absent slot: `const symbol NONE = "NONE";` -/
def NONE : symbol := "NONE"

/-- One side of a rule: `typedef std::pair<symbol,symbol> side;` -/
abbrev side := symbol × symbol

/-- A rule `(left, right)`: `typedef std::pair<side,side> rule;` -/
abbrev rule := side × side

/-- A derivation step: `typedef std::pair<rule,word> change;` -/
abbrev change := rule × word

/-- The keys of `std::unordered_map<word,bool> memo` (all values are `true`). -/
abbrev Memo := List word

instance instDecidableEqRule : DecidableEq rule := inferInstance

instance instDecidableEqChange : DecidableEq change := inferInstance

instance instDecidableEqTrace : DecidableEq (List change) := inferInstance

instance instDecidableEqMemo : DecidableEq Memo := inferInstance

instance instDecidableEqReturn : DecidableEq (List change × Memo) :=
  instDecidableEqProd

/-- The function `rule ruleOf(l1, l2, r1, r2)`. -/
def ruleOf (l1 l2 r1 r2 : String) : rule := ((l1, l2), (r1, r2))

/-- The ways a run stops without a result. -/
inductive Fault where
  | outOfRange
  | invalidArgument
  deriving DecidableEq, Repr

/-- Outcome of running a piece of the program. -/
inductive Run (α : Type) where
  | ok (a : α)
  | fault (e : Fault)
  | outOfFuel
  deriving DecidableEq, Repr

/-- Sequencing of runs: the first stop is the stop of the whole. -/
def Run.bind {α β : Type} : Run α → (α → Run β) → Run β
  | .ok a, f => f a
  | .fault e, _ => .fault e
  | .outOfFuel, _ => .outOfFuel

/-- What a loop of `parse_helper` hands back: either it ran to its end with
the working form `w` and the memo as they are then, or the function returned
`(true, trace)` from inside it. -/
inductive Loop where
  | next (w : word) (memo : Memo)
  | found (trace : List change) (memo : Memo)
  deriving DecidableEq, Repr

/-- Result of `parse_helper`: the returned pair and the memo afterwards. -/
abbrev HelperResult := Run (Bool × List change × Memo)

/-- The assignment `m[k] = v` on a `std::map`. -/
def mapAssign {α : Type} (m : List (symbol × α)) (k : symbol) (v : α) : List (symbol × α) :=
  if (m.lookup k).isSome then m.map (fun e => if e.1 = k then (k, v) else e)
  else m ++ [(k, v)]

/-- The data members of `class Grammar` (the memo is passed separately;
`variables_` is the member `variables`, a word Lean reserves). -/
structure Grammar where
  variables_ : List symbol
  terminals : List symbol
  isTerminal : List (symbol × Bool)
  isVariable : List (symbol × Bool)
  termToVars : List (symbol × List symbol)
  rules : List rule
  Srules : List rule
  deriving DecidableEq, Repr

/-- First loop of the constructor: `isVariable[v] = true` for every `v`. -/
def storeVariables (vs : List symbol) : List (symbol × Bool) :=
  vs.foldl (fun m v => mapAssign m v true) []

/-- Inner loop of the second loop of the constructor: the `left1` of every
rule whose `right1` is `t`, in rule order. -/
def varsOf (t : symbol) (rs : List rule) : List symbol :=
  rs.filterMap (fun r => if t = r.2.1 then some r.1.1 else none)

/-- Second loop of the constructor: `isTerminal[t] = true` and
`termToVars[t] = vars`. -/
def storeTerminals (ts : List symbol) (rs : List rule) :
    List (symbol × Bool) × List (symbol × List symbol) :=
  ts.foldl (fun m t => (mapAssign m.1 t true, mapAssign m.2 t (varsOf t rs))) ([], [])

/-- Third loop of the constructor: the pair `(rules, Srules)`. -/
def storeRules (isTerminal : List (symbol × Bool)) :
    List rule → List rule × List rule → List rule × List rule
  | [], acc => acc
  | r :: rs, acc =>
    if r.1.1 = "S" ∧ r.1.2 = "NONE" ∧ r.2.1 ≠ "S" ∧ r.2.2 ≠ "S" then
      storeRules isTerminal rs (acc.1 ++ [r], acc.2 ++ [r])
    else if isTerminal.lookup r.2.1 = some true then
      storeRules isTerminal rs acc
    else
      storeRules isTerminal rs (acc.1 ++ [r], acc.2)

/-- The constructor `Grammar::Grammar(vs, ts, rs)`. -/
def Grammar.create (vs ts : List symbol) (rs : List rule) : Grammar :=
  let st := storeTerminals ts rs
  let sr := storeRules st.1 rs ([], [])
  { variables_ := vs
    terminals := ts
    isTerminal := st.1
    isVariable := storeVariables vs
    termToVars := st.2
    rules := sr.1
    Srules := sr.2 }

/-- The function `Grammar::wordFrom(choice, w)`: position `i` of the result is
`termToVars[w[i]][choice[i]]`. -/
def wordFrom (g : Grammar) : List Int → word → Run word
  | _, [] => .ok []
  | cs, s :: ws =>
    match g.termToVars.lookup s with
    | none => .fault .invalidArgument
    | some vars =>
      match cs with
      | [] => .fault .outOfRange
      | c :: cs' =>
        if 0 ≤ c ∧ c < vars.length then
          (wordFrom g cs' ws).bind (fun rest => .ok (vars.getD c.toNat "" :: rest))
        else .fault .outOfRange

/-- The function `Grammar::nextChoice(prev, maxes)`. -/
def nextChoice : List Int → List Int → Run (Bool × List Int)
  | [], _ => .ok (false, [])
  | _ :: _, [] => .fault .outOfRange
  | p :: ps, m :: ms =>
    if p < m - 1 then .ok (true, (p + 1) :: ps)
    else (nextChoice ps ms).bind (fun r => .ok (r.1, 0 :: r.2))

/-- Base case of `parse_helper`, the loop over `Srules` for a form of size 1
or 2: the first start rule whose right side is the form. -/
def baseCase : List rule → word → Option rule
  | [], _ => none
  | r :: rs, w =>
    match w with
    | [a] => if a = r.2.1 ∧ r.2.2 = "NONE" then some r else baseCase rs w
    | [a, b] => if a = r.2.1 ∧ b = r.2.2 then some r else baseCase rs w
    | _ => none

/-- One reverse application of a rule with a one-symbol right side at
position `i` (the body of the `if (w[i] == right1)` of the first branch). -/
def tryOne (rec : Memo → word → HelperResult) (r : rule) (i : Nat) (w : word) (memo : Memo) :
    Run Loop :=
  let w1 := w.set i r.1.1
  if w1 ∈ memo then .ok (.next (w1.set i r.2.1) memo)
  else
    match rec (w1 :: memo) w1 with
    | .ok (true, tr, memo') => .ok (.found (tr ++ [(r, w1.set i r.2.1)]) memo')
    | .ok (false, _, memo') => .ok (.next (w1.set i r.2.1) memo')
    | .fault e => .fault e
    | .outOfFuel => .outOfFuel

/-- The statements `w[i] = right1; w[i+1] = right2;` that follow a memo hit
or a failed recursive call in the second branch. -/
def restoreTwo (r : rule) (i : Nat) (w1 : word) : Run word :=
  if i + 1 < w1.length then .ok ((w1.set i r.2.1).set (i + 1) r.2.2)
  else .fault .outOfRange

/-- One reverse application of a rule with a two-symbol right side at
positions `i`, `i+1` (the body of the `if (w[i] == right1 && w[i+1] == right2)`
of the second branch). -/
def tryTwo (rec : Memo → word → HelperResult) (r : rule) (i : Nat) (w : word) (memo : Memo) :
    Run Loop :=
  let w1 := if r.1.2 = "NONE" then (w.set i r.1.1).eraseIdx (i + 1)
            else (w.set i r.1.1).set (i + 1) r.1.2
  if w1 ∈ memo then (restoreTwo r i w1).bind (fun w' => .ok (.next w' memo))
  else
    match rec (w1 :: memo) w1 with
    | .ok (true, tr, memo') =>
      let w2 := w1.set i r.2.1
      let w3 := if r.1.2 = "NONE" then w2.insertIdx (i + 1) r.2.2 else w2.set (i + 1) r.2.2
      .ok (.found (tr ++ [(r, w3)]) memo')
    | .ok (false, _, memo') => (restoreTwo r i w1).bind (fun w' => .ok (.next w' memo'))
    | .fault e => .fault e
    | .outOfFuel => .outOfFuel

/-- The loop `for (i = 0; i < w.size(); i++)` of the first branch, from
position `i` on; `k` bounds the iterations still to come. -/
def oneSymbol (rec : Memo → word → HelperResult) (r : rule) :
    Nat → Nat → word → Memo → Run Loop
  | 0, i, w, memo => if i < w.length then .outOfFuel else .ok (.next w memo)
  | k + 1, i, w, memo =>
    if i < w.length then
      if w[i]? = some r.2.1 then
        match tryOne rec r i w memo with
        | .ok (.next w' memo') => oneSymbol rec r k (i + 1) w' memo'
        | other => other
      else oneSymbol rec r k (i + 1) w memo
    else .ok (.next w memo)

/-- The loop `for (i = 0; i < w.size() - 1; i++)` of the second branch, from
position `i` on; `k` bounds the iterations still to come.  The bound
`w.size() - 1` is computed in `size_t`, so on an empty form it is
`2^64 - 1` and `w[i]` is read past the end. -/
def twoSymbol (rec : Memo → word → HelperResult) (r : rule) :
    Nat → Nat → word → Memo → Run Loop
  | 0, i, w, memo =>
    if w.length = 0 then .fault .outOfRange
    else if i + 1 < w.length then .outOfFuel else .ok (.next w memo)
  | k + 1, i, w, memo =>
    if w.length = 0 then .fault .outOfRange
    else if i + 1 < w.length then
      if w[i]? = some r.2.1 ∧ w[i + 1]? = some r.2.2 then
        match tryTwo rec r i w memo with
        | .ok (.next w' memo') => twoSymbol rec r k (i + 1) w' memo'
        | other => other
      else twoSymbol rec r k (i + 1) w memo
    else .ok (.next w memo)

/-- The loop over `rules` of `parse_helper`.  The working form and the memo
are carried from one rule to the next. -/
def ruleLoop (rec : Memo → word → HelperResult) : List rule → word → Memo → Run Loop
  | [], w, memo => .ok (.next w memo)
  | r :: rs, w, memo =>
    match (if r.2.2 = "NONE" then oneSymbol rec r w.length 0 w memo
           else twoSymbol rec r w.length 0 w memo) with
    | .ok (.next w' memo') => ruleLoop rec rs w' memo'
    | other => other

/-- Body of `Grammar::parse_helper(w)`, run with the member `memo` in state
`memo`; `rec` stands for the recursive calls.  The result holds the returned
pair and the memo after the call. -/
def helperBody (g : Grammar) (rec : Memo → word → HelperResult) (memo : Memo) (w : word) :
    HelperResult :=
  if w.length = 0 then .ok (false, [], memo)
  else
    match (if w.length ≤ 2 then baseCase g.Srules w else none) with
    | some r => .ok (true, [(r, w)], memo)
    | none =>
      match ruleLoop rec g.rules w memo with
      | .ok (.found tr memo') => .ok (true, tr, memo')
      | .ok (.next _ memo') => .ok (false, [], memo')
      | .fault e => .fault e
      | .outOfFuel => .outOfFuel

/-- The function `Grammar::parse_helper(w)` with recursion depth at most `fuel`. -/
def parse_helper (g : Grammar) : Nat → Memo → word → HelperResult
  | 0 => fun _ _ => .outOfFuel
  | fuel + 1 => helperBody g (parse_helper g fuel)

/-- First loop of `Grammar::listTerminals`: the ripple-borrow decrement of the
choice counter (`choice[i]--; break;` or `choice[i] = maxes[i] - 1`). -/
def recoverPreviousChoice : List Int → List Int → Run (List Int)
  | [], _ => .ok []
  | c :: cs, ms =>
    if c > 0 then .ok ((c - 1) :: cs)
    else
      match ms with
      | [] => .fault .outOfRange
      | m :: ms' => (recoverPreviousChoice cs ms').bind (fun rest => .ok ((m - 1) :: rest))

/-- Second loop of `Grammar::listTerminals`: the printed lines
`termToVars[w[i]][choice[i]] --> w[i]`, as pairs (variable, terminal). -/
def substitutions (g : Grammar) : List Int → word → Run (List (symbol × symbol))
  | _, [] => .ok []
  | cs, s :: ws =>
    match g.termToVars.lookup s with
    | none => .fault .invalidArgument
    | some vars =>
      match cs with
      | [] => .fault .outOfRange
      | c :: cs' =>
        if 0 ≤ c ∧ c < vars.length then
          (substitutions g cs' ws).bind (fun rest => .ok ((vars.getD c.toNat "", s) :: rest))
        else .fault .outOfRange

/-- The function `Grammar::listTerminals(choice, maxes, w)`: the printed substitution list. -/
def listTerminals (g : Grammar) (choice maxes : List Int) (w : word) :
    Run (List (symbol × symbol)) :=
  (recoverPreviousChoice choice maxes).bind (fun c => substitutions g c w)

/-- The loop of `Grammar::parse` that builds `maxes`. -/
def maxesOf (g : Grammar) : word → Run (List Int)
  | [] => .ok []
  | s :: ws =>
    match g.termToVars.lookup s with
    | none => .fault .invalidArgument
    | some vars => (maxesOf g ws).bind (fun rest => .ok ((vars.length : Int) :: rest))

/-- The call `memo.insert` of the pair `(w, true)`: no effect on a key that is
present. -/
def memoInsert (memo : Memo) (w : word) : Memo :=
  if w ∈ memo then memo else w :: memo

/-- What `parse` prints. -/
inductive Report where
  | derived (derivation : List change) (substitution : List (symbol × symbol))
  | noDerivation
  deriving DecidableEq, Repr

/-- A run of `parse`: the forms handed to `parse_helper` (in call order), the
memo at the end, and what was printed or how the run stopped. -/
structure ParseRun where
  calls : List word
  memo : Memo
  outcome : Run Report
  deriving DecidableEq, Repr

/-- State at the end of the candidate loop of `parse`. -/
structure LoopEnd where
  calls : List word
  memo : Memo
  result : Run ((Bool × List change) × (Bool × List Int))

/-- The loop `while (!derivation.first && choice.first)` of `Grammar::parse`;
the first argument bounds the iterations still to come. -/
def candidateLoop (g : Grammar) (fuel : Nat) (maxes : List Int) (w : word) :
    Nat → Bool × List change → Bool × List Int → Memo → List word → LoopEnd
  | 0, derivation, choice, memo, calls =>
    if !derivation.1 && choice.1 then ⟨calls, memo, .outOfFuel⟩
    else ⟨calls, memo, .ok (derivation, choice)⟩
  | k + 1, derivation, choice, memo, calls =>
    if !derivation.1 && choice.1 then
      match wordFrom g choice.2 w with
      | .ok wNew =>
        match parse_helper g fuel (memoInsert memo wNew) wNew with
        | .ok (b, tr, memo') =>
          match nextChoice choice.2 maxes with
          | .ok choice' => candidateLoop g fuel maxes w k (b, tr) choice' memo' (calls ++ [wNew])
          | .fault e => ⟨calls ++ [wNew], memo', .fault e⟩
          | .outOfFuel => ⟨calls ++ [wNew], memo', .outOfFuel⟩
        | .fault e => ⟨calls ++ [wNew], memoInsert memo wNew, .fault e⟩
        | .outOfFuel => ⟨calls ++ [wNew], memoInsert memo wNew, .outOfFuel⟩
      | .fault e => ⟨calls, memo, .fault e⟩
      | .outOfFuel => ⟨calls, memo, .outOfFuel⟩
    else ⟨calls, memo, .ok (derivation, choice)⟩

/-- The function `Grammar::parse(w)`, entered with the member `memo` in state `memo0`.
`choice` is default-constructed, so `choice.first` is `false` when the
candidate loop is reached. -/
def parse (g : Grammar) (fuel : Nat) (memo0 : Memo) (w : word) : ParseRun :=
  let choice : Bool × List Int := (false, List.replicate w.length 0)
  match maxesOf g w with
  | .fault e => ⟨[], memo0, .fault e⟩
  | .outOfFuel => ⟨[], memo0, .outOfFuel⟩
  | .ok maxes =>
    match wordFrom g choice.2 w with
    | .fault e => ⟨[], memo0, .fault e⟩
    | .outOfFuel => ⟨[], memo0, .outOfFuel⟩
    | .ok w1 =>
      match parse_helper g fuel [w1] w1 with
      | .fault e => ⟨[w1], [w1], .fault e⟩
      | .outOfFuel => ⟨[w1], [w1], .outOfFuel⟩
      | .ok (b, tr, memo1) =>
        let e := candidateLoop g fuel maxes w fuel (b, tr) choice memo1 [w1]
        match e.result with
        | .fault f => ⟨e.calls, e.memo, .fault f⟩
        | .outOfFuel => ⟨e.calls, e.memo, .outOfFuel⟩
        | .ok (derivation, choice') =>
          if derivation.1 then
            ⟨e.calls, e.memo,
              (listTerminals g choice'.2 maxes w).bind
                (fun sub => .ok (.derived derivation.2 sub))⟩
          else ⟨e.calls, e.memo, .ok .noDerivation⟩

/-! ## Specification vocabulary -/

/-- A counter `c` is in range for the digit counts `maxes`: same length and
`0 <= c[i] < maxes[i]` at every position. -/
def InRange (c maxes : List Int) : Prop :=
  List.Forall₂ (fun ci mi => 0 ≤ ci ∧ ci < mi) c maxes

/-- The value of a mixed-radix counter, position 0 least significant:
the sum over `i` of `c[i]` times the product of `maxes[j]` for `j < i`. -/
def counterValue (c maxes : List Int) : Int :=
  ((List.range c.length).map (fun i => c.getD i 0 * (maxes.take i).prod)).sum

/-- The all-zero counter for `maxes`. -/
def zeroChoice (maxes : List Int) : List Int := List.replicate maxes.length 0

/-- Result of the `k`-th application of `nextChoice` when it is iterated from
the all-zero counter (for `k = 0`: the all-zero counter itself, nothing
exhausted yet). -/
def iterateNextChoice (maxes : List Int) : Nat → Run (Bool × List Int)
  | 0 => .ok (true, zeroChoice maxes)
  | k + 1 => (iterateNextChoice maxes k).bind (fun r => nextChoice r.2 maxes)

/-! ## Grammars used as concrete inputs -/

/-- The rules `A → B C`, `E → B C`, `S → E` (in this order). -/
def gCollapse : Grammar :=
  Grammar.create ["A", "B", "C", "D", "E"] []
    [ruleOf "A" "NONE" "B" "C", ruleOf "E" "NONE" "B" "C", ruleOf "S" "NONE" "E" "NONE"]

/-- The rules `S → A`, `A → a`, `B → a`: the terminal `a` has the two origins
`A` and `B`, and only `A` is derivable. -/
def gFirstOrigin : Grammar :=
  Grammar.create ["A", "B"] ["a"]
    [ruleOf "S" "NONE" "A" "NONE", ruleOf "A" "NONE" "a" "NONE", ruleOf "B" "NONE" "a" "NONE"]

/-- The rules `S → B`, `A → a`, `B → a`: the terminal `a` has the two origins
`A` and `B`, and only `B` is derivable. -/
def gSecondOrigin : Grammar :=
  Grammar.create ["A", "B"] ["a"]
    [ruleOf "S" "NONE" "B" "NONE", ruleOf "A" "NONE" "a" "NONE", ruleOf "B" "NONE" "a" "NONE"]

/-- The rules `S → A`, `A → a` with the declared terminals `a` and `b`: the
terminal `b` has no origin. -/
def gNoOrigin : Grammar :=
  Grammar.create ["A"] ["a", "b"]
    [ruleOf "S" "NONE" "A" "NONE", ruleOf "A" "NONE" "a" "NONE"]

/-! ## Predicates used in the proofs and further inputs -/

/-- Every symbol a run of `parse_helper` on `w` can find in its working
form: those of `w` and those of the rules it applies. -/
def alphabet (g : Grammar) (w : word) : List symbol :=
  w ++ g.rules.flatMap (fun r => [r.1.1, r.1.2, r.2.1, r.2.2])

/-- All forms of length `n` over the symbols `A`. -/
def wordsOfLength (A : List symbol) : Nat → List word
  | 0 => [[]]
  | n + 1 => A.flatMap (fun s => (wordsOfLength A n).map (fun v => s :: v))

/-- All forms of length at most `N` over the symbols `A`. -/
def wordsUpTo (A : List symbol) (N : Nat) : List word :=
  (List.range (N + 1)).flatMap (wordsOfLength A)

/-- A recursion depth that `parse_helper` cannot exceed on `w`: one more than
the number of forms no longer than `w` over the symbols of `w` and of the
rules. -/
def fuelBound (g : Grammar) (w : word) : Nat :=
  (wordsUpTo (alphabet g w) w.length).length + 1

/-- The form a reverse application of `r` at position `i` of `u` hands to the
recursive call: the one-symbol branch overwrites `u[i]`, the two-symbol
branch overwrites `u[i]` and either erases or overwrites `u[i+1]`. -/
def rewritten (r : rule) (i : Nat) (u : word) : word :=
  if r.2.2 = "NONE" then u.set i r.1.1
  else if r.1.2 = "NONE" then (u.set i r.1.1).eraseIdx (i + 1)
  else (u.set i r.1.1).set (i + 1) r.1.2

/-- The right side of `r` occurs in `u` at position `i`, as the loops of
`parse_helper` test it. -/
def matchesAt (r : rule) (i : Nat) (u : word) : Prop :=
  if r.2.2 = "NONE" then u[i]? = some r.2.1
  else i + 1 < u.length ∧ u[i]? = some r.2.1 ∧ u[i + 1]? = some r.2.2

/-- One reverse application of a rule of the general rule set: `v` is what
`parse_helper` recurses on from `u`. -/
def reverseStep (g : Grammar) (u v : word) : Prop :=
  ∃ r ∈ g.rules, ∃ i, matchesAt r i u ∧ v = rewritten r i u

/-- Left side of a rule as a form (without the `NONE` slot). -/
def lhs (r : rule) : word := if r.1.2 = "NONE" then [r.1.1] else [r.1.1, r.1.2]

/-- Right side of a rule as a form (without the `NONE` slot). -/
def rhs (r : rule) : word := if r.2.2 = "NONE" then [r.2.1] else [r.2.1, r.2.2]

/-- Ordinary forward application of a rule of the general rule set: one
occurrence of the left side is replaced by the right side. -/
def forwardStep (g : Grammar) (u v : word) : Prop :=
  ∃ r ∈ g.rules, ∃ pre post, u = pre ++ lhs r ++ post ∧ v = pre ++ rhs r ++ post

/-- The form is derivable from the start symbol by one or more forward
applications of rules of the general rule set. -/
def Derivable (g : Grammar) (w : word) : Prop :=
  Relation.TransGen (forwardStep g) ["S"] w

/-- The rules `X → B C`, `S → A D`, `A → B`, `D → C E` (in this order). -/
def gSlip : Grammar :=
  Grammar.create ["A", "B", "C", "D", "E", "X"] []
    [ruleOf "X" "NONE" "B" "C", ruleOf "S" "NONE" "A" "D", ruleOf "A" "NONE" "B" "NONE",
     ruleOf "D" "NONE" "C" "E"]

/-- The rules `S → B`, `S → S A` (in this order). -/
def gStartOnRight : Grammar :=
  Grammar.create ["A", "B"] [] [ruleOf "S" "NONE" "B" "NONE", ruleOf "S" "NONE" "S" "A"]

/-- The rules `S → A`, `A → B`, `B → A` (in this order). -/
def gUnit : Grammar :=
  Grammar.create ["A", "B"] []
    [ruleOf "S" "NONE" "A" "NONE", ruleOf "A" "NONE" "B" "NONE", ruleOf "B" "NONE" "A" "NONE"]

/-- The rules `A B → C D`, `C D → A B` (in this order). -/
def gCycle : Grammar :=
  Grammar.create ["A", "B", "C", "D"] []
    [ruleOf "A" "B" "C" "D", ruleOf "C" "D" "A" "B"]

/-- The callback `rec'` agrees with `rec` wherever `rec` finishes. -/
def Extends (rec rec' : Memo → word → HelperResult) : Prop :=
  ∀ memo w, rec memo w ≠ .outOfFuel → rec' memo w = rec memo w

/-- A loop result either continues with a state satisfying `I` or is a final
result satisfying `Q`. -/
def Continue (I : word → Memo → Prop) (Q : Run Loop → Prop) : Run Loop → Prop
  | .ok (.next w memo) => I w memo
  | other => Q other

/-- Number of forms of the universe `wordsUpTo A N` that are not in the memo. -/
def unseen (A : List symbol) (N : Nat) (memo : Memo) : Nat :=
  ((wordsUpTo A N).toFinset \ memo.toFinset).card

/-- The rule writes only symbols of `A`. -/
def RuleIn (A : List symbol) (r : rule) : Prop :=
  r.1.1 ∈ A ∧ r.1.2 ∈ A ∧ r.2.1 ∈ A ∧ r.2.2 ∈ A

/-- A run of `parse_helper` finished, and the memo only grew. -/
def Finished (memo : Memo) : HelperResult → Prop
  | .ok (_, _, memo') => memo ⊆ memo'
  | .fault _ => True
  | .outOfFuel => False

/-- A loop of `parse_helper` finished, the working form stayed in the
universe and did not grow, and the memo only grew. -/
def LoopFinished (A : List symbol) (N : Nat) (memo : Memo) : Run Loop → Prop
  | .ok (.next w' memo') => w' ∈ wordsUpTo A N ∧ memo ⊆ memo'
  | .ok (.found _ memo') => memo ⊆ memo'
  | .fault _ => True
  | .outOfFuel => False

/-- The recursive calls finish whenever fewer than `n` forms are unseen. -/
def RecFinishes (A : List symbol) (N n : Nat) (rec : Memo → word → HelperResult) : Prop :=
  ∀ memo w, w ∈ wordsUpTo A N → unseen A N memo < n → Finished memo (rec memo w)

/-- The run did not succeed and did not fault. -/
def NoSuccess : HelperResult → Prop
  | .ok (b, tr, _) => b = false ∧ tr = []
  | .fault _ => False
  | .outOfFuel => True

/-- No start rule matches a form reachable from `w` by reverse steps. -/
def Unreachable (g : Grammar) (w : word) : Prop :=
  ∀ v, Relation.ReflTransGen (reverseStep g) w v → baseCase g.Srules v = none

/-- No rule of the general rule set collapses two symbols into one. -/
def LengthPreserving (g : Grammar) : Prop :=
  ∀ r ∈ g.rules, r.2.2 ≠ "NONE" → r.1.2 ≠ "NONE"

/-- The form `v` matches no start rule and every reverse step from it leads
into the memo. -/
def Closed (g : Grammar) (memo : Memo) (v : word) : Prop :=
  baseCase g.Srules v = none ∧ ∀ v', reverseStep g v v' → v' ∈ memo

/-- What a call of `parse_helper` on `w` entered with memo `memo0` leaves
behind when it reports failure: the form `w` and every form added to the
memo are closed. -/
def Explored (g : Grammar) (memo0 : Memo) (w : word) : HelperResult → Prop
  | .ok (true, _, _) => True
  | .ok (false, _, memo') =>
    memo0 ⊆ memo' ∧ (∀ v ∈ memo', v ∉ memo0 → Closed g memo' v) ∧ Closed g memo' w
  | .fault _ => False
  | .outOfFuel => True

/-- Final results a loop may give in a length-preserving grammar. -/
def LoopOK : Run Loop → Prop
  | .fault _ => False
  | _ => True

/-- State of the search between two attempts of the call on `w` entered with
memo `memo0`: the working form is `w`, the memo grew, and what was added is
closed. -/
def Searching (g : Grammar) (memo0 : Memo) (w w' : word) (memo : Memo) : Prop :=
  w' = w ∧ memo0 ⊆ memo ∧ ∀ v ∈ memo, v ∉ memo0 → Closed g memo v

/-- Every reverse application of the rules `done` to `w` leads into the memo. -/
def Covered (done : List rule) (w : word) (memo : Memo) : Prop :=
  ∀ r ∈ done, ∀ i, matchesAt r i w → rewritten r i w ∈ memo

/-- Every reverse application of `r` to `w` at a position below `i` leads
into the memo. -/
def CoveredBelow (r : rule) (i : Nat) (w : word) (memo : Memo) : Prop :=
  ∀ j, j < i → matchesAt r j w → rewritten r j w ∈ memo

/-- Invariant of the loop over the rules in the call on `w`. -/
def RuleInv (g : Grammar) (memo0 : Memo) (w : word) (rs : List rule) (w' : word)
    (memo : Memo) : Prop :=
  Searching g memo0 w w' memo ∧ ∃ done, g.rules = done ++ rs ∧ Covered done w memo

/-- Invariant of the loop over the positions for the rule `r`. -/
def PosInv (g : Grammar) (memo0 : Memo) (w : word) (done : List rule) (r : rule)
    (i : Nat) (w' : word) (memo : Memo) : Prop :=
  Searching g memo0 w w' memo ∧ Covered done w memo ∧ CoveredBelow r i w memo

/-! ## Vocabulary and inputs for the constructor and the driver -/


/-- The symbol is a nonterminal: the start symbol or a declared variable. -/
def IsNonterminal (vs : List symbol) (s : symbol) : Prop := s = "S" ∨ s ∈ vs


/-- The part of Kuroda normal form that concerns terminals: no declared
terminal is a nonterminal, a one-symbol right side has a one-symbol left
side, and a two-symbol right side is made of nonterminals only. -/
def KurodaNormalForm (vs ts : List symbol) (rs : List rule) : Prop :=
  (∀ t ∈ ts, ¬ IsNonterminal vs t) ∧
  ∀ r ∈ rs, (r.2.2 = "NONE" → r.1.2 = "NONE") ∧
    (r.2.2 ≠ "NONE" → IsNonterminal vs r.2.1 ∧ IsNonterminal vs r.2.2)


/-- The rules `S → a`, `A → a` with the variables `S`, `A` and the terminal
`a`. -/
def gStartTerminal : Grammar :=
  Grammar.create ["S", "A"] ["a"]
    [ruleOf "S" "NONE" "a" "NONE", ruleOf "A" "NONE" "a" "NONE"]

/-- The example grammar of the comment in `main`: variables `A`, `A'`, `B`,
`B'`, `C`, terminals `a`, `b`, `c`, rules `S → A'`, `A' → A B'`, `A → a`,
`B' → B C`, `C → c`. -/
def gExample : Grammar :=
  Grammar.create ["A", "A'", "B", "B'", "C"] ["a", "b", "c"]
    [ruleOf "S" "NONE" "A'" "NONE", ruleOf "A'" "NONE" "A" "B'", ruleOf "A" "NONE" "a" "NONE",
     ruleOf "B'" "NONE" "B" "C", ruleOf "C" "NONE" "c" "NONE"]


/-- The example grammar with the further rule `B → b`. -/
def gExampleB : Grammar :=
  Grammar.create ["A", "A'", "B", "B'", "C"] ["a", "b", "c"]
    [ruleOf "S" "NONE" "A'" "NONE", ruleOf "A'" "NONE" "A" "B'", ruleOf "A" "NONE" "a" "NONE",
     ruleOf "B'" "NONE" "B" "C", ruleOf "C" "NONE" "c" "NONE", ruleOf "B" "NONE" "b" "NONE"]

/-- The form `w` positionally equals the right side of `r`: a form of one
symbol equals the first slot and the second slot is `NONE`; a form of two
symbols equals both slots. -/
def startMatches (r : rule) (w : word) : Bool :=
  match w with
  | [a] => decide (a = r.2.1 ∧ r.2.2 = "NONE")
  | [a, b] => decide (a = r.2.1 ∧ b = r.2.2)
  | _ => false

/-- The callbacks `rec` and `rec'` agree on every call that hands over a form
`v` together with a memo whose newest entry is `v` and which did not hold `v`
before. -/
def AgreeOnGuarded (rec rec' : Memo → word → HelperResult) : Prop :=
  ∀ (m : Memo) (v : word), v ∉ m → rec (v :: m) v = rec' (v :: m) v


/-- The memo `memo'` is `memo` with new entries put in front: the new
entries are pairwise distinct and none of them was in `memo`. -/
def AddedTo (memo memo' : Memo) : Prop :=
  ∃ added : List word, memo' = added ++ memo ∧ added.Nodup ∧ ∀ v ∈ added, v ∉ memo


/-- A run of `parse_helper` that returns only adds entries to the memo. -/
def AppendOnly (memo : Memo) : HelperResult → Prop
  | .ok (_, _, memo') => AddedTo memo memo'
  | _ => True


/-- A loop of `parse_helper` that returns from the function only added
entries to the memo `memo0`. -/
def LoopAppendOnly (memo0 : Memo) : Run Loop → Prop
  | .ok (.found _ memo') => AddedTo memo0 memo'
  | _ => True


/-- Shape of a trace returned with success: it starts with a start rule
whose right side the first form positionally equals, and every step holds a
rule of the grammar whose right side occurs in the form of the step. -/
def TraceShape (g : Grammar) (tr : List change) : Prop :=
  ∃ (r : rule) (f : word) (rest : List change), tr = (r, f) :: rest ∧ r ∈ g.Srules ∧
    startMatches r f = true ∧
    ∀ step ∈ tr, (step.1 ∈ g.rules ∨ step.1 ∈ g.Srules) ∧ rhs step.1 <:+: step.2


/-- A successful run of `parse_helper` returns a trace of the shape
`TraceShape`. -/
def TraceOK (g : Grammar) : HelperResult → Prop
  | .ok (true, tr, _) => TraceShape g tr
  | _ => True


/-- A loop of `parse_helper` that returns from the function returns a trace
of the shape `TraceShape`. -/
def LoopTraceOK (g : Grammar) : Run Loop → Prop
  | .ok (.found tr _) => TraceShape g tr
  | _ => True


/-- The rule `S → X` alone. -/
def gSentinel : Grammar :=
  Grammar.create ["X"] [] [ruleOf "S" "NONE" "X" "NONE"]

/-- The rules `A → B C`, `E → B C`, `S → E`, `B → b`, `C → c` (in this order)
with the terminals `b`, `c`. -/
def gRestore : Grammar :=
  Grammar.create ["A", "B", "C", "E"] ["b", "c"]
    [ruleOf "A" "NONE" "B" "C", ruleOf "E" "NONE" "B" "C", ruleOf "S" "NONE" "E" "NONE",
     ruleOf "B" "NONE" "b" "NONE", ruleOf "C" "NONE" "c" "NONE"]

/-- The forms handed to `parse_helper` so far, the latest first.  The program
has no such variable; it is a ghost variable that records the calls. -/
abbrev CallLog := List word

/-- Result of `parse_helper` (the returned pair and the memo afterwards)
together with the call log afterwards. -/
abbrev LoggedResult := Run ((Bool × List change × Memo) × CallLog)

/-- Forgets the call log of a run. -/
def eraseLog {α : Type} : Run (α × CallLog) → Run α
  | .ok (a, _) => .ok a
  | .fault e => .fault e
  | .outOfFuel => .outOfFuel

/-- The function `tryOne` with the call log carried beside the memo. -/
def tryOneLogged (rec : Memo → CallLog → word → LoggedResult) (r : rule) (i : Nat) (w : word)
    (memo : Memo) (log : CallLog) : Run (Loop × CallLog) :=
  let w1 := w.set i r.1.1
  if w1 ∈ memo then .ok (.next (w1.set i r.2.1) memo, log)
  else
    match rec (w1 :: memo) log w1 with
    | .ok ((true, tr, memo'), log') => .ok (.found (tr ++ [(r, w1.set i r.2.1)]) memo', log')
    | .ok ((false, _, memo'), log') => .ok (.next (w1.set i r.2.1) memo', log')
    | .fault e => .fault e
    | .outOfFuel => .outOfFuel

/-- The function `tryTwo` with the call log carried beside the memo. -/
def tryTwoLogged (rec : Memo → CallLog → word → LoggedResult) (r : rule) (i : Nat) (w : word)
    (memo : Memo) (log : CallLog) : Run (Loop × CallLog) :=
  let w1 := if r.1.2 = "NONE" then (w.set i r.1.1).eraseIdx (i + 1)
            else (w.set i r.1.1).set (i + 1) r.1.2
  if w1 ∈ memo then (restoreTwo r i w1).bind (fun w' => .ok (.next w' memo, log))
  else
    match rec (w1 :: memo) log w1 with
    | .ok ((true, tr, memo'), log') =>
      let w2 := w1.set i r.2.1
      let w3 := if r.1.2 = "NONE" then w2.insertIdx (i + 1) r.2.2 else w2.set (i + 1) r.2.2
      .ok (.found (tr ++ [(r, w3)]) memo', log')
    | .ok ((false, _, memo'), log') =>
      (restoreTwo r i w1).bind (fun w' => .ok (.next w' memo', log'))
    | .fault e => .fault e
    | .outOfFuel => .outOfFuel

/-- The loop `oneSymbol` with the call log carried beside the memo. -/
def oneSymbolLogged (rec : Memo → CallLog → word → LoggedResult) (r : rule) :
    Nat → Nat → word → Memo → CallLog → Run (Loop × CallLog)
  | 0, i, w, memo, log => if i < w.length then .outOfFuel else .ok (.next w memo, log)
  | k + 1, i, w, memo, log =>
    if i < w.length then
      if w[i]? = some r.2.1 then
        match tryOneLogged rec r i w memo log with
        | .ok (.next w' memo', log') => oneSymbolLogged rec r k (i + 1) w' memo' log'
        | other => other
      else oneSymbolLogged rec r k (i + 1) w memo log
    else .ok (.next w memo, log)

/-- The loop `twoSymbol` with the call log carried beside the memo. -/
def twoSymbolLogged (rec : Memo → CallLog → word → LoggedResult) (r : rule) :
    Nat → Nat → word → Memo → CallLog → Run (Loop × CallLog)
  | 0, i, w, memo, log =>
    if w.length = 0 then .fault .outOfRange
    else if i + 1 < w.length then .outOfFuel else .ok (.next w memo, log)
  | k + 1, i, w, memo, log =>
    if w.length = 0 then .fault .outOfRange
    else if i + 1 < w.length then
      if w[i]? = some r.2.1 ∧ w[i + 1]? = some r.2.2 then
        match tryTwoLogged rec r i w memo log with
        | .ok (.next w' memo', log') => twoSymbolLogged rec r k (i + 1) w' memo' log'
        | other => other
      else twoSymbolLogged rec r k (i + 1) w memo log
    else .ok (.next w memo, log)

/-- The loop `ruleLoop` with the call log carried beside the memo. -/
def ruleLoopLogged (rec : Memo → CallLog → word → LoggedResult) :
    List rule → word → Memo → CallLog → Run (Loop × CallLog)
  | [], w, memo, log => .ok (.next w memo, log)
  | r :: rs, w, memo, log =>
    match (if r.2.2 = "NONE" then oneSymbolLogged rec r w.length 0 w memo log
           else twoSymbolLogged rec r w.length 0 w memo log) with
    | .ok (.next w' memo', log') => ruleLoopLogged rec rs w' memo' log'
    | other => other

/-- Body of `Grammar::parse_helper(w)` with the call log carried beside the
memo: on entry the form `w` is put in front of the log, then the body runs as
`helperBody` does. -/
def helperBodyLogged (g : Grammar) (rec : Memo → CallLog → word → LoggedResult) (memo : Memo)
    (log : CallLog) (w : word) : LoggedResult :=
  if w.length = 0 then .ok ((false, [], memo), w :: log)
  else
    match (if w.length ≤ 2 then baseCase g.Srules w else none) with
    | some r => .ok ((true, [(r, w)], memo), w :: log)
    | none =>
      match ruleLoopLogged rec g.rules w memo (w :: log) with
      | .ok (.found tr memo', log') => .ok ((true, tr, memo'), log')
      | .ok (.next _ memo', log') => .ok ((false, [], memo'), log')
      | .fault e => .fault e
      | .outOfFuel => .outOfFuel

/-- The function `Grammar::parse_helper(w)` with recursion depth at most
`fuel` and with the call log: every call, the outermost and the recursive
ones, puts its argument in front of the log. -/
def parse_helperLogged (g : Grammar) : Nat → Memo → CallLog → word → LoggedResult
  | 0 => fun _ _ _ => .outOfFuel
  | fuel + 1 => helperBodyLogged g (parse_helperLogged g fuel)

/-- The memo `memo'` and the log `log'` are `memo` and `log` with the same
new entries put in front. -/
def SameAdded (memo : Memo) (log : CallLog) (memo' : Memo) (log' : CallLog) : Prop :=
  ∃ added : List word, memo' = added ++ memo ∧ log' = added ++ log

/-- A logged run of `parse_helper` that returns added the same entries to the
memo and to the log. -/
def LoggedOK (memo : Memo) (log : CallLog) : LoggedResult → Prop
  | .ok ((_, _, memo'), log') => SameAdded memo log memo' log'
  | _ => True

/-- A logged loop of `parse_helper` that ends or returns added the same
entries to the memo and to the log. -/
def LoopLoggedOK (memo : Memo) (log : CallLog) : Run (Loop × CallLog) → Prop
  | .ok (.next _ memo', log') => SameAdded memo log memo' log'
  | .ok (.found _ memo', log') => SameAdded memo log memo' log'
  | _ => True

/-- The rules `A → X`, `B → X` (in this order): from the form `X X` the same
forms are reached along several branches of the search. -/
def gSiblings : Grammar :=
  Grammar.create ["X", "A", "B"] [] [ruleOf "A" "NONE" "X" "NONE", ruleOf "B" "NONE" "X" "NONE"]

/-! ## Fuel: more fuel never changes a finished run -/

theorem tryOne_extends {rec rec' : Memo → word → HelperResult} (h : Extends rec rec')
    (r : rule) (i : Nat) (w : word) (memo : Memo)
    (hne : tryOne rec r i w memo ≠ .outOfFuel) :
    tryOne rec' r i w memo = tryOne rec r i w memo := by
  unfold tryOne at hne ⊢
  by_cases hm : w.set i r.1.1 ∈ memo
  · simp [hm]
  · simp only [hm, if_false] at hne ⊢
    have hr : rec (w.set i r.1.1 :: memo) (w.set i r.1.1) ≠ .outOfFuel := by
      intro hc
      rw [hc] at hne
      exact hne rfl
    rw [h _ _ hr]

theorem tryTwo_extends {rec rec' : Memo → word → HelperResult} (h : Extends rec rec')
    (r : rule) (i : Nat) (w : word) (memo : Memo)
    (hne : tryTwo rec r i w memo ≠ .outOfFuel) :
    tryTwo rec' r i w memo = tryTwo rec r i w memo := by
  unfold tryTwo at hne ⊢
  generalize (if r.1.2 = "NONE" then (w.set i r.1.1).eraseIdx (i + 1)
    else (w.set i r.1.1).set (i + 1) r.1.2) = w1 at hne ⊢
  by_cases hm : w1 ∈ memo
  · simp [hm]
  · simp only [hm, if_false] at hne ⊢
    have hr : rec (w1 :: memo) w1 ≠ .outOfFuel := by
      intro hc
      rw [hc] at hne
      exact hne rfl
    rw [h _ _ hr]

theorem oneSymbol_extends {rec rec' : Memo → word → HelperResult} (h : Extends rec rec')
    (r : rule) : ∀ (k i : Nat) (w : word) (memo : Memo),
    oneSymbol rec r k i w memo ≠ .outOfFuel →
    oneSymbol rec' r k i w memo = oneSymbol rec r k i w memo := by
  intro k
  induction k with
  | zero => intro i w memo _; simp [oneSymbol]
  | succ k ih =>
    intro i w memo hne
    unfold oneSymbol at hne ⊢
    by_cases hi : i < w.length
    · simp only [hi, if_true] at hne ⊢
      by_cases hw : w[i]? = some r.2.1
      · simp only [hw, if_true] at hne ⊢
        have ht : tryOne rec r i w memo ≠ .outOfFuel := by
          intro hc
          rw [hc] at hne
          exact hne rfl
        rw [tryOne_extends h r i w memo ht]
        rcases hres : tryOne rec r i w memo with (⟨w', memo'⟩ | ⟨tr, memo'⟩) | e | _
        · rw [hres] at hne
          exact ih _ _ _ hne
        · rfl
        · rfl
        · rfl
      · simp only [hw, if_false] at hne ⊢
        exact ih _ _ _ hne
    · simp [hi]

theorem twoSymbol_extends {rec rec' : Memo → word → HelperResult} (h : Extends rec rec')
    (r : rule) : ∀ (k i : Nat) (w : word) (memo : Memo),
    twoSymbol rec r k i w memo ≠ .outOfFuel →
    twoSymbol rec' r k i w memo = twoSymbol rec r k i w memo := by
  intro k
  induction k with
  | zero => intro i w memo _; simp [twoSymbol]
  | succ k ih =>
    intro i w memo hne
    unfold twoSymbol at hne ⊢
    by_cases h0 : w.length = 0
    · simp [h0]
    simp only [h0, if_false] at hne ⊢
    by_cases hi : i + 1 < w.length
    · simp only [hi, if_true] at hne ⊢
      by_cases hw : w[i]? = some r.2.1 ∧ w[i + 1]? = some r.2.2
      · simp only [hw, and_self, if_true] at hne ⊢
        have ht : tryTwo rec r i w memo ≠ .outOfFuel := by
          intro hc
          rw [hc] at hne
          exact hne rfl
        rw [tryTwo_extends h r i w memo ht]
        rcases hres : tryTwo rec r i w memo with (⟨w', memo'⟩ | ⟨tr, memo'⟩) | e | _
        · rw [hres] at hne
          exact ih _ _ _ hne
        · rfl
        · rfl
        · rfl
      · simp only [hw, if_false] at hne ⊢
        exact ih _ _ _ hne
    · simp [hi]

theorem ruleLoop_extends {rec rec' : Memo → word → HelperResult} (h : Extends rec rec') :
    ∀ (rs : List rule) (w : word) (memo : Memo),
    ruleLoop rec rs w memo ≠ .outOfFuel →
    ruleLoop rec' rs w memo = ruleLoop rec rs w memo := by
  intro rs
  induction rs with
  | nil => intro w memo _; simp [ruleLoop]
  | cons r rs ih =>
    intro w memo hne
    unfold ruleLoop at hne ⊢
    by_cases hr : r.2.2 = "NONE"
    · simp only [hr, if_true] at hne ⊢
      have ht : oneSymbol rec r w.length 0 w memo ≠ .outOfFuel := by
        intro hc
        rw [hc] at hne
        exact hne rfl
      rw [oneSymbol_extends h r _ _ _ _ ht]
      rcases hres : oneSymbol rec r w.length 0 w memo with (⟨w', memo'⟩ | ⟨tr, memo'⟩) | e | _
      · rw [hres] at hne
        exact ih _ _ hne
      · rfl
      · rfl
      · rfl
    · simp only [hr, if_false] at hne ⊢
      have ht : twoSymbol rec r w.length 0 w memo ≠ .outOfFuel := by
        intro hc
        rw [hc] at hne
        exact hne rfl
      rw [twoSymbol_extends h r _ _ _ _ ht]
      rcases hres : twoSymbol rec r w.length 0 w memo with (⟨w', memo'⟩ | ⟨tr, memo'⟩) | e | _
      · rw [hres] at hne
        exact ih _ _ hne
      · rfl
      · rfl
      · rfl

theorem helperBody_extends (g : Grammar) {rec rec' : Memo → word → HelperResult}
    (h : Extends rec rec') : Extends (helperBody g rec) (helperBody g rec') := by
  intro memo w hne
  unfold helperBody at hne ⊢
  by_cases h0 : w.length = 0
  · simp [h0]
  simp only [h0, if_false] at hne ⊢
  rcases hb : (if w.length ≤ 2 then baseCase g.Srules w else none) with _ | r
  · rw [hb] at hne
    simp only at hne ⊢
    have ht : ruleLoop rec g.rules w memo ≠ .outOfFuel := by
      intro hc
      rw [hc] at hne
      exact hne rfl
    rw [ruleLoop_extends h _ _ _ ht]
  · rfl

theorem parse_helper_succ (g : Grammar) :
    ∀ n, Extends (parse_helper g n) (parse_helper g (n + 1)) := by
  intro n
  induction n with
  | zero => intro memo w hne; exact absurd rfl hne
  | succ n ih => exact helperBody_extends g ih

/-- A finished run of `parse_helper` is the same with any larger fuel. -/
theorem parse_helper_mono (g : Grammar) (n : Nat) (memo : Memo) (w : word)
    (hne : parse_helper g n memo w ≠ .outOfFuel) :
    ∀ m, parse_helper g (n + m) memo w = parse_helper g n memo w := by
  intro m
  induction m with
  | zero => rfl
  | succ m ih =>
    have := parse_helper_succ g (n + m) memo w (by rw [ih]; exact hne)
    rw [← ih, ← this]
    rfl

/-! ## Loop rules -/

theorem oneSymbol_rule (rec : Memo → word → HelperResult) (r : rule)
    (I : Nat → word → Memo → Prop) (Q : Run Loop → Prop)
    (hexit : ∀ i w memo, I i w memo → ¬ i < w.length → Q (.ok (.next w memo)))
    (hskip : ∀ i w memo, I i w memo → i < w.length → w[i]? ≠ some r.2.1 → I (i + 1) w memo)
    (hstep : ∀ i w memo, I i w memo → i < w.length → w[i]? = some r.2.1 →
      Continue (fun w' memo' => I (i + 1) w' memo' ∧ w'.length ≤ w.length) Q
        (tryOne rec r i w memo)) :
    ∀ (k i : Nat) (w : word) (memo : Memo), I i w memo → w.length ≤ i + k →
      Q (oneSymbol rec r k i w memo) := by
  intro k
  induction k with
  | zero =>
    intro i w memo hI hk
    have hi : ¬ i < w.length := by omega
    simp only [oneSymbol, hi, if_false]
    exact hexit i w memo hI hi
  | succ k ih =>
    intro i w memo hI hk
    unfold oneSymbol
    by_cases hi : i < w.length
    · simp only [hi, if_true]
      by_cases hw : w[i]? = some r.2.1
      · simp only [hw, if_true]
        have hs := hstep i w memo hI hi hw
        rcases hres : tryOne rec r i w memo with (⟨w', memo'⟩ | ⟨tr, memo'⟩) | e | _
        · rw [hres] at hs
          exact ih (i + 1) w' memo' hs.1 (by have := hs.2; omega)
        · rw [hres] at hs; exact hs
        · rw [hres] at hs; exact hs
        · rw [hres] at hs; exact hs
      · simp only [hw, if_false]
        exact ih (i + 1) w memo (hskip i w memo hI hi hw) (by omega)
    · simp only [hi, if_false]
      exact hexit i w memo hI hi

theorem twoSymbol_rule (rec : Memo → word → HelperResult) (r : rule)
    (I : Nat → word → Memo → Prop) (Q : Run Loop → Prop)
    (hempty : ∀ i w memo, I i w memo → w.length = 0 → Q (.fault .outOfRange))
    (hexit : ∀ i w memo, I i w memo → ¬ i + 1 < w.length → Q (.ok (.next w memo)))
    (hskip : ∀ i w memo, I i w memo → i + 1 < w.length →
      ¬ (w[i]? = some r.2.1 ∧ w[i + 1]? = some r.2.2) → I (i + 1) w memo)
    (hstep : ∀ i w memo, I i w memo → i + 1 < w.length →
      w[i]? = some r.2.1 → w[i + 1]? = some r.2.2 →
      Continue (fun w' memo' => I (i + 1) w' memo' ∧ w'.length ≤ w.length) Q
        (tryTwo rec r i w memo)) :
    ∀ (k i : Nat) (w : word) (memo : Memo), I i w memo → w.length ≤ i + k →
      Q (twoSymbol rec r k i w memo) := by
  intro k
  induction k with
  | zero =>
    intro i w memo hI hk
    unfold twoSymbol
    by_cases h0 : w.length = 0
    · simp only [h0, if_true]
      exact hempty i w memo hI h0
    have hi : ¬ i + 1 < w.length := by omega
    simp only [h0, hi, if_false]
    exact hexit i w memo hI hi
  | succ k ih =>
    intro i w memo hI hk
    unfold twoSymbol
    by_cases h0 : w.length = 0
    · simp only [h0, if_true]
      exact hempty i w memo hI h0
    simp only [h0, if_false]
    by_cases hi : i + 1 < w.length
    · simp only [hi, if_true]
      by_cases hw : w[i]? = some r.2.1 ∧ w[i + 1]? = some r.2.2
      · simp only [hw, and_self, if_true]
        have hs := hstep i w memo hI hi hw.1 hw.2
        rcases hres : tryTwo rec r i w memo with (⟨w', memo'⟩ | ⟨tr, memo'⟩) | e | _
        · rw [hres] at hs
          exact ih (i + 1) w' memo' hs.1 (by have := hs.2; omega)
        · rw [hres] at hs; exact hs
        · rw [hres] at hs; exact hs
        · rw [hres] at hs; exact hs
      · simp only [hw, if_false]
        exact ih (i + 1) w memo (hskip i w memo hI hi hw) (by omega)
    · simp only [hi, if_false]
      exact hexit i w memo hI hi

theorem ruleLoop_rule (rec : Memo → word → HelperResult)
    (I : List rule → word → Memo → Prop) (Q : Run Loop → Prop)
    (hexit : ∀ w memo, I [] w memo → Q (.ok (.next w memo)))
    (hone : ∀ r rs w memo, I (r :: rs) w memo → r.2.2 = "NONE" →
      Continue (I rs) Q (oneSymbol rec r w.length 0 w memo))
    (htwo : ∀ r rs w memo, I (r :: rs) w memo → r.2.2 ≠ "NONE" →
      Continue (I rs) Q (twoSymbol rec r w.length 0 w memo)) :
    ∀ (rs : List rule) (w : word) (memo : Memo), I rs w memo →
      Q (ruleLoop rec rs w memo) := by
  intro rs
  induction rs with
  | nil =>
    intro w memo hI
    simp only [ruleLoop]
    exact hexit w memo hI
  | cons r rs ih =>
    intro w memo hI
    unfold ruleLoop
    by_cases hr : r.2.2 = "NONE"
    · simp only [hr, if_true]
      have hs := hone r rs w memo hI hr
      rcases hres : oneSymbol rec r w.length 0 w memo with (⟨w', memo'⟩ | ⟨tr, memo'⟩) | e | _
      · rw [hres] at hs
        exact ih w' memo' hs
      · rw [hres] at hs; exact hs
      · rw [hres] at hs; exact hs
      · rw [hres] at hs; exact hs
    · simp only [hr, if_false]
      have hs := htwo r rs w memo hI hr
      rcases hres : twoSymbol rec r w.length 0 w memo with (⟨w', memo'⟩ | ⟨tr, memo'⟩) | e | _
      · rw [hres] at hs
        exact ih w' memo' hs
      · rw [hres] at hs; exact hs
      · rw [hres] at hs; exact hs
      · rw [hres] at hs; exact hs

/-! ## Termination -/

theorem mem_wordsOfLength (A : List symbol) :
    ∀ (n : Nat) (v : word), v ∈ wordsOfLength A n ↔ v.length = n ∧ ∀ s ∈ v, s ∈ A := by
  intro n
  induction n with
  | zero =>
    intro v
    simp only [wordsOfLength, List.mem_singleton]
    constructor
    · rintro rfl; simp
    · rintro ⟨h, _⟩; exact List.length_eq_zero.mp h
  | succ n ih =>
    intro v
    simp only [wordsOfLength, List.mem_flatMap, List.mem_map]
    constructor
    · rintro ⟨s, hs, u, hu, rfl⟩
      rcases (ih u).mp hu with ⟨h1, h2⟩
      refine ⟨by simp [h1], ?_⟩
      intro t ht
      rcases List.mem_cons.mp ht with rfl | ht
      · exact hs
      · exact h2 t ht
    · rintro ⟨h1, h2⟩
      cases v with
      | nil => simp at h1
      | cons s u =>
        refine ⟨s, h2 s (List.mem_cons_self _ _), u, (ih u).mpr ⟨by simpa using h1, ?_⟩, rfl⟩
        intro t ht
        exact h2 t (List.mem_cons_of_mem _ ht)

theorem mem_wordsUpTo (A : List symbol) (N : Nat) (v : word) :
    v ∈ wordsUpTo A N ↔ v.length ≤ N ∧ ∀ s ∈ v, s ∈ A := by
  simp only [wordsUpTo, List.mem_flatMap, List.mem_range, mem_wordsOfLength]
  constructor
  · rintro ⟨n, hn, h1, h2⟩
    exact ⟨by omega, h2⟩
  · rintro ⟨h1, h2⟩
    exact ⟨v.length, by omega, rfl, h2⟩

theorem unseen_le_of_subset (A : List symbol) (N : Nat) {memo memo' : Memo}
    (h : memo ⊆ memo') : unseen A N memo' ≤ unseen A N memo := by
  apply Finset.card_le_card
  intro v hv
  simp only [Finset.mem_sdiff, List.mem_toFinset] at hv ⊢
  exact ⟨hv.1, fun hm => hv.2 (h hm)⟩

theorem unseen_cons_lt (A : List symbol) (N : Nat) {memo : Memo} {v : word}
    (hv : v ∈ wordsUpTo A N) (hm : v ∉ memo) :
    unseen A N (v :: memo) < unseen A N memo := by
  apply Finset.card_lt_card
  constructor
  · intro u hu
    simp only [Finset.mem_sdiff, List.mem_toFinset, List.mem_cons, not_or] at hu ⊢
    exact ⟨hu.1, hu.2.2⟩
  · intro hsub
    have : v ∈ (wordsUpTo A N).toFinset \ (v :: memo).toFinset := by
      apply hsub
      simp only [Finset.mem_sdiff, List.mem_toFinset]
      exact ⟨hv, hm⟩
    simp at this

theorem unseen_lt_length (A : List symbol) (N : Nat) (memo : Memo) :
    unseen A N memo ≤ (wordsUpTo A N).length := by
  unfold unseen
  calc ((wordsUpTo A N).toFinset \ memo.toFinset).card
      ≤ (wordsUpTo A N).toFinset.card := Finset.card_le_card Finset.sdiff_subset
    _ ≤ (wordsUpTo A N).length := List.toFinset_card_le _

theorem wordsUpTo_set {A : List symbol} {N : Nat} {w : word} (hw : w ∈ wordsUpTo A N)
    (i : Nat) {a : symbol} (ha : a ∈ A) : w.set i a ∈ wordsUpTo A N := by
  rw [mem_wordsUpTo] at hw ⊢
  refine ⟨by simpa using hw.1, ?_⟩
  intro s hs
  rcases List.mem_or_eq_of_mem_set hs with h | rfl
  · exact hw.2 s h
  · exact ha

theorem wordsUpTo_eraseIdx {A : List symbol} {N : Nat} {w : word} (hw : w ∈ wordsUpTo A N)
    (i : Nat) : w.eraseIdx i ∈ wordsUpTo A N := by
  rw [mem_wordsUpTo] at hw ⊢
  refine ⟨le_trans (List.length_eraseIdx_le w i) hw.1, ?_⟩
  intro s hs
  exact hw.2 s (List.mem_of_mem_eraseIdx hs)

theorem tryOne_finished {A : List symbol} {N n : Nat} {rec : Memo → word → HelperResult}
    (hrec : RecFinishes A N n rec) {r : rule} (hr : RuleIn A r) (i : Nat) {w : word}
    (hw : w ∈ wordsUpTo A N) {memo0 memo : Memo} (h0 : memo0 ⊆ memo)
    (hn : unseen A N memo ≤ n) :
    Continue (fun w' memo' => (w' ∈ wordsUpTo A N ∧ memo0 ⊆ memo' ∧ unseen A N memo' ≤ n)
        ∧ w'.length ≤ w.length)
      (LoopFinished A N memo0) (tryOne rec r i w memo) := by
  unfold tryOne
  have hw1 : w.set i r.1.1 ∈ wordsUpTo A N := wordsUpTo_set hw i hr.1
  have hw2 : (w.set i r.1.1).set i r.2.1 ∈ wordsUpTo A N := wordsUpTo_set hw1 i hr.2.2.1
  by_cases hm : w.set i r.1.1 ∈ memo
  · simp only [hm, if_true, Continue]
    exact ⟨⟨hw2, h0, hn⟩, by simp⟩
  · simp only [hm, if_false]
    have hlt := unseen_cons_lt A N hw1 hm
    have hf := hrec (w.set i r.1.1 :: memo) (w.set i r.1.1) hw1 (by omega)
    rcases hres : rec (w.set i r.1.1 :: memo) (w.set i r.1.1) with ⟨b, tr, memo'⟩ | e | _
    · rw [hres] at hf
      simp only [Finished] at hf
      have hsub : memo ⊆ memo' := fun v hv => hf (List.mem_cons_of_mem _ hv)
      cases b
      · simp only [Continue]
        exact ⟨⟨hw2, h0.trans hsub, le_trans (unseen_le_of_subset A N hsub) hn⟩, by simp⟩
      · simp only [Continue, LoopFinished]
        exact h0.trans hsub
    · simp [Continue, LoopFinished]
    · rw [hres] at hf
      exact hf.elim

theorem continue_imp {I I' J : word → Memo → Prop} {Q : Run Loop → Prop} {res : Run Loop}
    (h : ∀ w m, I w m → I' w m) (hc : Continue I Q res) :
    Continue I' (Continue J Q) res := by
  rcases res with (⟨w', memo'⟩ | ⟨tr, memo'⟩) | e | _
  · exact h _ _ hc
  · exact hc
  · exact hc
  · exact hc

theorem tryTwo_finished {A : List symbol} {N n : Nat} {rec : Memo → word → HelperResult}
    (hrec : RecFinishes A N n rec) {r : rule} (hr : RuleIn A r) (i : Nat) {w : word}
    (hw : w ∈ wordsUpTo A N) {memo0 memo : Memo} (h0 : memo0 ⊆ memo)
    (hn : unseen A N memo ≤ n) :
    Continue (fun w' memo' => (w' ∈ wordsUpTo A N ∧ memo0 ⊆ memo' ∧ unseen A N memo' ≤ n)
        ∧ w'.length ≤ w.length)
      (LoopFinished A N memo0) (tryTwo rec r i w memo) := by
  unfold tryTwo
  have hw0 : w.set i r.1.1 ∈ wordsUpTo A N := wordsUpTo_set hw i hr.1
  have hw1 : (if r.1.2 = "NONE" then (w.set i r.1.1).eraseIdx (i + 1)
      else (w.set i r.1.1).set (i + 1) r.1.2) ∈ wordsUpTo A N := by
    split
    · exact wordsUpTo_eraseIdx hw0 _
    · exact wordsUpTo_set hw0 _ hr.2.1
  have hlen : (if r.1.2 = "NONE" then (w.set i r.1.1).eraseIdx (i + 1)
      else (w.set i r.1.1).set (i + 1) r.1.2).length ≤ w.length := by
    split
    · exact le_trans (List.length_eraseIdx_le _ _) (by simp)
    · simp
  generalize (if r.1.2 = "NONE" then (w.set i r.1.1).eraseIdx (i + 1)
    else (w.set i r.1.1).set (i + 1) r.1.2) = w1 at hw1 hlen ⊢
  have hrest : ∀ memo', memo0 ⊆ memo' → unseen A N memo' ≤ n →
      Continue (fun w' memo' => (w' ∈ wordsUpTo A N ∧ memo0 ⊆ memo' ∧ unseen A N memo' ≤ n)
        ∧ w'.length ≤ w.length)
      (LoopFinished A N memo0) ((restoreTwo r i w1).bind (fun w' => .ok (.next w' memo'))) := by
    intro memo' h1 h2
    unfold restoreTwo
    by_cases hi : i + 1 < w1.length
    · simp only [hi, if_true, Run.bind, Continue]
      exact ⟨⟨wordsUpTo_set (wordsUpTo_set hw1 i hr.2.2.1) _ hr.2.2.2, h1, h2⟩, by simpa using hlen⟩
    · simp only [hi, if_false, Run.bind, Continue, LoopFinished]
  by_cases hm : w1 ∈ memo
  · simp only [hm, if_true]
    exact hrest memo h0 hn
  · simp only [hm, if_false]
    have hlt := unseen_cons_lt A N hw1 hm
    have hf := hrec (w1 :: memo) w1 hw1 (by omega)
    rcases hres : rec (w1 :: memo) w1 with ⟨b, tr, memo'⟩ | e | _
    · rw [hres] at hf
      simp only [Finished] at hf
      have hsub : memo ⊆ memo' := fun v hv => hf (List.mem_cons_of_mem _ hv)
      cases b
      · exact hrest memo' (h0.trans hsub) (le_trans (unseen_le_of_subset A N hsub) hn)
      · simp only [Continue, LoopFinished]
        exact h0.trans hsub
    · simp [Continue, LoopFinished]
    · rw [hres] at hf
      exact hf.elim

theorem ruleLoop_finished {A : List symbol} {N n : Nat} {rec : Memo → word → HelperResult}
    (hrec : RecFinishes A N n rec) (memo0 : Memo) :
    ∀ (rs : List rule) (w : word) (memo : Memo),
      ((∀ r ∈ rs, RuleIn A r) ∧ w ∈ wordsUpTo A N ∧ memo0 ⊆ memo ∧ unseen A N memo ≤ n) →
      LoopFinished A N memo0 (ruleLoop rec rs w memo) := by
  apply ruleLoop_rule rec
    (fun rs w memo => (∀ r ∈ rs, RuleIn A r) ∧ w ∈ wordsUpTo A N ∧ memo0 ⊆ memo ∧
      unseen A N memo ≤ n)
  · intro w memo hI
    exact ⟨hI.2.1, hI.2.2.1⟩
  · intro r rs w memo hI _
    have hr : RuleIn A r := hI.1 r (List.mem_cons_self _ _)
    have hrs : ∀ r' ∈ rs, RuleIn A r' := fun r' h => hI.1 r' (List.mem_cons_of_mem _ h)
    apply oneSymbol_rule rec r
      (fun _ w memo => w ∈ wordsUpTo A N ∧ memo0 ⊆ memo ∧ unseen A N memo ≤ n)
    · intro i w memo h _
      exact ⟨hrs, h⟩
    · intro i w memo h _ _
      exact h
    · intro i w memo h _ _
      exact continue_imp (fun _ _ h => h) (tryOne_finished hrec hr i h.1 h.2.1 h.2.2)
    · exact hI.2
    · omega
  · intro r rs w memo hI _
    have hr : RuleIn A r := hI.1 r (List.mem_cons_self _ _)
    have hrs : ∀ r' ∈ rs, RuleIn A r' := fun r' h => hI.1 r' (List.mem_cons_of_mem _ h)
    apply twoSymbol_rule rec r
      (fun _ w memo => w ∈ wordsUpTo A N ∧ memo0 ⊆ memo ∧ unseen A N memo ≤ n)
    · intro i w memo _ _
      trivial
    · intro i w memo h _
      exact ⟨hrs, h⟩
    · intro i w memo h _ _
      exact h
    · intro i w memo h _ _ _
      exact continue_imp (fun _ _ h => h) (tryTwo_finished hrec hr i h.1 h.2.1 h.2.2)
    · exact hI.2
    · omega

theorem helperBody_finished (g : Grammar) {A : List symbol} {N n : Nat}
    {rec : Memo → word → HelperResult} (hrec : RecFinishes A N n rec)
    (hA : ∀ r ∈ g.rules, RuleIn A r) {w : word} (hw : w ∈ wordsUpTo A N) {memo : Memo}
    (hn : unseen A N memo ≤ n) : Finished memo (helperBody g rec memo w) := by
  unfold helperBody
  by_cases h0 : w.length = 0
  · simp [h0, Finished]
  simp only [h0, if_false]
  rcases (if w.length ≤ 2 then baseCase g.Srules w else none) with _ | r
  · have hl := ruleLoop_finished hrec memo g.rules w memo
      ⟨hA, hw, List.Subset.refl _, hn⟩
    simp only
    rcases hres : ruleLoop rec g.rules w memo with (⟨w', memo'⟩ | ⟨tr, memo'⟩) | e | _
    · rw [hres] at hl
      exact hl.2
    · rw [hres] at hl
      exact hl
    · trivial
    · rw [hres] at hl
      exact hl
  · simp [Finished]

theorem parse_helper_finished (g : Grammar) {A : List symbol} {N : Nat}
    (hA : ∀ r ∈ g.rules, RuleIn A r) :
    ∀ n, RecFinishes A N n (parse_helper g n) := by
  intro n
  induction n with
  | zero => intro memo w _ h; omega
  | succ n ih =>
    intro memo w hw h
    exact helperBody_finished g ih hA hw (by omega)

theorem alphabet_rule (g : Grammar) (w : word) : ∀ r ∈ g.rules, RuleIn (alphabet g w) r := by
  intro r hr
  have : ∀ s ∈ [r.1.1, r.1.2, r.2.1, r.2.2], s ∈ alphabet g w := by
    intro s hs
    unfold alphabet
    exact List.mem_append_right _ (List.mem_flatMap.mpr ⟨r, hr, hs⟩)
  exact ⟨this _ (by simp), this _ (by simp), this _ (by simp), this _ (by simp)⟩

theorem mem_wordsUpTo_self (g : Grammar) (w : word) :
    w ∈ wordsUpTo (alphabet g w) w.length := by
  rw [mem_wordsUpTo]
  exact ⟨le_refl _, fun s hs => List.mem_append_left _ hs⟩

/-- With `fuelBound g w` fuel or more, `parse_helper` finishes on `w`, from
every memo, and the memo it leaves contains the memo it was given. -/
theorem parse_helper_terminates (g : Grammar) (memo : Memo) (w : word) (fuel : Nat)
    (hfuel : fuelBound g w ≤ fuel) : Finished memo (parse_helper g fuel memo w) := by
  apply parse_helper_finished g (alphabet_rule g w) fuel memo w (mem_wordsUpTo_self g w)
  have := unseen_lt_length (alphabet g w) w.length memo
  unfold fuelBound at hfuel
  omega

/-! ## Grammars of length-preserving rules -/

theorem set_of_getElem? {w : word} {i : Nat} {a : symbol} (h : w[i]? = some a) :
    w.set i a = w := by
  apply List.ext_getElem?
  intro n
  rw [List.getElem?_set]
  split
  · next hin =>
    subst hin
    rcases List.getElem?_eq_some.mp h with ⟨hlt, _⟩
    simp [hlt, h]
  · rfl

theorem restore_pair {w : word} {i : Nat} {a b c d : symbol} (ha : w[i]? = some a)
    (hb : w[i + 1]? = some b) :
    ((((w.set i c).set (i + 1) d).set i a).set (i + 1) b) = w := by
  have h1 : ((w.set i c).set (i + 1) d).set i a = (w.set i a).set (i + 1) d := by
    rw [List.set_comm c d w (by omega), List.set_set]
    exact List.set_comm d a w (by omega)
  rw [h1, List.set_set, set_of_getElem? ha, set_of_getElem? hb]

theorem unreachable_step {g : Grammar} {u v : word} (h : Unreachable g u)
    (hs : reverseStep g u v) : Unreachable g v :=
  fun x hx => h x (Relation.ReflTransGen.head hs hx)

theorem tryTwo_noSuccess {g : Grammar} {rec : Memo → word → HelperResult}
    (hrec : ∀ memo w, Unreachable g w → NoSuccess (rec memo w))
    {r : rule} (hr : r ∈ g.rules) (hl : r.1.2 ≠ "NONE") (hr2 : r.2.2 ≠ "NONE")
    {i : Nat} {w : word} (hw : Unreachable g w) (hi : i + 1 < w.length)
    (h1 : w[i]? = some r.2.1) (h2 : w[i + 1]? = some r.2.2) (memo : Memo) :
    tryTwo rec r i w memo = .outOfFuel ∨ ∃ memo', tryTwo rec r i w memo = .ok (.next w memo') := by
  have hstep : reverseStep g w ((w.set i r.1.1).set (i + 1) r.1.2) :=
    ⟨r, hr, i, by simp [matchesAt, hr2, hi, h1, h2], by simp [rewritten, hr2, hl]⟩
  have hrest : restoreTwo r i ((w.set i r.1.1).set (i + 1) r.1.2) = .ok w := by
    unfold restoreTwo
    rw [if_pos (by simpa using hi), restore_pair h1 h2]
  unfold tryTwo
  simp only [hl, if_false, hrest, Run.bind]
  by_cases hm : (w.set i r.1.1).set (i + 1) r.1.2 ∈ memo
  · simp [hm]
  · simp only [hm, if_false]
    have hf := hrec ((w.set i r.1.1).set (i + 1) r.1.2 :: memo) _ (unreachable_step hw hstep)
    rcases hres : rec ((w.set i r.1.1).set (i + 1) r.1.2 :: memo)
      ((w.set i r.1.1).set (i + 1) r.1.2) with ⟨b, tr, memo'⟩ | e | _
    · rw [hres] at hf
      rcases hf with ⟨rfl, rfl⟩
      exact Or.inr ⟨memo', rfl⟩
    · rw [hres] at hf
      exact hf.elim
    · exact Or.inl rfl

theorem baseCase_none_of_length : ∀ (rs : List rule) (w : word),
    ¬ w.length ≤ 2 → baseCase rs w = none := by
  intro rs w h
  cases rs with
  | nil => rfl
  | cons r rs =>
    match w, h with
    | [], h => simp at h
    | [_], h => simp at h
    | [_, _], h => simp at h
    | _ :: _ :: _ :: _, _ => rfl

theorem helperBody_noSuccess {g : Grammar} {rec : Memo → word → HelperResult}
    (hg : ∀ r ∈ g.rules, r.1.2 ≠ "NONE" ∧ r.2.2 ≠ "NONE")
    (hrec : ∀ memo w, Unreachable g w → NoSuccess (rec memo w))
    (memo : Memo) (w : word) (hw : Unreachable g w) :
    NoSuccess (helperBody g rec memo w) := by
  unfold helperBody
  by_cases h0 : w.length = 0
  · simp [h0, NoSuccess]
  simp only [h0, if_false]
  have hb : (if w.length ≤ 2 then baseCase g.Srules w else none) = none := by
    split
    · exact hw w Relation.ReflTransGen.refl
    · rfl
  rw [hb]
  simp only
  have hl : ruleLoop rec g.rules w memo = .outOfFuel ∨
      ∃ w' memo', ruleLoop rec g.rules w memo = .ok (.next w' memo') := by
    apply ruleLoop_rule rec (fun rs w' _ => w' = w ∧ ∀ r ∈ rs, r ∈ g.rules)
      (fun res => res = .outOfFuel ∨ ∃ w' memo', res = .ok (.next w' memo'))
    · intro w' memo' _
      exact Or.inr ⟨w', memo', rfl⟩
    · intro r rs w' memo' hI hr
      exact absurd hr (hg r (hI.2 r (List.mem_cons_self _ _))).2
    · intro r rs w' memo' hI hr
      rcases hI with ⟨rfl, hmem⟩
      have hrg := hmem r (List.mem_cons_self _ _)
      apply twoSymbol_rule rec r (fun _ w'' _ => w'' = w')
      · intro i w'' memo'' hI' hlen
        subst hI'
        exact absurd hlen h0
      · intro i w'' memo'' hI' _
        subst hI'
        exact ⟨rfl, fun r' h => hmem r' (List.mem_cons_of_mem _ h)⟩
      · intro i w'' memo'' hI' _ _
        exact hI'
      · intro i w'' memo'' hI' hi h1 h2
        subst hI'
        rcases tryTwo_noSuccess hrec hrg (hg r hrg).1 hr hw hi h1 h2 memo'' with h | ⟨m, h⟩
        · rw [h]
          exact Or.inl rfl
        · rw [h]
          exact ⟨rfl, le_refl _⟩
      · rfl
      · omega
    · exact ⟨rfl, fun _ h => h⟩
  rcases hl with h | ⟨w', memo', h⟩
  · rw [h]
    trivial
  · rw [h]
    exact ⟨rfl, rfl⟩

theorem parse_helper_noSuccess {g : Grammar}
    (hg : ∀ r ∈ g.rules, r.1.2 ≠ "NONE" ∧ r.2.2 ≠ "NONE") :
    ∀ (n : Nat) (memo : Memo) (w : word), Unreachable g w →
      NoSuccess (parse_helper g n memo w) := by
  intro n
  induction n with
  | zero => intro memo w _; trivial
  | succ n ih => exact helperBody_noSuccess hg ih

/-! ## The choice counter -/

theorem counterValue_nil (maxes : List Int) : counterValue [] maxes = 0 := by
  simp [counterValue]

theorem counterValue_cons (p : Int) (ps : List Int) (m : Int) (ms : List Int) :
    counterValue (p :: ps) (m :: ms) = p + m * counterValue ps ms := by
  unfold counterValue
  rw [List.length_cons, List.range_succ_eq_map, List.map_cons, List.sum_cons, List.map_map]
  have h0 : (p :: ps).getD 0 0 * (List.take 0 (m :: ms)).prod = p := by simp
  rw [h0]
  congr 1
  rw [← List.sum_map_mul_left]
  congr 1
  apply List.map_congr_left
  intro i _
  simp only [Function.comp, List.getD_cons_succ, List.take_succ_cons, List.prod_cons]
  ring

theorem inRange_bounds {c maxes : List Int} (h : InRange c maxes) :
    0 ≤ counterValue c maxes ∧ counterValue c maxes < maxes.prod := by
  induction h with
  | nil => simp [counterValue_nil]
  | @cons p m ps ms hd _ ih =>
    rw [counterValue_cons, List.prod_cons]
    rcases hd with ⟨h1, h2⟩
    rcases ih with ⟨h3, h4⟩
    constructor
    · have : 0 ≤ m * counterValue ps ms := mul_nonneg (by omega) h3
      omega
    · have : m * (counterValue ps ms + 1) ≤ m * ms.prod :=
        mul_le_mul_of_nonneg_left (by omega) (by omega)
      have h5 : m * (counterValue ps ms + 1) = m * counterValue ps ms + m := by ring
      omega

theorem nextChoice_step {c maxes : List Int} (h : InRange c maxes) :
    (counterValue c maxes + 1 < maxes.prod →
      ∃ c', nextChoice c maxes = .ok (true, c') ∧ InRange c' maxes ∧
        counterValue c' maxes = counterValue c maxes + 1) ∧
    (¬ counterValue c maxes + 1 < maxes.prod →
      nextChoice c maxes = .ok (false, zeroChoice maxes)) := by
  induction h with
  | nil =>
    constructor
    · intro hlt
      simp [counterValue_nil] at hlt
    · intro _
      rfl
  | @cons p m ps ms hd tl ih =>
    rcases hd with ⟨h1, h2⟩
    have hb := inRange_bounds tl
    rw [counterValue_cons, List.prod_cons]
    have hmul : m * (counterValue ps ms + 1) = m * counterValue ps ms + m := by ring
    by_cases hp : p < m - 1
    · have hlt : p + m * counterValue ps ms + 1 < m * ms.prod := by
        have : m * (counterValue ps ms + 1) ≤ m * ms.prod :=
          mul_le_mul_of_nonneg_left (by omega) (by omega)
        omega
      constructor
      · intro _
        refine ⟨(p + 1) :: ps, by simp [nextChoice, hp], ?_, ?_⟩
        · exact List.Forall₂.cons ⟨by omega, by omega⟩ tl
        · rw [counterValue_cons]
          ring
      · intro hn
        exact absurd hlt hn
    · have hpm : p = m - 1 := by omega
      have hiff : p + m * counterValue ps ms + 1 < m * ms.prod ↔
          counterValue ps ms + 1 < ms.prod := by
        rw [hpm]
        have e : m - 1 + m * counterValue ps ms + 1 = m * (counterValue ps ms + 1) := by ring
        rw [e]
        exact mul_lt_mul_left (by omega)
      constructor
      · intro hlt
        rcases ih.1 (hiff.mp hlt) with ⟨c', hc1, hc2, hc3⟩
        refine ⟨0 :: c', by simp [nextChoice, hp, hc1, Run.bind], ?_, ?_⟩
        · exact List.Forall₂.cons ⟨le_refl _, by omega⟩ hc2
        · rw [counterValue_cons, hc3, hpm]
          ring
      · intro hn
        have := ih.2 (fun hc => hn (hiff.mpr hc))
        simp [nextChoice, hp, this, Run.bind, zeroChoice, List.replicate_succ]

theorem counterValue_inj {c maxes : List Int} (h : InRange c maxes) :
    ∀ {c' : List Int}, InRange c' maxes → counterValue c maxes = counterValue c' maxes →
      c = c' := by
  induction h with
  | nil =>
    intro c' h' _
    cases h'
    rfl
  | @cons p m ps ms hd tl ih =>
    intro c' h' hv
    cases h' with
    | @cons p' _ ps' _ hd' tl' =>
      rw [counterValue_cons, counterValue_cons] at hv
      rcases hd with ⟨h1, h2⟩
      rcases hd' with ⟨h1', h2'⟩
      have hV : counterValue ps ms = counterValue ps' ms := by
        rcases lt_trichotomy (counterValue ps ms) (counterValue ps' ms) with hlt | heq | hgt
        · have : m * (counterValue ps ms + 1) ≤ m * counterValue ps' ms :=
            mul_le_mul_of_nonneg_left (by omega) (by omega)
          have e : m * (counterValue ps ms + 1) = m * counterValue ps ms + m := by ring
          omega
        · exact heq
        · have : m * (counterValue ps' ms + 1) ≤ m * counterValue ps ms :=
            mul_le_mul_of_nonneg_left (by omega) (by omega)
          have e : m * (counterValue ps' ms + 1) = m * counterValue ps' ms + m := by ring
          omega
      have hp : p = p' := by
        rw [hV] at hv
        omega
      rw [hp, ih tl' hV]

theorem zeroChoice_inRange : ∀ (maxes : List Int), (∀ m ∈ maxes, 0 < m) →
    InRange (zeroChoice maxes) maxes ∧ counterValue (zeroChoice maxes) maxes = 0 := by
  intro maxes
  induction maxes with
  | nil => intro _; exact ⟨List.Forall₂.nil, counterValue_nil _⟩
  | cons m ms ih =>
    intro h
    have hm := h m (List.mem_cons_self _ _)
    rcases ih (fun x hx => h x (List.mem_cons_of_mem _ hx)) with ⟨h1, h2⟩
    constructor
    · exact List.Forall₂.cons ⟨le_refl _, hm⟩ h1
    · show counterValue (0 :: zeroChoice ms) (m :: ms) = 0
      rw [counterValue_cons, h2]
      ring

theorem iterateNextChoice_visits (maxes : List Int) (hpos : ∀ m ∈ maxes, 0 < m) :
    ∀ k : Nat, (k : Int) < maxes.prod →
      ∃ c, iterateNextChoice maxes k = .ok (true, c) ∧ InRange c maxes ∧
        counterValue c maxes = k := by
  intro k
  induction k with
  | zero =>
    intro _
    exact ⟨zeroChoice maxes, rfl, (zeroChoice_inRange maxes hpos).1,
      by simpa using (zeroChoice_inRange maxes hpos).2⟩
  | succ k ih =>
    intro hk
    rcases ih (by push_cast at hk; omega) with ⟨c, h1, h2, h3⟩
    rcases (nextChoice_step h2).1 (by rw [h3]; push_cast at hk; omega) with ⟨c', h4, h5, h6⟩
    refine ⟨c', by simp [iterateNextChoice, h1, Run.bind, h4], h5, ?_⟩
    rw [h6, h3]
    push_cast
    ring

theorem iterateNextChoice_exhausts (maxes : List Int) (hpos : ∀ m ∈ maxes, 0 < m) :
    iterateNextChoice maxes maxes.prod.toNat = .ok (false, zeroChoice maxes) := by
  have hprod : 0 < maxes.prod := List.prod_pos hpos
  obtain ⟨k, hk⟩ : ∃ k : Nat, maxes.prod.toNat = k + 1 :=
    ⟨maxes.prod.toNat - 1, by omega⟩
  rw [hk]
  rcases iterateNextChoice_visits maxes hpos k (by omega) with ⟨c, h1, h2, h3⟩
  have := (nextChoice_step h2).2 (by rw [h3]; omega)
  simp [iterateNextChoice, h1, Run.bind, this]

/-! ## Loop rules with a separate exit condition -/

theorem oneSymbol_rule' (rec : Memo → word → HelperResult) (r : rule)
    (I : Nat → word → Memo → Prop) (J : word → Memo → Prop) (Q : Run Loop → Prop)
    (hexit : ∀ i w memo, I i w memo → ¬ i < w.length → J w memo)
    (hskip : ∀ i w memo, I i w memo → i < w.length → w[i]? ≠ some r.2.1 → I (i + 1) w memo)
    (hstep : ∀ i w memo, I i w memo → i < w.length → w[i]? = some r.2.1 →
      Continue (fun w' memo' => I (i + 1) w' memo' ∧ w'.length ≤ w.length) Q
        (tryOne rec r i w memo)) :
    ∀ (k i : Nat) (w : word) (memo : Memo), I i w memo → w.length ≤ i + k →
      Continue J Q (oneSymbol rec r k i w memo) :=
  oneSymbol_rule rec r I (Continue J Q) hexit hskip
    (fun i w memo h1 h2 h3 => continue_imp (fun _ _ h => h) (hstep i w memo h1 h2 h3))

theorem twoSymbol_rule' (rec : Memo → word → HelperResult) (r : rule)
    (I : Nat → word → Memo → Prop) (J : word → Memo → Prop) (Q : Run Loop → Prop)
    (hempty : ∀ i w memo, I i w memo → w.length = 0 → Q (.fault .outOfRange))
    (hexit : ∀ i w memo, I i w memo → ¬ i + 1 < w.length → J w memo)
    (hskip : ∀ i w memo, I i w memo → i + 1 < w.length →
      ¬ (w[i]? = some r.2.1 ∧ w[i + 1]? = some r.2.2) → I (i + 1) w memo)
    (hstep : ∀ i w memo, I i w memo → i + 1 < w.length →
      w[i]? = some r.2.1 → w[i + 1]? = some r.2.2 →
      Continue (fun w' memo' => I (i + 1) w' memo' ∧ w'.length ≤ w.length) Q
        (tryTwo rec r i w memo)) :
    ∀ (k i : Nat) (w : word) (memo : Memo), I i w memo → w.length ≤ i + k →
      Continue J Q (twoSymbol rec r k i w memo) :=
  twoSymbol_rule rec r I (Continue J Q) hempty hexit hskip
    (fun i w memo h1 h2 h3 h4 => continue_imp (fun _ _ h => h) (hstep i w memo h1 h2 h3 h4))

theorem ruleLoop_rule' (rec : Memo → word → HelperResult)
    (I : List rule → word → Memo → Prop) (Q : Run Loop → Prop)
    (hone : ∀ r rs w memo, I (r :: rs) w memo → r.2.2 = "NONE" →
      Continue (I rs) Q (oneSymbol rec r w.length 0 w memo))
    (htwo : ∀ r rs w memo, I (r :: rs) w memo → r.2.2 ≠ "NONE" →
      Continue (I rs) Q (twoSymbol rec r w.length 0 w memo)) :
    ∀ (rs : List rule) (w : word) (memo : Memo), I rs w memo →
      Continue (I []) Q (ruleLoop rec rs w memo) :=
  ruleLoop_rule rec I (Continue (I []) Q) (fun _ _ h => h)
    (fun r rs w memo h1 h2 => continue_imp (fun _ _ h => h) (hone r rs w memo h1 h2))
    (fun r rs w memo h1 h2 => continue_imp (fun _ _ h => h) (htwo r rs w memo h1 h2))

/-! ## Completeness of the search for length-preserving rules -/

theorem closed_mono {g : Grammar} {memo memo' : Memo} {v : word} (h : Closed g memo v)
    (hs : memo ⊆ memo') : Closed g memo' v :=
  ⟨h.1, fun v' hv => hs (h.2 v' hv)⟩

theorem searching_after_call {g : Grammar} {memo0 memo memo' : Memo} {w w1 : word}
    (hs : Searching g memo0 w w memo)
    (he : Explored g (w1 :: memo) w1 (.ok (false, [], memo'))) :
    Searching g memo0 w w memo' ∧ memo ⊆ memo' ∧ w1 ∈ memo' := by
  rcases he with ⟨h1, h2, h3⟩
  have hsub : memo ⊆ memo' := fun v hv => h1 (List.mem_cons_of_mem _ hv)
  refine ⟨⟨rfl, hs.2.1.trans hsub, ?_⟩, hsub, h1 (List.mem_cons_self _ _)⟩
  intro v hv hv0
  by_cases hvm : v ∈ memo
  · exact closed_mono (hs.2.2 v hvm hv0) hsub
  · by_cases hv1 : v = w1
    · rw [hv1]
      exact h3
    · exact h2 v hv (by simp [hv1, hvm])

theorem tryOne_explored {g : Grammar} {rec : Memo → word → HelperResult}
    (hrec : ∀ memo w, Explored g memo w (rec memo w))
    (r : rule) {i : Nat} {w : word} (h1 : w[i]? = some r.2.1)
    {memo0 memo : Memo} (hs : Searching g memo0 w w memo) :
    Continue (fun w' memo' => Searching g memo0 w w' memo' ∧ memo ⊆ memo' ∧
        w.set i r.1.1 ∈ memo') LoopOK
      (tryOne rec r i w memo) := by
  unfold tryOne
  have hback : (w.set i r.1.1).set i r.2.1 = w := by
    rw [List.set_set, set_of_getElem? h1]
  simp only [hback]
  by_cases hm : w.set i r.1.1 ∈ memo
  · rw [if_pos hm]
    exact ⟨hs, List.Subset.refl _, hm⟩
  · simp only [hm, if_false]
    have hf := hrec (w.set i r.1.1 :: memo) (w.set i r.1.1)
    rcases hres : rec (w.set i r.1.1 :: memo) (w.set i r.1.1) with ⟨b, tr, memo'⟩ | e | _
    · rw [hres] at hf
      cases b
      · simp only [Continue]
        exact searching_after_call hs hf
      · simp [Continue, LoopOK]
    · rw [hres] at hf
      exact hf.elim
    · simp [Continue, LoopOK]

theorem tryTwo_explored {g : Grammar} {rec : Memo → word → HelperResult}
    (hrec : ∀ memo w, Explored g memo w (rec memo w))
    (r : rule) (hl : r.1.2 ≠ "NONE") {i : Nat} {w : word} (hi : i + 1 < w.length)
    (h1 : w[i]? = some r.2.1) (h2 : w[i + 1]? = some r.2.2)
    {memo0 memo : Memo} (hs : Searching g memo0 w w memo) :
    Continue (fun w' memo' => Searching g memo0 w w' memo' ∧ memo ⊆ memo' ∧
        (w.set i r.1.1).set (i + 1) r.1.2 ∈ memo') LoopOK
      (tryTwo rec r i w memo) := by
  have hrest : restoreTwo r i ((w.set i r.1.1).set (i + 1) r.1.2) = .ok w := by
    unfold restoreTwo
    rw [if_pos (by simpa using hi), restore_pair h1 h2]
  unfold tryTwo
  simp only [hl, if_false, hrest, Run.bind]
  by_cases hm : (w.set i r.1.1).set (i + 1) r.1.2 ∈ memo
  · rw [if_pos hm]
    exact ⟨hs, List.Subset.refl _, hm⟩
  · simp only [hm, if_false]
    have hf := hrec ((w.set i r.1.1).set (i + 1) r.1.2 :: memo) ((w.set i r.1.1).set (i + 1) r.1.2)
    rcases hres : rec ((w.set i r.1.1).set (i + 1) r.1.2 :: memo)
      ((w.set i r.1.1).set (i + 1) r.1.2) with ⟨b, tr, memo'⟩ | e | _
    · rw [hres] at hf
      cases b
      · simp only [Continue]
        exact searching_after_call hs hf
      · simp [Continue, LoopOK]
    · rw [hres] at hf
      exact hf.elim
    · simp [Continue, LoopOK]

theorem covered_mono {done : List rule} {w : word} {memo memo' : Memo}
    (h : Covered done w memo) (hs : memo ⊆ memo') : Covered done w memo' :=
  fun r hr i hm => hs (h r hr i hm)

theorem coveredBelow_mono {r : rule} {i : Nat} {w : word} {memo memo' : Memo}
    (h : CoveredBelow r i w memo) (hs : memo ⊆ memo') : CoveredBelow r i w memo' :=
  fun j hj hm => hs (h j hj hm)

theorem coveredBelow_succ {r : rule} {i : Nat} {w : word} {memo : Memo}
    (h : CoveredBelow r i w memo) (hi : matchesAt r i w → rewritten r i w ∈ memo) :
    CoveredBelow r (i + 1) w memo := by
  intro j hj hm
  by_cases hji : j = i
  · subst hji
    exact hi hm
  · exact h j (by omega) hm

theorem covered_snoc {done : List rule} {r : rule} {w : word} {memo : Memo}
    (h : Covered done w memo) (hr : ∀ i, matchesAt r i w → rewritten r i w ∈ memo) :
    Covered (done ++ [r]) w memo := by
  intro r' hr' i hm
  rcases List.mem_append.mp hr' with h' | h'
  · exact h r' h' i hm
  · rw [List.mem_singleton.mp h'] at hm ⊢
    exact hr i hm

theorem oneSymbol_explored {g : Grammar} {rec : Memo → word → HelperResult}
    (hrec : ∀ memo w, Explored g memo w (rec memo w)) (memo0 : Memo) (w : word)
    (done : List rule) (r : rule) (rs : List rule) (hg : g.rules = done ++ r :: rs)
    (hr : r.2.2 = "NONE") (memo : Memo) (hs : Searching g memo0 w w memo)
    (hc : Covered done w memo) :
    Continue (RuleInv g memo0 w rs) LoopOK (oneSymbol rec r w.length 0 w memo) := by
  apply oneSymbol_rule' rec r (PosInv g memo0 w done r)
  · intro i w' memo' hI hi
    rcases hI with ⟨hs', hc', hb'⟩
    refine ⟨hs', done ++ [r], by simp [hg], covered_snoc hc' ?_⟩
    intro j hm
    apply hb' j _ hm
    have hw' : w' = w := hs'.1
    simp only [matchesAt, hr, if_true] at hm
    rcases List.getElem?_eq_some.mp hm with ⟨hlt, _⟩
    rw [hw'] at hi
    omega
  · intro i w' memo' hI _ hne
    rcases hI with ⟨hs', hc', hb'⟩
    refine ⟨hs', hc', coveredBelow_succ hb' ?_⟩
    intro hm
    have hw' : w' = w := hs'.1
    simp only [matchesAt, hr, if_true] at hm
    rw [hw'] at hne
    exact absurd hm hne
  · intro i w' memo' hI _ h1
    rcases hI with ⟨hs', hc', hb'⟩
    have hw' : w' = w := hs'.1
    subst hw'
    have ht := tryOne_explored hrec r h1 hs'
    rcases hres : tryOne rec r i w' memo' with (⟨w'', memo''⟩ | ⟨tr, memo''⟩) | e | _
    · rw [hres] at ht
      rcases ht with ⟨h2, h3, h4⟩
      have hw'' : w'' = w' := h2.1
      refine ⟨⟨h2, covered_mono hc' h3, coveredBelow_succ (coveredBelow_mono hb' h3) ?_⟩, by rw [hw'']⟩
      intro _
      simpa [rewritten, hr] using h4
    · rw [hres] at ht; exact ht
    · rw [hres] at ht; exact ht
    · rw [hres] at ht; exact ht
  · exact ⟨hs, hc, fun j hj _ => absurd hj (by omega)⟩
  · omega

theorem twoSymbol_explored {g : Grammar} {rec : Memo → word → HelperResult}
    (hrec : ∀ memo w, Explored g memo w (rec memo w)) (memo0 : Memo) (w : word)
    (hw0 : w.length ≠ 0)
    (done : List rule) (r : rule) (rs : List rule) (hg : g.rules = done ++ r :: rs)
    (hr : r.2.2 ≠ "NONE") (hl : r.1.2 ≠ "NONE") (memo : Memo)
    (hs : Searching g memo0 w w memo) (hc : Covered done w memo) :
    Continue (RuleInv g memo0 w rs) LoopOK (twoSymbol rec r w.length 0 w memo) := by
  apply twoSymbol_rule' rec r (PosInv g memo0 w done r)
  · intro i w' memo' hI hlen
    have hw' : w' = w := hI.1.1
    rw [hw'] at hlen
    exact absurd hlen hw0
  · intro i w' memo' hI hi
    rcases hI with ⟨hs', hc', hb'⟩
    refine ⟨hs', done ++ [r], by simp [hg], covered_snoc hc' ?_⟩
    intro j hm
    apply hb' j _ hm
    have hw' : w' = w := hs'.1
    simp only [matchesAt, hr, if_false] at hm
    rw [hw'] at hi
    omega
  · intro i w' memo' hI hi hne
    rcases hI with ⟨hs', hc', hb'⟩
    refine ⟨hs', hc', coveredBelow_succ hb' ?_⟩
    intro hm
    have hw' : w' = w := hs'.1
    simp only [matchesAt, hr, if_false] at hm
    rw [hw'] at hne
    exact absurd hm.2 hne
  · intro i w' memo' hI hi h1 h2
    rcases hI with ⟨hs', hc', hb'⟩
    have hw' : w' = w := hs'.1
    subst hw'
    have ht := tryTwo_explored hrec r hl hi h1 h2 hs'
    rcases hres : tryTwo rec r i w' memo' with (⟨w'', memo''⟩ | ⟨tr, memo''⟩) | e | _
    · rw [hres] at ht
      rcases ht with ⟨h3, h4, h5⟩
      have hw'' : w'' = w' := h3.1
      refine ⟨⟨h3, covered_mono hc' h4, coveredBelow_succ (coveredBelow_mono hb' h4) ?_⟩, by rw [hw'']⟩
      intro _
      simpa [rewritten, hr, hl] using h5
    · rw [hres] at ht; exact ht
    · rw [hres] at ht; exact ht
    · rw [hres] at ht; exact ht
  · exact ⟨hs, hc, fun j hj _ => absurd hj (by omega)⟩
  · omega

theorem baseCase_nil_word (rs : List rule) : baseCase rs [] = none := by
  cases rs <;> rfl

theorem baseCase_guard (rs : List rule) (w : word) :
    (if w.length ≤ 2 then baseCase rs w else none) = baseCase rs w := by
  split
  · rfl
  · next h => exact (baseCase_none_of_length rs w h).symm

theorem helperBody_explored {g : Grammar} (hg : LengthPreserving g)
    {rec : Memo → word → HelperResult}
    (hrec : ∀ memo w, Explored g memo w (rec memo w)) (memo : Memo) (w : word) :
    Explored g memo w (helperBody g rec memo w) := by
  unfold helperBody
  by_cases h0 : w.length = 0
  · simp only [h0, if_true, Explored]
    refine ⟨List.Subset.refl _, fun v hv hn => absurd hv hn, ?_, ?_⟩
    · rw [List.length_eq_zero.mp h0]
      exact baseCase_nil_word _
    · rintro v' ⟨r, _, i, hm, _⟩
      rw [List.length_eq_zero.mp h0] at hm
      unfold matchesAt at hm
      split at hm
      · simp at hm
      · simp at hm
  simp only [h0, if_false]
  rw [baseCase_guard]
  rcases hb : baseCase g.Srules w with _ | r
  · simp only
    have hl : Continue (RuleInv g memo w []) LoopOK (ruleLoop rec g.rules w memo) := by
      apply ruleLoop_rule' rec (RuleInv g memo w)
      · intro r rs w' memo' hI hr
        rcases hI with ⟨hs, done, hd, hc⟩
        have hw' : w' = w := hs.1
        subst hw'
        exact oneSymbol_explored hrec memo w' done r rs hd hr memo' hs hc
      · intro r rs w' memo' hI hr
        rcases hI with ⟨hs, done, hd, hc⟩
        have hw' : w' = w := hs.1
        subst hw'
        have hrg : r ∈ g.rules := by rw [hd]; simp
        exact twoSymbol_explored hrec memo w' h0 done r rs hd hr (hg r hrg hr) memo' hs hc
      · exact ⟨⟨rfl, List.Subset.refl _, fun v hv hn => absurd hv hn⟩, [], rfl,
          fun r hr => absurd hr (List.not_mem_nil r)⟩
    rcases hres : ruleLoop rec g.rules w memo with (⟨w', memo'⟩ | ⟨tr, memo'⟩) | e | _
    · rw [hres] at hl
      rcases hl with ⟨hs, done, hd, hc⟩
      refine ⟨hs.2.1, hs.2.2, hb, ?_⟩
      rintro v' ⟨r, hr, i, hm, rfl⟩
      have : r ∈ done := by
        rw [hd] at hr
        simpa using hr
      exact hc r this i hm
    · trivial
    · rw [hres] at hl
      exact hl.elim
    · trivial
  · trivial

theorem parse_helper_explored {g : Grammar} (hg : LengthPreserving g) :
    ∀ (n : Nat) (memo : Memo) (w : word), Explored g memo w (parse_helper g n memo w) := by
  intro n
  induction n with
  | zero => intro memo w; trivial
  | succ n ih => exact helperBody_explored hg ih

/-- In a grammar without collapsing rules, a search entered with the memo
`[w]` succeeds whenever reverse steps lead from `w` to a form that matches a
start rule. -/
theorem parse_helper_complete {g : Grammar} (hg : LengthPreserving g) (w : word)
    (hreach : ∃ v, Relation.ReflTransGen (reverseStep g) w v ∧ baseCase g.Srules v ≠ none)
    (fuel : Nat) (hfuel : fuelBound g w ≤ fuel) :
    ∃ tr memo', parse_helper g fuel [w] w = .ok (true, tr, memo') := by
  have hfin := parse_helper_terminates g [w] w fuel hfuel
  have hexp := parse_helper_explored hg fuel [w] w
  rcases hres : parse_helper g fuel [w] w with ⟨b, tr, memo'⟩ | e | _
  · cases b
    · exfalso
      rw [hres] at hexp
      rcases hexp with ⟨h1, h2, h3⟩
      have hclosed : ∀ v ∈ memo', Closed g memo' v := by
        intro v hv
        by_cases hvw : v = w
        · rw [hvw]; exact h3
        · exact h2 v hv (by simpa using hvw)
      have hall : ∀ v, Relation.ReflTransGen (reverseStep g) w v → v ∈ memo' := by
        intro v hv
        induction hv with
        | refl => exact h1 (List.mem_cons_self _ _)
        | tail _ hstep ih => exact (hclosed _ ih).2 _ hstep
      rcases hreach with ⟨v, hv, hgoal⟩
      exact hgoal (hclosed v (hall v hv)).1
    · exact ⟨tr, memo', rfl⟩
  · rw [hres] at hexp
    exact hexp.elim
  · rw [hres] at hfin
    exact hfin.elim

/-! ## Start rules of a constructed grammar; derivations with unit rules -/

theorem storeRules_start (isT : List (symbol × Bool)) :
    ∀ (rs : List rule) (acc : List rule × List rule),
      (∀ r ∈ acc.1, r.1.1 = "S" → r.1.2 = "NONE" → r.2.1 ≠ "S" → r.2.2 ≠ "S" → r ∈ acc.2) →
      ∀ r ∈ (storeRules isT rs acc).1,
        r.1.1 = "S" → r.1.2 = "NONE" → r.2.1 ≠ "S" → r.2.2 ≠ "S" →
        r ∈ (storeRules isT rs acc).2 := by
  intro rs
  induction rs with
  | nil => intro acc h; exact h
  | cons r0 rs ih =>
    intro acc h
    unfold storeRules
    by_cases hs : r0.1.1 = "S" ∧ r0.1.2 = "NONE" ∧ r0.2.1 ≠ "S" ∧ r0.2.2 ≠ "S"
    · rw [if_pos hs]
      apply ih
      intro r hr h1 h2 h3 h4
      rcases List.mem_append.mp hr with hr | hr
      · exact List.mem_append_left _ (h r hr h1 h2 h3 h4)
      · exact List.mem_append_right _ hr
    · rw [if_neg hs]
      by_cases ht : isT.lookup r0.2.1 = some true
      · rw [if_pos ht]
        exact ih acc h
      · rw [if_neg ht]
        apply ih
        intro r hr h1 h2 h3 h4
        rcases List.mem_append.mp hr with hr | hr
        · exact h r hr h1 h2 h3 h4
        · rw [List.mem_singleton.mp hr] at h1 h2 h3 h4
          exact absurd ⟨h1, h2, h3, h4⟩ hs

/-- In a constructed grammar every general rule with left side `S` and no `S`
on its right side is a start rule. -/
theorem create_start_rules (vs ts : List symbol) (rs : List rule) :
    ∀ r ∈ (Grammar.create vs ts rs).rules,
      r.1.1 = "S" → r.1.2 = "NONE" → r.2.1 ≠ "S" → r.2.2 ≠ "S" →
      r ∈ (Grammar.create vs ts rs).Srules :=
  storeRules_start _ rs ([], []) (fun r hr => absurd hr (List.not_mem_nil r))

theorem baseCase_one_of_mem : ∀ (rs : List rule) (r : rule), r ∈ rs → r.2.2 = "NONE" →
    baseCase rs [r.2.1] ≠ none := by
  intro rs
  induction rs with
  | nil => intro r hr; exact absurd hr (List.not_mem_nil r)
  | cons r0 rs ih =>
    intro r hr h2
    unfold baseCase
    by_cases h0 : r.2.1 = r0.2.1 ∧ r0.2.2 = "NONE"
    · simp [h0]
    · simp only [h0, if_false]
      rcases List.mem_cons.mp hr with h | h
      · rw [h] at h2
        exact absurd ⟨by rw [h], h2⟩ h0
      · exact ih r h h2

theorem forwardStep_unit {g : Grammar}
    (hunit : ∀ r ∈ g.rules, r.1.2 = "NONE" ∧ r.2.2 = "NONE") {u v : word}
    (h : forwardStep g u v) :
    ∃ r ∈ g.rules, ∃ pre post, u = pre ++ r.1.1 :: post ∧ v = pre ++ r.2.1 :: post := by
  rcases h with ⟨r, hr, pre, post, hu, hv⟩
  refine ⟨r, hr, pre, post, ?_, ?_⟩
  · rw [hu]
    simp [lhs, (hunit r hr).1]
  · rw [hv]
    simp [rhs, (hunit r hr).2]

theorem reverseStep_of_forwardStep {g : Grammar}
    (hunit : ∀ r ∈ g.rules, r.1.2 = "NONE" ∧ r.2.2 = "NONE") {u v : word}
    (h : forwardStep g u v) : reverseStep g v u := by
  rcases forwardStep_unit hunit h with ⟨r, hr, pre, post, hu, hv⟩
  refine ⟨r, hr, pre.length, ?_, ?_⟩
  · simp only [matchesAt, (hunit r hr).2, if_true, hv]
    rw [List.getElem?_append_right (le_refl _)]
    simp
  · simp [rewritten, (hunit r hr).2, hu, hv]

theorem derivable_unit_reaches_start (vs ts : List symbol) (rs : List rule)
    (hunit : ∀ r ∈ (Grammar.create vs ts rs).rules, r.1.2 = "NONE" ∧ r.2.2 = "NONE")
    {w : word} (h : Derivable (Grammar.create vs ts rs) w) :
    w = ["S"] ∨ ∃ v, Relation.ReflTransGen (reverseStep (Grammar.create vs ts rs)) w v ∧
      baseCase (Grammar.create vs ts rs).Srules v ≠ none := by
  have hfirst : ∀ x, forwardStep (Grammar.create vs ts rs) ["S"] x →
      x = ["S"] ∨ ∃ v, Relation.ReflTransGen (reverseStep (Grammar.create vs ts rs)) x v ∧
        baseCase (Grammar.create vs ts rs).Srules v ≠ none := by
    intro x hx
    rcases forwardStep_unit hunit hx with ⟨r, hr, pre, post, hu, hv⟩
    have hpre : pre = [] := by
      cases pre with
      | nil => rfl
      | cons a pre =>
        have := congrArg List.length hu
        simp at this
    subst hpre
    simp only [List.nil_append, List.cons.injEq] at hu
    rcases hu with ⟨h1, h2⟩
    rw [← h2] at hv
    by_cases hS : r.2.1 = "S"
    · left
      rw [hv, hS]
      rfl
    · right
      have h22 := (hunit r hr).2
      have hmem := create_start_rules vs ts rs r hr h1.symm (hunit r hr).1 hS
        (by rw [h22]; decide)
      refine ⟨x, Relation.ReflTransGen.refl, ?_⟩
      rw [hv]
      exact baseCase_one_of_mem _ r hmem h22
  unfold Derivable at h
  induction h with
  | single hx => exact hfirst _ hx
  | tail _ hstep ih =>
    rcases ih with hu | ⟨v, hv, hb⟩
    · rw [hu] at hstep
      exact hfirst _ hstep
    · right
      exact ⟨v, Relation.ReflTransGen.head (reverseStep_of_forwardStep hunit hstep) hv, hb⟩

/-! ## The driver `parse` -/

theorem parse_helper_add {g : Grammar} {n : Nat} {memo : Memo} {w : word}
    {x : Bool × List change × Memo} (h : parse_helper g n memo w = .ok x) (m : Nat) :
    parse_helper g (n + m) memo w = .ok x := by
  rw [parse_helper_mono g n memo w (by rw [h]; exact fun hc => Run.noConfusion hc) m, h]

theorem candidateLoop_not_entered (g : Grammar) (fuel : Nat) (maxes : List Int) (w : word)
    (k : Nat) (derivation : Bool × List change) (c : List Int) (memo : Memo)
    (calls : List word) :
    candidateLoop g fuel maxes w k derivation (false, c) memo calls =
      ⟨calls, memo, .ok (derivation, (false, c))⟩ := by
  cases k <;> simp [candidateLoop]

theorem maxesOf_unknown (g : Grammar) : ∀ (w : word),
    (∃ s ∈ w, g.termToVars.lookup s = none) → maxesOf g w = .fault .invalidArgument := by
  intro w
  induction w with
  | nil => rintro ⟨s, hs, _⟩; exact absurd hs (List.not_mem_nil s)
  | cons t ws ih =>
    rintro ⟨s, hs, hnone⟩
    unfold maxesOf
    rcases ht : g.termToVars.lookup t with _ | vars
    · rfl
    · have hin : s ∈ ws := by
        rcases List.mem_cons.mp hs with h | h
        · rw [h, ht] at hnone
          exact Option.noConfusion hnone
        · exact h
      simp only
      rw [ih ⟨s, hin, hnone⟩]
      rfl

theorem maxesOf_declared (g : Grammar) : ∀ (w : word),
    (∀ s ∈ w, ∃ vars, g.termToVars.lookup s = some vars) → ∃ maxes, maxesOf g w = .ok maxes := by
  intro w
  induction w with
  | nil => intro _; exact ⟨[], rfl⟩
  | cons t ws ih =>
    intro h
    rcases h t (List.mem_cons_self _ _) with ⟨vars, hv⟩
    rcases ih (fun s hs => h s (List.mem_cons_of_mem _ hs)) with ⟨ms, hms⟩
    exact ⟨(vars.length : Int) :: ms, by simp [maxesOf, hv, hms, Run.bind]⟩

theorem wordFrom_empty_origin (g : Grammar) : ∀ (w : word),
    (∀ s ∈ w, ∃ vars, g.termToVars.lookup s = some vars) →
    (∃ s ∈ w, g.termToVars.lookup s = some []) →
    wordFrom g (List.replicate w.length 0) w = .fault .outOfRange := by
  intro w
  induction w with
  | nil => rintro _ ⟨s, hs, _⟩; exact absurd hs (List.not_mem_nil s)
  | cons t ws ih =>
    rintro hdecl ⟨s, hs, hempty⟩
    rcases hdecl t (List.mem_cons_self _ _) with ⟨vars, hv⟩
    simp only [List.length_cons, List.replicate_succ, wordFrom, hv]
    by_cases hlen : (0 : Int) ≤ 0 ∧ (0 : Int) < vars.length
    · rw [if_pos hlen]
      have hin : s ∈ ws := by
        rcases List.mem_cons.mp hs with h | h
        · rw [h, hv] at hempty
          have : vars = [] := by simpa using hempty
          rw [this] at hlen
          simp at hlen
        · exact h
      rw [ih (fun x hx => hdecl x (List.mem_cons_of_mem _ hx)) ⟨s, hin, hempty⟩]
      rfl
    · rw [if_neg hlen]

theorem recoverPreviousChoice_undoes {c maxes : List Int} (h : InRange c maxes) :
    ∀ {c' : List Int}, nextChoice c maxes = .ok (true, c') →
      recoverPreviousChoice c' maxes = .ok c := by
  induction h with
  | nil =>
    intro c' hn
    simp [nextChoice] at hn
  | @cons p m ps ms hd tl ih =>
    intro c' hn
    rcases hd with ⟨h1, h2⟩
    unfold nextChoice at hn
    by_cases hp : p < m - 1
    · rw [if_pos hp] at hn
      simp only [Run.ok.injEq, Prod.mk.injEq, true_and] at hn
      rw [← hn]
      unfold recoverPreviousChoice
      rw [if_pos (by omega)]
      simp
    · rw [if_neg hp] at hn
      rcases hrest : nextChoice ps ms with ⟨b, c''⟩ | e | _
      · rw [hrest] at hn
        simp only [Run.bind, Run.ok.injEq, Prod.mk.injEq] at hn
        rcases hn with ⟨hb, hc⟩
        subst hb
        rw [← hc]
        unfold recoverPreviousChoice
        rw [if_neg (by omega)]
        simp only [ih hrest, Run.bind]
        have : m - 1 = p := by omega
        rw [this]
      · rw [hrest] at hn
        simp [Run.bind] at hn
      · rw [hrest] at hn
        simp [Run.bind] at hn

/-! ## The claims -/

theorem parse_of_first_candidate (g : Grammar) (fuel : Nat) (memo0 : Memo) (w : word)
    (maxes : List Int) {w1 : word} {b : Bool} {tr : List change} {memo1 : Memo}
    (hm : maxesOf g w = .ok maxes)
    (hw : wordFrom g (List.replicate w.length 0) w = .ok w1)
    (hp : parse_helper g fuel [w1] w1 = .ok (b, tr, memo1)) :
    parse g fuel memo0 w =
      ⟨[w1], memo1,
        if b then (listTerminals g (List.replicate w.length 0) maxes w).bind
          (fun sub => .ok (.derived tr sub))
        else .ok .noDerivation⟩ := by
  unfold parse
  simp only [hm, hw, hp, candidateLoop_not_entered]
  cases b <;> simp

theorem parse_helper_extends_add (g : Grammar) (n m : Nat) :
    Extends (parse_helper g n) (parse_helper g (n + m)) :=
  fun memo w hne => parse_helper_mono g n memo w hne m

/-- C1 (the code breaks the claim).  On the grammar `A → B C`, `E → B C`,
`S → E`, the call of `parse_helper` on the form `B C D` with the memo
holding only that form returns `(true, trace)` for every recursion bound of
at least 2, and the last step of the trace carries the form `B C`, not the
form `B C D` the call was given: the trace is a derivation of another form. -/
theorem parse_helper_trace_ends_elsewhere :
    ∀ n : Nat, parse_helper gCollapse (2 + n) [["B", "C", "D"]] ["B", "C", "D"] =
      .ok (true,
        [(ruleOf "S" "NONE" "E" "NONE", ["E"]), (ruleOf "E" "NONE" "B" "C", ["B", "C"])],
        [["E"], ["A", "D"], ["B", "C", "D"]]) :=
  fun n => parse_helper_add (by decide) n

/-- C2 (the code breaks the claim).  On the grammar `S → A`, `A → a`, `B → a`
and the word `a`, `parse` succeeds on the candidate form `A` (the only form
handed to `parse_helper`) and the substitution list it prints is
`B --> a`: the reported variable is not the symbol of the candidate. -/
theorem parse_reports_last_origin :
    ∀ n : Nat, parse gFirstOrigin (1 + n) [] ["a"] =
      ⟨[["A"]], [["A"]],
        .ok (.derived [(ruleOf "S" "NONE" "A" "NONE", ["A"])] [("B", "a")])⟩ := by
  intro n
  have hp : parse_helper gFirstOrigin (1 + n) [["A"]] ["A"] =
      .ok (true, [(ruleOf "S" "NONE" "A" "NONE", ["A"])], [["A"]]) :=
    parse_helper_add (by decide) n
  rw [parse_of_first_candidate gFirstOrigin (1 + n) [] ["a"] [2] (by decide)
    (by decide) hp]
  decide

/-- C3 (the code breaks the claim).  On the form `B C D`, a reverse
application of `A → B C` at position 0 whose recursive call fails leaves the
working form `B C`; so does one that is skipped because `A D` is in the memo;
and on the form `B C` the restoring write to `w[1]` is out of range. -/
theorem tryTwo_leaves_form_collapsed :
    ∀ n : Nat,
      tryTwo (parse_helper gCollapse (1 + n)) (ruleOf "A" "NONE" "B" "C") 0 ["B", "C", "D"]
          [["B", "C", "D"]] =
        .ok (.next ["B", "C"] [["A", "D"], ["B", "C", "D"]]) ∧
      tryTwo (parse_helper gCollapse n) (ruleOf "A" "NONE" "B" "C") 0 ["B", "C", "D"]
          [["A", "D"], ["B", "C", "D"]] =
        .ok (.next ["B", "C"] [["A", "D"], ["B", "C", "D"]]) ∧
      tryTwo (parse_helper gCollapse n) (ruleOf "A" "NONE" "B" "C") 0 ["B", "C"]
          [["A"], ["B", "C"]] = .fault .outOfRange := by
  intro n
  refine ⟨?_, ?_, ?_⟩
  · rw [tryTwo_extends (parse_helper_extends_add gCollapse 1 n) _ _ _ _ (by decide)]
    decide
  · have h := tryTwo_extends (parse_helper_extends_add gCollapse 0 n)
      (ruleOf "A" "NONE" "B" "C") 0 ["B", "C", "D"] [["A", "D"], ["B", "C", "D"]] (by decide)
    rw [Nat.zero_add] at h
    rw [h]
    decide
  · have h := tryTwo_extends (parse_helper_extends_add gCollapse 0 n)
      (ruleOf "A" "NONE" "B" "C") 0 ["B", "C"] [["A"], ["B", "C"]] (by decide)
    rw [Nat.zero_add] at h
    rw [h]
    decide

/-- C4 (the code breaks the claim).  The grammar `X → B C`, `S → A D`,
`A → B`, `D → C E` has no rule with two symbols on both sides, the form
`B C E` consists of variables and is derivable (`S ⇒ A D ⇒ B D ⇒ B C E`), and
`parse_helper` run on it with the memo holding only that form returns failure
for every recursion bound of at least 2.  The failed reverse application of
`X → B C` at position 0 leaves the working form `B C`: the symbol `E` is lost,
and with it the reverse application of `D → C E` that leads to `A D`. -/
theorem parse_helper_misses_derivable_form :
    (∀ r ∈ gSlip.rules, ¬ (r.1.2 ≠ "NONE" ∧ r.2.2 ≠ "NONE")) ∧
    (∀ s ∈ ["B", "C", "E"], s ∈ gSlip.variables_) ∧
    Derivable gSlip ["B", "C", "E"] ∧
    (∀ n : Nat, parse_helper gSlip (2 + n) [["B", "C", "E"]] ["B", "C", "E"] =
      .ok (false, [], [["A", "C"], ["X", "E"], ["B", "C", "E"]])) ∧
    (∀ n : Nat, tryTwo (parse_helper gSlip (1 + n)) (ruleOf "X" "NONE" "B" "C") 0
        ["B", "C", "E"] [["B", "C", "E"]] =
      .ok (.next ["B", "C"] [["X", "E"], ["B", "C", "E"]])) := by
  refine ⟨by decide, by decide, ?_, fun n => parse_helper_add (by decide) n, fun n => ?_⟩
  swap
  · rw [tryTwo_extends (parse_helper_extends_add gSlip 1 n) _ _ _ _ (by decide)]
    decide
  have s1 : forwardStep gSlip ["S"] ["A", "D"] :=
    ⟨ruleOf "S" "NONE" "A" "D", by decide, [], [], by decide, by decide⟩
  have s2 : forwardStep gSlip ["A", "D"] ["B", "D"] :=
    ⟨ruleOf "A" "NONE" "B" "NONE", by decide, [], ["D"], by decide, by decide⟩
  have s3 : forwardStep gSlip ["B", "D"] ["B", "C", "E"] :=
    ⟨ruleOf "D" "NONE" "C" "E", by decide, ["B"], [], by decide, by decide⟩
  exact Relation.TransGen.tail (Relation.TransGen.tail (Relation.TransGen.single s1) s2) s3

/-- Completeness of the search for unit rules.  In a grammar built by the
constructor whose general rules all have one symbol on each side, every form
without `S` that is derivable from `S` by one or more forward applications of
general rules is accepted: `parse_helper` run on it with the memo holding only
that form returns success, for every recursion bound of at least `fuelBound`. -/
theorem parse_helper_complete_unit_rules (vs ts : List symbol) (rs : List rule) (w : word)
    (hunit : ∀ r ∈ (Grammar.create vs ts rs).rules, r.1.2 = "NONE" ∧ r.2.2 = "NONE")
    (hS : "S" ∉ w) (hder : Derivable (Grammar.create vs ts rs) w)
    (fuel : Nat) (hfuel : fuelBound (Grammar.create vs ts rs) w ≤ fuel) :
    ∃ tr memo', parse_helper (Grammar.create vs ts rs) fuel [w] w = .ok (true, tr, memo') := by
  have hlp : LengthPreserving (Grammar.create vs ts rs) :=
    fun r hr h2 => absurd (hunit r hr).2 h2
  rcases derivable_unit_reaches_start vs ts rs hunit hder with hw | hreach
  · rw [hw] at hS
    exact absurd (List.mem_singleton.mpr rfl) hS
  · exact parse_helper_complete hlp w hreach fuel hfuel

/-- Instance of the completeness for unit rules: the grammar `S → A`, `A → B`,
`B → A` and the form `B`, derivable by `S ⇒ A ⇒ B`. -/
theorem parse_helper_complete_unit_rules_witness :
    (∀ r ∈ (Grammar.create ["A", "B"] []
        [ruleOf "S" "NONE" "A" "NONE", ruleOf "A" "NONE" "B" "NONE",
         ruleOf "B" "NONE" "A" "NONE"]).rules, r.1.2 = "NONE" ∧ r.2.2 = "NONE") ∧
    "S" ∉ ["B"] ∧
    ∃ tr memo', parse_helper gUnit (fuelBound gUnit ["B"]) [["B"]] ["B"] =
      .ok (true, tr, memo') :=
  ⟨by decide, by decide,
    parse_helper_complete_unit_rules ["A", "B"] []
      [ruleOf "S" "NONE" "A" "NONE", ruleOf "A" "NONE" "B" "NONE", ruleOf "B" "NONE" "A" "NONE"]
      ["B"] (by decide) (by decide)
      (Relation.TransGen.tail
        (Relation.TransGen.single
          (show forwardStep gUnit ["S"] ["A"] from
            ⟨ruleOf "S" "NONE" "A" "NONE", by decide, [], [], by decide, by decide⟩))
        (show forwardStep gUnit ["A"] ["B"] from
          ⟨ruleOf "A" "NONE" "B" "NONE", by decide, [], [], by decide, by decide⟩))
      _ (le_refl _)⟩

/-- C5 (the code breaks the claim).  On the grammar `S → B`, `A → a`, `B → a`
and the word `a`, `parse` reports that no derivation is possible after one
call of `parse_helper`, on the candidate `A`; the candidate `B` of the choice
vector `(1)` is never tried, and `parse_helper` succeeds on it. -/
theorem parse_tries_first_candidate_only :
    ∀ n : Nat,
      parse gSecondOrigin (1 + n) [] ["a"] = ⟨[["A"]], [["A"]], .ok .noDerivation⟩ ∧
      wordFrom gSecondOrigin [1] ["a"] = .ok ["B"] ∧
      parse_helper gSecondOrigin (1 + n) [["B"]] ["B"] =
        .ok (true, [(ruleOf "S" "NONE" "B" "NONE", ["B"])], [["B"]]) := by
  intro n
  refine ⟨?_, by decide, parse_helper_add (by decide) n⟩
  have hp : parse_helper gSecondOrigin (1 + n) [["A"]] ["A"] = .ok (false, [], [["A"]]) :=
    parse_helper_add (by decide) n
  rw [parse_of_first_candidate gSecondOrigin (1 + n) [] ["a"] [2] (by decide)
    (by decide) hp]
  decide

/-- The start symbol itself is no base case.  On the grammar `S → B`,
`S → S A` the form `B A` is derivable (`S ⇒ S A ⇒ B A`); the search reaches the
form `S`, which matches no start rule, and the restoring write after that
failed call is out of range. -/
theorem parse_helper_start_symbol_no_base_case :
    Derivable gStartOnRight ["B", "A"] ∧
    ∀ n : Nat, parse_helper gStartOnRight (3 + n) [["B", "A"]] ["B", "A"] =
      .fault .outOfRange := by
  refine ⟨?_, fun n => ?_⟩
  · have s1 : forwardStep gStartOnRight ["S"] ["S", "A"] :=
      ⟨ruleOf "S" "NONE" "S" "A", by decide, [], [], by decide, by decide⟩
    have s2 : forwardStep gStartOnRight ["S", "A"] ["B", "A"] :=
      ⟨ruleOf "S" "NONE" "B" "NONE", by decide, [], ["A"], by decide, by decide⟩
    exact Relation.TransGen.tail (Relation.TransGen.single s1) s2
  · rw [parse_helper_mono gStartOnRight 3 _ _ (by decide) n]
    decide

/-- C6.  `parse_helper` terminates on every grammar, form and memo: with any
recursion bound of at least `fuelBound g w` the run is not cut off by the
bound (it ends with a returned pair, or stops at an out-of-range write), and
its outcome is the one obtained with the bound `fuelBound g w`.  When moreover
every general rule has two symbols on each side and no form reachable from
`w` by reverse applications matches a start rule, the run returns failure. -/
theorem parse_helper_always_terminates (g : Grammar) (memo : Memo) (w : word) (fuel : Nat)
    (hfuel : fuelBound g w ≤ fuel) :
    parse_helper g fuel memo w ≠ .outOfFuel ∧
    parse_helper g fuel memo w = parse_helper g (fuelBound g w) memo w ∧
    ((∀ r ∈ g.rules, r.1.2 ≠ "NONE" ∧ r.2.2 ≠ "NONE") → Unreachable g w →
      ∃ memo', parse_helper g fuel memo w = .ok (false, [], memo')) := by
  have hne : ∀ k, fuelBound g w ≤ k → parse_helper g k memo w ≠ .outOfFuel := by
    intro k hk hc
    have := parse_helper_terminates g memo w k hk
    rw [hc] at this
    exact this
  refine ⟨hne fuel hfuel, ?_, ?_⟩
  · obtain ⟨m, rfl⟩ := Nat.exists_eq_add_of_le hfuel
    exact parse_helper_mono g _ memo w (hne _ (le_refl _)) m
  · intro hg hw
    have hns := parse_helper_noSuccess hg fuel memo w hw
    rcases hres : parse_helper g fuel memo w with ⟨b, tr, memo'⟩ | e | _
    · rw [hres] at hns
      rcases hns with ⟨rfl, rfl⟩
      exact ⟨memo', rfl⟩
    · rw [hres] at hns
      exact hns.elim
    · exact absurd hres (hne fuel hfuel)

/-- Instance of C6: the cycle `A B → C D`, `C D → A B` and the form `A B`. -/
theorem parse_helper_always_terminates_witness :
    (∀ r ∈ gCycle.rules, r.1.2 ≠ "NONE" ∧ r.2.2 ≠ "NONE") ∧
    parse_helper gCycle (fuelBound gCycle ["A", "B"]) [["A", "B"]] ["A", "B"] ≠ .outOfFuel ∧
    ∃ memo', parse_helper gCycle (fuelBound gCycle ["A", "B"]) [["A", "B"]] ["A", "B"] =
      .ok (false, [], memo') :=
  ⟨by decide,
    (parse_helper_always_terminates gCycle [["A", "B"]] ["A", "B"] _ (le_refl _)).1,
    (parse_helper_always_terminates gCycle [["A", "B"]] ["A", "B"] _ (le_refl _)).2.2
      (by decide) (fun _ _ => rfl)⟩

/-- C7 (counterexample to the claim as stated).  On the grammar `S → A`,
`A → a` with terminals `a`, `b`, the word `a c` holds the symbol `c`, which has
no entry in `termToVars`, and `parse` does not report the negative result: it
stops with the exception `invalid_argument`. -/
theorem parse_unknown_symbol_not_negative :
    gNoOrigin.termToVars.lookup "c" = none ∧
    ∀ n : Nat, (parse gNoOrigin n [] ["a", "c"]).outcome = .fault .invalidArgument ∧
      (parse gNoOrigin n [] ["a", "c"]).outcome ≠ .ok .noDerivation := by
  refine ⟨by decide, fun n => ?_⟩
  have h : parse gNoOrigin n [] ["a", "c"] = ⟨[], [], .fault .invalidArgument⟩ := by
    unfold parse
    rw [maxesOf_unknown gNoOrigin ["a", "c"] ⟨"c", by decide, by decide⟩]
  rw [h]
  exact ⟨rfl, by decide⟩

/-- C7 (amended).  When the word holds a symbol without entry in
`termToVars`, `parse` throws `invalid_argument` while it builds `maxes`:
`parse_helper` is not called and the memo is left as it was. -/
theorem parse_unknown_symbol_throws (g : Grammar) (fuel : Nat) (memo0 : Memo) (w : word)
    (h : ∃ s ∈ w, g.termToVars.lookup s = none) :
    parse g fuel memo0 w = ⟨[], memo0, .fault .invalidArgument⟩ := by
  unfold parse
  rw [maxesOf_unknown g w h]

/-- Instance of the amended C7. -/
theorem parse_unknown_symbol_throws_witness :
    (∃ s ∈ ["a", "c"], gNoOrigin.termToVars.lookup s = none) ∧
    parse gNoOrigin 5 [["A"]] ["a", "c"] = ⟨[], [["A"]], .fault .invalidArgument⟩ :=
  ⟨⟨"c", by decide, by decide⟩,
    parse_unknown_symbol_throws gNoOrigin 5 [["A"]] ["a", "c"] ⟨"c", by decide, by decide⟩⟩

/-- C8 (the code breaks the claim).  When every symbol of the word has an
entry in `termToVars` and one of them has an empty origin list, `parse` does
not report failure: `wordFrom` reads element 0 of the empty list, an access
out of range. -/
theorem parse_empty_origin_out_of_range (g : Grammar) (fuel : Nat) (memo0 : Memo) (w : word)
    (hdecl : ∀ s ∈ w, g.termToVars.lookup s ≠ none)
    (hempty : ∃ s ∈ w, g.termToVars.lookup s = some []) :
    parse g fuel memo0 w = ⟨[], memo0, .fault .outOfRange⟩ := by
  have hdecl' : ∀ s ∈ w, ∃ vars, g.termToVars.lookup s = some vars := by
    intro s hs
    rcases hl : g.termToVars.lookup s with _ | vars
    · exact absurd hl (hdecl s hs)
    · exact ⟨vars, rfl⟩
  rcases maxesOf_declared g w hdecl' with ⟨maxes, hm⟩
  unfold parse
  simp only [hm, wordFrom_empty_origin g w hdecl' hempty]

/-- Instance of C8: the grammar `S → A`, `A → a` with the declared terminals
`a`, `b` and the word `a b`. -/
theorem parse_empty_origin_out_of_range_witness :
    (∀ s ∈ ["a", "b"], gNoOrigin.termToVars.lookup s ≠ none) ∧
    (∃ s ∈ ["a", "b"], gNoOrigin.termToVars.lookup s = some []) ∧
    parse gNoOrigin 5 [] ["a", "b"] = ⟨[], [], .fault .outOfRange⟩ :=
  ⟨by decide, ⟨"b", by decide, by decide⟩,
    parse_empty_origin_out_of_range gNoOrigin 5 [] ["a", "b"] (by decide)
      ⟨"b", by decide, by decide⟩⟩

/-- C9.  For positive digit counts `maxes`: on an in-range counter `c`,
`nextChoice` returns `(true, c')` with `c'` in range and of value
`counterValue c + 1` when that is below the product of `maxes`, and
`(false, all zeros)` otherwise.  Iterated from the all-zero counter it
reaches every in-range counter after exactly one number of applications
below the product, every counter it reaches before the product-th
application is in range, and the product-th application signals
exhaustion. -/
theorem nextChoice_counts (maxes : List Int) (hpos : ∀ m ∈ maxes, 0 < m) :
    (∀ c, InRange c maxes →
      (counterValue c maxes + 1 < maxes.prod →
        ∃ c', nextChoice c maxes = .ok (true, c') ∧ InRange c' maxes ∧
          counterValue c' maxes = counterValue c maxes + 1) ∧
      (¬ counterValue c maxes + 1 < maxes.prod →
        nextChoice c maxes = .ok (false, zeroChoice maxes))) ∧
    (∀ c, InRange c maxes →
      ∃! k : Nat, (k : Int) < maxes.prod ∧ iterateNextChoice maxes k = .ok (true, c)) ∧
    (∀ k : Nat, (k : Int) < maxes.prod →
      ∃ c, InRange c maxes ∧ counterValue c maxes = k ∧
        iterateNextChoice maxes k = .ok (true, c)) ∧
    iterateNextChoice maxes maxes.prod.toNat = .ok (false, zeroChoice maxes) := by
  refine ⟨fun c hc => nextChoice_step hc, ?_, ?_, iterateNextChoice_exhausts maxes hpos⟩
  · intro c hc
    have hb := inRange_bounds hc
    refine ⟨(counterValue c maxes).toNat, ⟨by omega, ?_⟩, ?_⟩
    · rcases iterateNextChoice_visits maxes hpos (counterValue c maxes).toNat (by omega)
        with ⟨c', h1, h2, h3⟩
      have : c' = c := counterValue_inj h2 hc (by omega)
      rw [h1, this]
    · rintro k ⟨hk, hit⟩
      rcases iterateNextChoice_visits maxes hpos k hk with ⟨c', h1, _, h3⟩
      rw [h1] at hit
      simp only [Run.ok.injEq, Prod.mk.injEq, true_and] at hit
      rw [hit] at h3
      omega
  · intro k hk
    rcases iterateNextChoice_visits maxes hpos k hk with ⟨c, h1, h2, h3⟩
    exact ⟨c, h2, h3, h1⟩

/-- Instance of C9: the digit counts `(2, 3)`. -/
theorem nextChoice_counts_witness :
    (∀ m ∈ ([2, 3] : List Int), 0 < m) ∧
    nextChoice [1, 0] [2, 3] = .ok (true, [0, 1]) ∧
    iterateNextChoice [2, 3] 6 = .ok (false, [0, 0]) :=
  ⟨by decide, by decide, (nextChoice_counts [2, 3] (by decide)).2.2.2⟩

/-- C10.  The decrement at the start of `listTerminals` undoes `nextChoice`:
for positive digit counts and an in-range counter `c` with
`nextChoice(c, maxes) = (true, c')`, decrementing `c'` gives `c`. -/
theorem recoverPreviousChoice_nextChoice (maxes c c' : List Int)
    (_hpos : ∀ m ∈ maxes, 0 < m) (hc : InRange c maxes)
    (hn : nextChoice c maxes = .ok (true, c')) :
    recoverPreviousChoice c' maxes = .ok c :=
  recoverPreviousChoice_undoes hc hn

/-- Instance of C10: the digit counts `(2, 3)` and the counter `(1, 0)`. -/
theorem recoverPreviousChoice_nextChoice_witness :
    (∀ m ∈ ([2, 3] : List Int), 0 < m) ∧ InRange [1, 0] [2, 3] ∧
    nextChoice [1, 0] [2, 3] = .ok (true, [0, 1]) ∧
    recoverPreviousChoice [0, 1] [2, 3] = .ok [1, 0] :=
  ⟨by decide,
    List.Forall₂.cons (by decide) (List.Forall₂.cons (by decide) List.Forall₂.nil),
    by decide,
    recoverPreviousChoice_nextChoice [2, 3] [1, 0] [0, 1] (by decide)
      (List.Forall₂.cons (by decide) (List.Forall₂.cons (by decide) List.Forall₂.nil))
      (by decide)⟩

/-! ## The constructor -/

theorem lookup_cons_pair {α : Type} (k' a : symbol) (b : α) (m : List (symbol × α)) :
    List.lookup k' ((a, b) :: m) = if k' = a then some b else List.lookup k' m := by
  by_cases hk : k' = a
  · subst hk
    simp [List.lookup]
  · have hb : (k' == a) = false := by simpa using hk
    simp [List.lookup, hb, hk]

theorem lookup_map_assign {α : Type} (k k' : symbol) (v : α) :
    ∀ m : List (symbol × α),
      List.lookup k' (m.map (fun e => if e.1 = k then (k, v) else e)) =
        if k' = k then (List.lookup k m).map (fun _ => v) else List.lookup k' m := by
  intro m
  induction m with
  | nil => simp [List.lookup]
  | cons e m ih =>
    rcases e with ⟨a, b⟩
    by_cases he : a = k
    · have e1 : (if (a, b).1 = k then (k, v) else (a, b)) = (k, v) := if_pos he
      simp only [List.map_cons, e1, lookup_cons_pair, ih]
      subst he
      by_cases hk : k' = a
      · simp [hk]
      · simp [hk]
    · have e1 : (if (a, b).1 = k then (k, v) else (a, b)) = (a, b) := if_neg he
      simp only [List.map_cons, e1, lookup_cons_pair, ih]
      by_cases hk : k' = k
      · have hka : ¬ k' = a := fun h => he (h.symm.trans hk)
        have hka' : ¬ k = a := fun h => he h.symm
        simp [hk, hka']
      · by_cases hka : k' = a
        · subst hka
          simp [hk]
        · simp [hk, hka]

theorem lookup_append_single {α : Type} (k k' : symbol) (v : α) :
    ∀ m : List (symbol × α),
      List.lookup k' (m ++ [(k, v)]) =
        match List.lookup k' m with
        | some x => some x
        | none => if k' = k then some v else none := by
  intro m
  induction m with
  | nil =>
    show List.lookup k' ((k, v) :: []) = _
    rw [lookup_cons_pair]
    simp [List.lookup]
  | cons e m ih =>
    rcases e with ⟨a, b⟩
    simp only [List.cons_append, lookup_cons_pair, ih]
    by_cases hka : k' = a
    · simp [hka]
    · simp [hka]

theorem lookup_mapAssign_self {α : Type} (m : List (symbol × α)) (k : symbol) (v : α) :
    (mapAssign m k v).lookup k = some v := by
  unfold mapAssign
  split
  · next h =>
    rw [lookup_map_assign]
    rcases hl : List.lookup k m with _ | x
    · rw [hl] at h
      simp at h
    · simp
  · next h =>
    rw [lookup_append_single]
    rcases hl : List.lookup k m with _ | x
    · simp
    · rw [hl] at h
      simp at h

theorem lookup_mapAssign_ne {α : Type} (m : List (symbol × α)) (k k' : symbol) (v : α)
    (hne : k' ≠ k) : (mapAssign m k v).lookup k' = m.lookup k' := by
  unfold mapAssign
  split
  · rw [lookup_map_assign]
    simp [hne]
  · rw [lookup_append_single]
    rcases hl : List.lookup k' m with _ | x
    · simp [hne]
    · simp

theorem storeTerminals_lookup (rs : List rule) (t : symbol) :
    ∀ (ts : List symbol) (m : List (symbol × Bool) × List (symbol × List symbol)),
      ((ts.foldl (fun m t => (mapAssign m.1 t true, mapAssign m.2 t (varsOf t rs))) m).1.lookup t
        = if t ∈ ts then some true else m.1.lookup t) ∧
      ((ts.foldl (fun m t => (mapAssign m.1 t true, mapAssign m.2 t (varsOf t rs))) m).2.lookup t
        = if t ∈ ts then some (varsOf t rs) else m.2.lookup t) := by
  intro ts
  induction ts with
  | nil => intro m; simp
  | cons a ts ih =>
    intro m
    rw [List.foldl_cons]
    rcases ih (mapAssign m.1 a true, mapAssign m.2 a (varsOf a rs)) with ⟨h1, h2⟩
    rw [h1, h2]
    by_cases hta : t = a
    · subst hta
      simp [lookup_mapAssign_self]
    · have hmem : (t ∈ a :: ts) ↔ t ∈ ts := by simp [hta]
      simp only [hmem, lookup_mapAssign_ne _ _ _ _ hta]
      exact ⟨trivial, trivial⟩

theorem create_isTerminal (vs ts : List symbol) (rs : List rule) (t : symbol) :
    (Grammar.create vs ts rs).isTerminal.lookup t = if t ∈ ts then some true else none :=
  (storeTerminals_lookup rs t ts ([], [])).1

theorem create_termToVars (vs ts : List symbol) (rs : List rule) (t : symbol) :
    (Grammar.create vs ts rs).termToVars.lookup t =
      if t ∈ ts then some (varsOf t rs) else none :=
  (storeTerminals_lookup rs t ts ([], [])).2

theorem storeRules_eq (isT : List (symbol × Bool)) :
    ∀ (rs : List rule) (acc : List rule × List rule),
      storeRules isT rs acc =
        (acc.1 ++ rs.filter (fun r =>
            decide (r.1.1 = "S" ∧ r.1.2 = "NONE" ∧ r.2.1 ≠ "S" ∧ r.2.2 ≠ "S") ||
              !decide (isT.lookup r.2.1 = some true)),
         acc.2 ++ rs.filter (fun r =>
            decide (r.1.1 = "S" ∧ r.1.2 = "NONE" ∧ r.2.1 ≠ "S" ∧ r.2.2 ≠ "S"))) := by
  intro rs
  induction rs with
  | nil => intro acc; simp [storeRules]
  | cons r rs ih =>
    intro acc
    unfold storeRules
    by_cases hs : r.1.1 = "S" ∧ r.1.2 = "NONE" ∧ r.2.1 ≠ "S" ∧ r.2.2 ≠ "S"
    · rw [if_pos hs, ih]
      simp [List.filter_cons, hs]
    · rw [if_neg hs]
      by_cases ht : isT.lookup r.2.1 = some true
      · rw [if_pos ht, ih]
        simp [List.filter_cons, hs, ht]
      · rw [if_neg ht, ih]
        simp [List.filter_cons, hs, ht]

theorem create_rules (vs ts : List symbol) (rs : List rule) :
    (Grammar.create vs ts rs).rules =
      rs.filter (fun r =>
        decide (r.1.1 = "S" ∧ r.1.2 = "NONE" ∧ r.2.1 ≠ "S" ∧ r.2.2 ≠ "S") ||
          !decide (r.2.1 ∈ ts)) := by
  show (storeRules (storeTerminals ts rs).1 rs ([], [])).1 = _
  rw [storeRules_eq]
  simp only [List.nil_append]
  apply List.filter_congr
  intro r _
  have h := (storeTerminals_lookup rs r.2.1 ts ([], [])).1
  have h' : (storeTerminals ts rs).1.lookup r.2.1 = if r.2.1 ∈ ts then some true else none := h
  rw [h']
  by_cases hm : r.2.1 ∈ ts <;> simp [hm]

theorem create_Srules (vs ts : List symbol) (rs : List rule) :
    (Grammar.create vs ts rs).Srules =
      rs.filter (fun r =>
        decide (r.1.1 = "S" ∧ r.1.2 = "NONE" ∧ r.2.1 ≠ "S" ∧ r.2.2 ≠ "S")) := by
  show (storeRules (storeTerminals ts rs).1 rs ([], [])).2 = _
  rw [storeRules_eq]
  rfl

theorem create_Srules_subset (vs ts : List symbol) (rs : List rule) :
    ∀ r ∈ (Grammar.create vs ts rs).Srules, r ∈ (Grammar.create vs ts rs).rules := by
  intro r hr
  rw [create_Srules] at hr
  rw [create_rules]
  rw [List.mem_filter] at hr ⊢
  refine ⟨hr.1, ?_⟩
  simp only [Bool.or_eq_true]
  exact Or.inl hr.2

/-- A general rule whose first right symbol is a declared terminal is a
start rule: the constructor drops every other rule that leads to a
terminal. -/
theorem create_rules_terminal (vs ts : List symbol) (rs : List rule) (r : rule)
    (hr : r ∈ (Grammar.create vs ts rs).rules) (ht : r.2.1 ∈ ts) :
    r.1.1 = "S" ∧ r.1.2 = "NONE" ∧ r.2.1 ≠ "S" ∧ r.2.2 ≠ "S" := by
  rw [create_rules, List.mem_filter] at hr
  simpa [ht] using hr.2

theorem filterMap_eq_map_filter {α β : Type} (f : α → Option β) (p : α → Bool) (g : α → β) :
    ∀ l : List α, (∀ x ∈ l, f x = if p x = true then some (g x) else none) →
      l.filterMap f = (l.filter p).map g := by
  intro l
  induction l with
  | nil => intro _; rfl
  | cons x l ih =>
    intro h
    have hx := h x (List.mem_cons_self _ _)
    have ih' := ih (fun y hy => h y (List.mem_cons_of_mem _ hy))
    by_cases hp : p x = true
    · rw [if_pos hp] at hx
      rw [List.filterMap_cons, hx, List.filter_cons, if_pos hp, List.map_cons, ih']
    · rw [if_neg hp] at hx
      rw [List.filterMap_cons, hx, List.filter_cons, if_neg hp, ih']

/-! ## The claims on the counter decrement and the constructor -/

/-- C11 (the code breaks the claim).  The decrement at the start of
`listTerminals`, applied to the all-zero counter, is no error: for every
`maxes` it returns the counter whose every digit is `maxes[i] - 1`. -/
theorem recoverPreviousChoice_zero_wraps :
    ∀ maxes : List Int,
      recoverPreviousChoice (zeroChoice maxes) maxes = .ok (maxes.map (fun m => m - 1)) := by
  intro maxes
  induction maxes with
  | nil => rfl
  | cons m ms ih =>
    show recoverPreviousChoice (0 :: zeroChoice ms) (m :: ms) = _
    unfold recoverPreviousChoice
    rw [if_neg (by decide)]
    simp only [ih, Run.bind, List.map_cons]

/-- C12 (the code breaks the claim).  In the grammar built from
the variables `S`, `A`, the terminal `a` and the rules `S → a`, `A → a`, the
terminal-producing rule `S → a` is a member of the general rule set (and of
the start rules), although it is represented in `termToVars` as well; the
rule `A → a` is not a member. -/
theorem create_keeps_start_terminal_rule :
    ruleOf "S" "NONE" "a" "NONE" ∈ gStartTerminal.rules ∧
    ruleOf "S" "NONE" "a" "NONE" ∈ gStartTerminal.Srules ∧
    "S" ∈ gStartTerminal.variables_ ∧ "a" ∈ gStartTerminal.terminals ∧
    gStartTerminal.termToVars.lookup "a" = some ["S", "A"] ∧
    ruleOf "A" "NONE" "a" "NONE" ∉ gStartTerminal.rules := by
  decide

/-- Which terminal-producing rules the constructor keeps.  In a grammar built
by the constructor, an input rule whose first right symbol is a declared
terminal `t` is a member of the general rule set exactly when it is a start
rule (left side `(S, NONE)`, no `S` on the right side): every other
terminal-producing rule is absent from `rules`.  In both cases its left symbol
is listed in `termToVars[t]`. -/
theorem create_rules_hold_no_terminal_rule (vs ts : List symbol) (rs : List rule) (r : rule)
    (hr : r ∈ rs) (ht : r.2.1 ∈ ts) :
    (r ∈ (Grammar.create vs ts rs).rules ↔
      (r.1.1 = "S" ∧ r.1.2 = "NONE" ∧ r.2.1 ≠ "S" ∧ r.2.2 ≠ "S")) ∧
    ∃ vars, (Grammar.create vs ts rs).termToVars.lookup r.2.1 = some vars ∧ r.1.1 ∈ vars := by
  constructor
  · constructor
    · intro h
      exact create_rules_terminal vs ts rs r h ht
    · intro h
      rw [create_rules, List.mem_filter]
      exact ⟨hr, by simp [h]⟩
  · refine ⟨varsOf r.2.1 rs, by rw [create_termToVars, if_pos ht], ?_⟩
    unfold varsOf
    rw [List.mem_filterMap]
    exact ⟨r, hr, by simp⟩

/-- Instance for the rule `A → a` of the grammar `S → a`, `A → a`. -/
theorem create_rules_hold_no_terminal_rule_witness :
    ruleOf "A" "NONE" "a" "NONE" ∈
      [ruleOf "S" "NONE" "a" "NONE", ruleOf "A" "NONE" "a" "NONE"] ∧
    "a" ∈ ["a"] ∧
    ruleOf "A" "NONE" "a" "NONE" ∉ gStartTerminal.rules ∧
    ∃ vars, gStartTerminal.termToVars.lookup "a" = some vars ∧ "A" ∈ vars :=
  ⟨by decide, by decide, by decide,
    (create_rules_hold_no_terminal_rule ["S", "A"] ["a"]
      [ruleOf "S" "NONE" "a" "NONE", ruleOf "A" "NONE" "a" "NONE"]
      (ruleOf "A" "NONE" "a" "NONE") (by decide) (by decide)).2⟩

/-- C13.  For every input rule list `rs`, `Srules` is the sublist of `rs`, in
order, of the rules whose left side is `(S, NONE)` and whose right side has
`S` in neither slot, and every rule of `Srules` is a member of `rules`. -/
theorem create_Srules_is_start_sublist (vs ts : List symbol) (rs : List rule) :
    (Grammar.create vs ts rs).Srules =
      rs.filter (fun r => decide (r.1 = ("S", "NONE") ∧ r.2.1 ≠ "S" ∧ r.2.2 ≠ "S")) ∧
    ∀ r ∈ (Grammar.create vs ts rs).Srules, r ∈ (Grammar.create vs ts rs).rules := by
  refine ⟨?_, create_Srules_subset vs ts rs⟩
  rw [create_Srules]
  apply List.filter_congr
  intro r _
  rcases r with ⟨⟨l1, l2⟩, ⟨r1, r2⟩⟩
  simp [and_assoc]

/-- C14.  For a grammar in Kuroda normal form and a declared terminal `t`,
`termToVars[t]` is the list, in rule order and with duplicates, of the left
symbols of the rules of shape `X → t` (one left symbol, right side `t`
alone). -/
theorem create_termToVars_knf (vs ts : List symbol) (rs : List rule)
    (hknf : KurodaNormalForm vs ts rs) (t : symbol) (ht : t ∈ ts) :
    (Grammar.create vs ts rs).termToVars.lookup t =
      some ((rs.filter (fun r => decide (r.1.2 = "NONE" ∧ r.2 = (t, "NONE")))).map
        (fun r => r.1.1)) := by
  rw [create_termToVars, if_pos ht]
  congr 1
  unfold varsOf
  have hshape : ∀ r ∈ rs, t = r.2.1 → r.1.2 = "NONE" ∧ r.2.2 = "NONE" := by
    intro r hr htr
    have h := hknf.2 r hr
    by_cases h2 : r.2.2 = "NONE"
    · exact ⟨h.1 h2, h2⟩
    · exfalso
      have := (h.2 h2).1
      rw [← htr] at this
      exact hknf.1 t ht this
  apply filterMap_eq_map_filter
  intro r hr
  by_cases htr : t = r.2.1
  · have h := hshape r hr htr
    have hp : r.1.2 = "NONE" ∧ r.2 = (t, "NONE") :=
      ⟨h.1, Prod.ext htr.symm h.2⟩
    rw [if_pos htr, decide_eq_true hp]
    rfl
  · have hp : ¬ (r.1.2 = "NONE" ∧ r.2 = (t, "NONE")) := by
      intro h
      exact htr (by rw [h.2])
    rw [if_neg htr, decide_eq_false hp]
    rfl

/-- Instance of C14: the example grammar with the rule `B → b` and the
terminal `a`. -/
theorem create_termToVars_knf_witness :
    KurodaNormalForm ["A", "A'", "B", "B'", "C"] ["a", "b", "c"]
      [ruleOf "S" "NONE" "A'" "NONE", ruleOf "A'" "NONE" "A" "B'", ruleOf "A" "NONE" "a" "NONE",
       ruleOf "B'" "NONE" "B" "C", ruleOf "C" "NONE" "c" "NONE", ruleOf "B" "NONE" "b" "NONE"] ∧
    "a" ∈ ["a", "b", "c"] ∧
    gExampleB.termToVars.lookup "a" = some ["A"] :=
  ⟨by unfold KurodaNormalForm IsNonterminal; decide, by decide,
    create_termToVars_knf ["A", "A'", "B", "B'", "C"] ["a", "b", "c"]
      [ruleOf "S" "NONE" "A'" "NONE", ruleOf "A'" "NONE" "A" "B'", ruleOf "A" "NONE" "a" "NONE",
       ruleOf "B'" "NONE" "B" "C", ruleOf "C" "NONE" "c" "NONE", ruleOf "B" "NONE" "b" "NONE"]
      (by unfold KurodaNormalForm IsNonterminal; decide) "a" (by decide)⟩

/-! ## The claims on `wordFrom`, the base case and the driver -/

theorem wordFrom_unknown (g : Grammar) :
    ∀ (w : word) (ch : List Int), ch.length = w.length →
      (∀ (i : Nat) (s : symbol) (k : Int) (vars : List symbol), w[i]? = some s → ch[i]? = some k → g.termToVars.lookup s = some vars →
        0 ≤ k ∧ k < vars.length) →
      (∃ s ∈ w, g.termToVars.lookup s = none) →
      wordFrom g ch w = .fault .invalidArgument := by
  intro w
  induction w with
  | nil => rintro ch _ _ ⟨s, hs, _⟩; exact absurd hs (List.not_mem_nil s)
  | cons t ws ih =>
    rintro ch hlen hidx ⟨s, hs, hnone⟩
    cases ch with
    | nil => simp at hlen
    | cons k cs =>
      unfold wordFrom
      rcases ht : g.termToVars.lookup t with _ | vars
      · rfl
      · have hin : s ∈ ws := by
          rcases List.mem_cons.mp hs with h | h
          · rw [h, ht] at hnone
            exact Option.noConfusion hnone
          · exact h
        have hk := hidx 0 t k vars (by simp) (by simp) ht
        simp only
        rw [if_pos hk, ih cs (by simpa using hlen)
          (fun i s' k' vars' h1 h2 h3 =>
            hidx (i + 1) s' k' vars' (by simpa using h1) (by simpa using h2) h3) ⟨s, hin, hnone⟩]
        rfl

theorem wordFrom_known (g : Grammar) :
    ∀ (w : word) (ch : List Int), ch.length = w.length →
      (∀ (i : Nat) (s : symbol) (k : Int) (vars : List symbol), w[i]? = some s → ch[i]? = some k → g.termToVars.lookup s = some vars →
        0 ≤ k ∧ k < vars.length) →
      (∀ s ∈ w, g.termToVars.lookup s ≠ none) →
      ∃ v, wordFrom g ch w = .ok v ∧ v.length = w.length ∧
        ∀ (i : Nat) (s : symbol) (k : Int), w[i]? = some s → ch[i]? = some k →
          ∃ (vars : List symbol) (x : symbol), g.termToVars.lookup s = some vars ∧ vars[Int.toNat k]? = some x ∧
            v[i]? = some x := by
  intro w
  induction w with
  | nil =>
    intro ch _ _ _
    refine ⟨[], by simp [wordFrom], rfl, ?_⟩
    intro i s k h
    simp at h
  | cons t ws ih =>
    intro ch hlen hidx hall
    cases ch with
    | nil => simp at hlen
    | cons k cs =>
      rcases ht : g.termToVars.lookup t with _ | vars
      · exact absurd ht (hall t (List.mem_cons_self _ _))
      · have hk := hidx 0 t k vars (by simp) (by simp) ht
        rcases ih cs (by simpa using hlen)
          (fun i s' k' vars' h1 h2 h3 =>
            hidx (i + 1) s' k' vars' (by simpa using h1) (by simpa using h2) h3)
          (fun s hs => hall s (List.mem_cons_of_mem _ hs)) with ⟨v, hv, hvl, hvi⟩
        have hlt : k.toNat < vars.length := by omega
        refine ⟨vars.getD k.toNat "" :: v, ?_, by simp [hvl], ?_⟩
        · unfold wordFrom
          simp only [ht]
          rw [if_pos hk, hv]
          rfl
        · intro i s' k' h1 h2
          cases i with
          | zero =>
            simp only [List.getElem?_cons_zero, Option.some.injEq] at h1 h2
            subst h1 h2
            refine ⟨vars, vars.getD k.toNat "", ht, ?_, by simp⟩
            rw [List.getD_eq_getElem?_getD, List.getElem?_eq_getElem hlt]
            rfl
          | succ i =>
            simp only [List.getElem?_cons_succ] at h1 h2 ⊢
            exact hvi i s' k' h1 h2

/-- C15.  For a word `w` and a choice vector `ch` of the same length whose
digits are valid indices into the origin lists that exist: `wordFrom(ch, w)`
throws when some symbol of `w` has no `termToVars` entry, and otherwise
returns a form of the length of `w` whose `i`-th symbol is
`termToVars[w[i]][ch[i]]`. -/
theorem wordFrom_instantiates (g : Grammar) (ch : List Int) (w : word)
    (hlen : ch.length = w.length)
    (hidx : ∀ (i : Nat) (s : symbol) (k : Int) (vars : List symbol), w[i]? = some s → ch[i]? = some k →
      g.termToVars.lookup s = some vars → 0 ≤ k ∧ k < vars.length) :
    ((∃ s ∈ w, g.termToVars.lookup s = none) → wordFrom g ch w = .fault .invalidArgument) ∧
    ((∀ s ∈ w, g.termToVars.lookup s ≠ none) →
      ∃ v, wordFrom g ch w = .ok v ∧ v.length = w.length ∧
        ∀ (i : Nat) (s : symbol) (k : Int), w[i]? = some s → ch[i]? = some k →
          ∃ (vars : List symbol) (x : symbol), g.termToVars.lookup s = some vars ∧ vars[Int.toNat k]? = some x ∧
            v[i]? = some x) :=
  ⟨wordFrom_unknown g w ch hlen hidx, wordFrom_known g w ch hlen hidx⟩

/-- Instance of C15: the grammar `S → B`, `A → a`, `B → a`, the word `a a` and
the choice vector `(1, 0)`. -/
theorem wordFrom_instantiates_witness :
    ([1, 0] : List Int).length = ["a", "a"].length ∧
    (∀ s ∈ ["a", "a"], gSecondOrigin.termToVars.lookup s ≠ none) ∧
    ∃ v, wordFrom gSecondOrigin [1, 0] ["a", "a"] = .ok v ∧ v.length = ["a", "a"].length ∧
      ∀ (i : Nat) (s : symbol) (k : Int), ["a", "a"][i]? = some s → ([1, 0] : List Int)[i]? = some k →
        ∃ (vars : List symbol) (x : symbol), gSecondOrigin.termToVars.lookup s = some vars ∧ vars[Int.toNat k]? = some x ∧
          v[i]? = some x :=
  ⟨rfl, by decide,
    (wordFrom_instantiates gSecondOrigin [1, 0] ["a", "a"] rfl (by
      intro i s k vars h1 h2 h3
      have hs : s = "a" := by
        match i, h1 with
        | 0, h1 => simpa using h1.symm
        | 1, h1 => simpa using h1.symm
        | _ + 2, h1 => simp at h1
      subst hs
      have hv : vars = ["A", "B"] := by
        have : gSecondOrigin.termToVars.lookup "a" = some ["A", "B"] := by decide
        rw [this] at h3
        exact (Option.some.inj h3).symm
      subst hv
      match i, h2 with
      | 0, h2 =>
        have : k = 1 := by simpa using h2.symm
        subst this
        decide
      | 1, h2 =>
        have : k = 0 := by simpa using h2.symm
        subst this
        decide
      | _ + 2, h2 => simp at h2)).2 (by decide)⟩

theorem baseCase_eq_find (rs : List rule) (w : word) :
    baseCase rs w = rs.find? (fun r => startMatches r w) := by
  induction rs with
  | nil => rfl
  | cons r rs ih =>
    unfold baseCase
    rw [List.find?_cons]
    match w with
    | [] =>
      have h : startMatches r [] = false := rfl
      rw [h]
      symm
      rw [List.find?_eq_none]
      intro x _
      simp [startMatches]
    | [a] =>
      by_cases h : a = r.2.1 ∧ r.2.2 = "NONE"
      · simp [startMatches, h]
      · simp only [startMatches, h, if_false, decide_False]
        exact ih
    | [a, b] =>
      by_cases h : a = r.2.1 ∧ b = r.2.2
      · simp [startMatches, h]
      · simp only [startMatches, h, if_false, decide_False]
        exact ih
    | a :: b :: c :: l =>
      have h : startMatches r (a :: b :: c :: l) = false := rfl
      rw [h]
      symm
      rw [List.find?_eq_none]
      intro x _
      simp [startMatches]

/-- C16.  On a form of length 1 or 2 that positionally equals the right side
of some start rule, the body of `parse_helper` returns `(true, [(r, w)])` with
`r` the first such rule of `Srules`, leaves the memo as it was, and does so
whatever the recursive calls would do: it makes none.  So does
`parse_helper` with any recursion bound of at least 1. -/
theorem parse_helper_base_case (g : Grammar) (rec : Memo → word → HelperResult) (memo : Memo)
    (w : word) (hlen : w.length = 1 ∨ w.length = 2)
    (hm : ∃ r ∈ g.Srules, startMatches r w = true) :
    ∃ r, g.Srules.find? (fun r => startMatches r w) = some r ∧
      helperBody g rec memo w = .ok (true, [(r, w)], memo) ∧
      ∀ fuel, parse_helper g (fuel + 1) memo w = .ok (true, [(r, w)], memo) := by
  rcases hm with ⟨r0, hr0, hm0⟩
  rcases hf : g.Srules.find? (fun r => startMatches r w) with _ | r
  · rw [List.find?_eq_none] at hf
    exact absurd hm0 (hf r0 hr0)
  · have hbody : ∀ rec', helperBody g rec' memo w = .ok (true, [(r, w)], memo) := by
      intro rec'
      unfold helperBody
      rw [if_neg (by omega), if_pos (by omega), baseCase_eq_find, hf]
    exact ⟨r, rfl, hbody rec, fun fuel => hbody _⟩

/-- Instance of C16: the form `E` in the grammar `A → B C`, `E → B C`,
`S → E`. -/
theorem parse_helper_base_case_witness :
    (["E"].length = 1 ∨ ["E"].length = 2) ∧
    (∃ r ∈ gCollapse.Srules, startMatches r ["E"] = true) ∧
    ∃ r, gCollapse.Srules.find? (fun r => startMatches r ["E"]) = some r ∧
      helperBody gCollapse (fun _ _ => .fault .outOfRange) [] ["E"] = .ok (true, [(r, ["E"])], []) ∧
      ∀ fuel, parse_helper gCollapse (fuel + 1) [] ["E"] = .ok (true, [(r, ["E"])], []) :=
  ⟨Or.inl rfl, ⟨ruleOf "S" "NONE" "E" "NONE", by decide, by decide⟩,
    parse_helper_base_case gCollapse (fun _ _ => .fault .outOfRange) [] ["E"] (Or.inl rfl)
      ⟨ruleOf "S" "NONE" "E" "NONE", by decide, by decide⟩⟩

/-- C17.  What `parse` prints, or how it stops, and the forms it hands to
`parse_helper` do not depend on the memo it is entered with. -/
theorem parse_ignores_old_memo (g : Grammar) (fuel : Nat) (memo1 memo2 : Memo) (w : word) :
    (parse g fuel memo1 w).outcome = (parse g fuel memo2 w).outcome ∧
    (parse g fuel memo1 w).calls = (parse g fuel memo2 w).calls := by
  unfold parse
  simp only []
  rcases hm : maxesOf g w with maxes | e | _
  · simp only []
    rcases hw : wordFrom g (List.replicate w.length 0) w with w1 | e | _
    · simp only []
      rcases hp : parse_helper g fuel [w1] w1 with ⟨b, tr, memo'⟩ | e | _
      all_goals first | exact ⟨rfl, rfl⟩ | simp
    all_goals exact ⟨rfl, rfl⟩
  all_goals exact ⟨rfl, rfl⟩

/-- C18 (counterexample to the claim as stated).  In the example grammar the
terminal `b` has no origin (there is no rule `B → b`), and `parse` on the word
`a b c` does not report success: `wordFrom` reads element 0 of the empty
origin list of `b`. -/
theorem parse_example_no_origin :
    gExample.termToVars.lookup "b" = some [] ∧
    ∀ n : Nat, parse gExample n [] ["a", "b", "c"] = ⟨[], [], .fault .outOfRange⟩ := by
  refine ⟨by decide, fun n => ?_⟩
  have hw : wordFrom gExample (List.replicate ["a", "b", "c"].length 0) ["a", "b", "c"] =
      .fault .outOfRange := by decide
  have hm : maxesOf gExample ["a", "b", "c"] = .ok [1, 0, 1] := by decide
  unfold parse
  simp only [hm, hw]

/-- C18 (amended).  In the example grammar with the further rule `B → b`,
`parse` on the word `a b c` reports success, for every recursion bound of at
least 3: the derivation is `S ⇒ A' ⇒ A B' ⇒ A B C` and the substitution list is
`A --> a`, `B --> b`, `C --> c`. -/
theorem parse_example_with_origin :
    ∀ n : Nat, parse gExampleB (3 + n) [] ["a", "b", "c"] =
      ⟨[["A", "B", "C"]], [["A'"], ["A", "B'"], ["A", "B", "C"]],
        .ok (.derived
          [(ruleOf "S" "NONE" "A'" "NONE", ["A'"]),
           (ruleOf "A'" "NONE" "A" "B'", ["A", "B'"]),
           (ruleOf "B'" "NONE" "B" "C", ["A", "B", "C"])]
          [("A", "a"), ("B", "b"), ("C", "c")])⟩ := by
  intro n
  have hp : parse_helper gExampleB (3 + n) [["A", "B", "C"]] ["A", "B", "C"] =
      .ok (true,
        [(ruleOf "S" "NONE" "A'" "NONE", ["A'"]),
         (ruleOf "A'" "NONE" "A" "B'", ["A", "B'"]),
         (ruleOf "B'" "NONE" "B" "C", ["A", "B", "C"])],
        [["A'"], ["A", "B'"], ["A", "B", "C"]]) :=
    parse_helper_add (by decide) n
  rw [parse_of_first_candidate gExampleB (3 + n) [] ["a", "b", "c"] [1, 1, 1] (by decide)
    (by decide) hp]
  decide

/-! ## The memo as a guard -/

theorem tryOne_guarded {rec rec' : Memo → word → HelperResult} (h : AgreeOnGuarded rec rec')
    (r : rule) (i : Nat) (w : word) (memo : Memo) :
    tryOne rec r i w memo = tryOne rec' r i w memo := by
  unfold tryOne
  by_cases hm : w.set i r.1.1 ∈ memo
  · simp [hm]
  · simp only [hm, if_false]
    rw [h _ _ hm]

theorem tryTwo_guarded {rec rec' : Memo → word → HelperResult} (h : AgreeOnGuarded rec rec')
    (r : rule) (i : Nat) (w : word) (memo : Memo) :
    tryTwo rec r i w memo = tryTwo rec' r i w memo := by
  unfold tryTwo
  generalize (if r.1.2 = "NONE" then (w.set i r.1.1).eraseIdx (i + 1)
    else (w.set i r.1.1).set (i + 1) r.1.2) = w1
  by_cases hm : w1 ∈ memo
  · simp [hm]
  · simp only [hm, if_false]
    rw [h _ _ hm]

theorem oneSymbol_guarded {rec rec' : Memo → word → HelperResult} (h : AgreeOnGuarded rec rec')
    (r : rule) : ∀ (k i : Nat) (w : word) (memo : Memo),
    oneSymbol rec r k i w memo = oneSymbol rec' r k i w memo := by
  intro k
  induction k with
  | zero => intro i w memo; simp [oneSymbol]
  | succ k ih =>
    intro i w memo
    unfold oneSymbol
    rw [tryOne_guarded h]
    simp only [ih]

theorem twoSymbol_guarded {rec rec' : Memo → word → HelperResult} (h : AgreeOnGuarded rec rec')
    (r : rule) : ∀ (k i : Nat) (w : word) (memo : Memo),
    twoSymbol rec r k i w memo = twoSymbol rec' r k i w memo := by
  intro k
  induction k with
  | zero => intro i w memo; simp [twoSymbol]
  | succ k ih =>
    intro i w memo
    unfold twoSymbol
    rw [tryTwo_guarded h]
    simp only [ih]

theorem ruleLoop_guarded {rec rec' : Memo → word → HelperResult} (h : AgreeOnGuarded rec rec') :
    ∀ (rs : List rule) (w : word) (memo : Memo),
    ruleLoop rec rs w memo = ruleLoop rec' rs w memo := by
  intro rs
  induction rs with
  | nil => intro w memo; simp [ruleLoop]
  | cons r rs ih =>
    intro w memo
    unfold ruleLoop
    rw [oneSymbol_guarded h, twoSymbol_guarded h]
    simp only [ih]

theorem helperBody_guarded (g : Grammar) {rec rec' : Memo → word → HelperResult}
    (h : AgreeOnGuarded rec rec') (memo : Memo) (w : word) :
    helperBody g rec memo w = helperBody g rec' memo w := by
  unfold helperBody
  rw [ruleLoop_guarded h]

theorem addedTo_refl (memo : Memo) : AddedTo memo memo :=
  ⟨[], rfl, List.nodup_nil, fun v hv => absurd hv (List.not_mem_nil v)⟩

theorem addedTo_call {memo0 memo memo' : Memo} {v : word} (h0 : AddedTo memo0 memo)
    (hv : v ∉ memo) (h1 : AddedTo (v :: memo) memo') : AddedTo memo0 memo' := by
  rcases h0 with ⟨a1, rfl, hn1, hf1⟩
  rcases h1 with ⟨a2, rfl, hn2, hf2⟩
  refine ⟨a2 ++ v :: a1, by simp, ?_, ?_⟩
  · rw [List.nodup_append]
    refine ⟨hn2, ?_, ?_⟩
    · rw [List.nodup_cons]
      exact ⟨fun hva => hv (List.mem_append_left _ hva), hn1⟩
    · intro x hx2 hx1
      exact hf2 x hx2 (by
        rcases List.mem_cons.mp hx1 with h | h
        · rw [h]; exact List.mem_cons_self _ _
        · exact List.mem_cons_of_mem _ (List.mem_append_left _ h))
  · intro x hx hx0
    rcases List.mem_append.mp hx with h | h
    · exact hf2 x h (List.mem_cons_of_mem _ (List.mem_append_right _ hx0))
    · rcases List.mem_cons.mp h with h | h
      · rw [h] at hx0
        exact hv (List.mem_append_right _ hx0)
      · exact hf1 x h hx0

theorem tryOne_appendOnly {rec : Memo → word → HelperResult}
    (hrec : ∀ memo w, AppendOnly memo (rec memo w)) (r : rule) (i : Nat) (w : word)
    {memo0 memo : Memo} (h0 : AddedTo memo0 memo) :
    Continue (fun w' memo' => AddedTo memo0 memo' ∧ w'.length ≤ w.length)
      (LoopAppendOnly memo0) (tryOne rec r i w memo) := by
  unfold tryOne
  by_cases hm : w.set i r.1.1 ∈ memo
  · simp only [hm, if_true, Continue]
    exact ⟨h0, by simp⟩
  · simp only [hm, if_false]
    have hf := hrec (w.set i r.1.1 :: memo) (w.set i r.1.1)
    rcases hres : rec (w.set i r.1.1 :: memo) (w.set i r.1.1) with ⟨b, tr, memo'⟩ | e | _
    · rw [hres] at hf
      have hadd : AddedTo memo0 memo' := addedTo_call h0 hm hf
      cases b
      · simp only [Continue]
        exact ⟨hadd, by simp⟩
      · simp only [Continue, LoopAppendOnly]
        exact hadd
    · simp [Continue, LoopAppendOnly]
    · simp [Continue, LoopAppendOnly]

theorem tryTwo_appendOnly {rec : Memo → word → HelperResult}
    (hrec : ∀ memo w, AppendOnly memo (rec memo w)) (r : rule) (i : Nat) (w : word)
    {memo0 memo : Memo} (h0 : AddedTo memo0 memo) :
    Continue (fun w' memo' => AddedTo memo0 memo' ∧ w'.length ≤ w.length)
      (LoopAppendOnly memo0) (tryTwo rec r i w memo) := by
  unfold tryTwo
  have hlen : (if r.1.2 = "NONE" then (w.set i r.1.1).eraseIdx (i + 1)
      else (w.set i r.1.1).set (i + 1) r.1.2).length ≤ w.length := by
    split
    · exact le_trans (List.length_eraseIdx_le _ _) (by simp)
    · simp
  generalize (if r.1.2 = "NONE" then (w.set i r.1.1).eraseIdx (i + 1)
    else (w.set i r.1.1).set (i + 1) r.1.2) = w1 at hlen ⊢
  have hrest : ∀ memo', AddedTo memo0 memo' →
      Continue (fun w' memo' => AddedTo memo0 memo' ∧ w'.length ≤ w.length)
        (LoopAppendOnly memo0)
        ((restoreTwo r i w1).bind (fun w' => .ok (.next w' memo'))) := by
    intro memo' h1
    unfold restoreTwo
    by_cases hi : i + 1 < w1.length
    · simp only [hi, if_true, Run.bind, Continue]
      exact ⟨h1, by simpa using hlen⟩
    · simp only [hi, if_false, Run.bind, Continue, LoopAppendOnly]
  by_cases hm : w1 ∈ memo
  · simp only [hm, if_true]
    exact hrest memo h0
  · simp only [hm, if_false]
    have hf := hrec (w1 :: memo) w1
    rcases hres : rec (w1 :: memo) w1 with ⟨b, tr, memo'⟩ | e | _
    · rw [hres] at hf
      have hadd : AddedTo memo0 memo' := addedTo_call h0 hm hf
      cases b
      · exact hrest memo' hadd
      · simp only [Continue, LoopAppendOnly]
        exact hadd
    · simp [Continue, LoopAppendOnly]
    · simp [Continue, LoopAppendOnly]

theorem ruleLoop_appendOnly {rec : Memo → word → HelperResult}
    (hrec : ∀ memo w, AppendOnly memo (rec memo w)) (memo0 : Memo) :
    ∀ (rs : List rule) (w : word) (memo : Memo), AddedTo memo0 memo →
      Continue (fun _ memo' => AddedTo memo0 memo') (LoopAppendOnly memo0)
        (ruleLoop rec rs w memo) := by
  apply ruleLoop_rule' rec (fun _ _ memo => AddedTo memo0 memo)
  · intro r rs w memo hI _
    apply oneSymbol_rule' rec r (fun _ _ memo => AddedTo memo0 memo)
    · intro i w memo h _
      exact h
    · intro i w memo h _ _
      exact h
    · intro i w memo h _ _
      exact tryOne_appendOnly hrec r i w h
    · exact hI
    · omega
  · intro r rs w memo hI _
    apply twoSymbol_rule' rec r (fun _ _ memo => AddedTo memo0 memo)
    · intro i w memo _ _
      trivial
    · intro i w memo h _
      exact h
    · intro i w memo h _ _
      exact h
    · intro i w memo h _ _ _
      exact tryTwo_appendOnly hrec r i w h
    · exact hI
    · omega

theorem helperBody_appendOnly (g : Grammar) {rec : Memo → word → HelperResult}
    (hrec : ∀ memo w, AppendOnly memo (rec memo w)) (memo : Memo) (w : word) :
    AppendOnly memo (helperBody g rec memo w) := by
  unfold helperBody
  by_cases h0 : w.length = 0
  · simp only [h0, if_true, AppendOnly]
    exact addedTo_refl memo
  simp only [h0, if_false]
  rcases (if w.length ≤ 2 then baseCase g.Srules w else none) with _ | r
  · have hl := ruleLoop_appendOnly hrec memo g.rules w memo (addedTo_refl memo)
    simp only
    rcases hres : ruleLoop rec g.rules w memo with (⟨w', memo'⟩ | ⟨tr, memo'⟩) | e | _
    · rw [hres] at hl
      exact hl
    · rw [hres] at hl
      exact hl
    · trivial
    · trivial
  · exact addedTo_refl memo

theorem parse_helper_appendOnly (g : Grammar) :
    ∀ (n : Nat) (memo : Memo) (w : word), AppendOnly memo (parse_helper g n memo w) := by
  intro n
  induction n with
  | zero => intro memo w; trivial
  | succ n ih => exact helperBody_appendOnly g ih

/-! ## The shape of a returned trace -/

theorem single_set_occurs (a : symbol) : ∀ (i : Nat) (u : word), i < u.length →
    [a] <:+: u.set i a := by
  intro i
  induction i with
  | zero =>
    intro u hi
    cases u with
    | nil => simp at hi
    | cons x t => exact (List.prefix_append [a] t).isInfix
  | succ i ih =>
    intro u hi
    cases u with
    | nil => simp at hi
    | cons x t => exact List.infix_cons (ih t (by simpa using hi))

theorem pair_set_occurs (a b : symbol) : ∀ (i : Nat) (u : word), i + 1 < u.length →
    [a, b] <:+: (u.set i a).set (i + 1) b := by
  intro i
  induction i with
  | zero =>
    intro u hi
    match u, hi with
    | x :: y :: t, _ => exact (List.prefix_append [a, b] t).isInfix
  | succ i ih =>
    intro u hi
    cases u with
    | nil => simp at hi
    | cons x t => exact List.infix_cons (ih t (by simpa using hi))

theorem pair_insert_occurs (a b : symbol) : ∀ (i : Nat) (u : word), i < u.length →
    [a, b] <:+: (u.set i a).insertIdx (i + 1) b := by
  intro i
  induction i with
  | zero =>
    intro u hi
    cases u with
    | nil => simp at hi
    | cons x t => exact (List.prefix_append [a, b] t).isInfix
  | succ i ih =>
    intro u hi
    cases u with
    | nil => simp at hi
    | cons x t => exact List.infix_cons (ih t (by simpa using hi))

theorem traceShape_snoc {g : Grammar} {tr : List change} (h : TraceShape g tr) {r : rule}
    {f : word} (hr : r ∈ g.rules) (hf : rhs r <:+: f) : TraceShape g (tr ++ [(r, f)]) := by
  rcases h with ⟨r0, f0, rest, rfl, h1, h2, h3⟩
  refine ⟨r0, f0, rest ++ [(r, f)], rfl, h1, h2, ?_⟩
  intro step hs
  rcases List.mem_append.mp hs with h | h
  · exact h3 step h
  · rw [List.mem_singleton.mp h]
    exact ⟨Or.inl hr, hf⟩

theorem startMatches_rhs_occurs {r : rule} {f : word} (h : startMatches r f = true) :
    rhs r <:+: f ∧ ("NONE" ∉ f → f = rhs r) := by
  match f, h with
  | [a], h =>
    simp only [startMatches, decide_eq_true_eq] at h
    have : rhs r = [a] := by simp [rhs, h.1, h.2]
    rw [this]
    exact ⟨List.infix_refl _, fun _ => rfl⟩
  | [a, b], h =>
    simp only [startMatches, decide_eq_true_eq] at h
    by_cases hb : r.2.2 = "NONE"
    · have : rhs r = [a] := by simp [rhs, h.1, hb]
      rw [this]
      refine ⟨(List.prefix_append [a] [b]).isInfix, fun hn => ?_⟩
      exfalso
      apply hn
      rw [h.2, hb]
      simp
    · have : rhs r = [a, b] := by simp [rhs, h.1, h.2, hb]
      rw [this]
      exact ⟨List.infix_refl _, fun _ => rfl⟩

theorem tryOne_traceOK {g : Grammar} {rec : Memo → word → HelperResult}
    (hrec : ∀ memo w, TraceOK g (rec memo w)) {r : rule} (hr : r ∈ g.rules)
    (hr2 : r.2.2 = "NONE") {i : Nat} {w : word} (hi : i < w.length) (memo : Memo) :
    Continue (fun w' _ => w'.length = w.length) (LoopTraceOK g) (tryOne rec r i w memo) := by
  unfold tryOne
  by_cases hm : w.set i r.1.1 ∈ memo
  · simp [hm, Continue]
  · simp only [hm, if_false]
    have hf := hrec (w.set i r.1.1 :: memo) (w.set i r.1.1)
    rcases hres : rec (w.set i r.1.1 :: memo) (w.set i r.1.1) with ⟨b, tr, memo'⟩ | e | _
    · rw [hres] at hf
      cases b
      · simp [Continue]
      · simp only [Continue, LoopTraceOK]
        apply traceShape_snoc hf hr
        have : rhs r = [r.2.1] := by simp [rhs, hr2]
        rw [this]
        exact single_set_occurs _ i _ (by simpa using hi)
    · simp [Continue, LoopTraceOK]
    · simp [Continue, LoopTraceOK]

theorem tryTwo_traceOK {g : Grammar} {rec : Memo → word → HelperResult}
    (hrec : ∀ memo w, TraceOK g (rec memo w)) {r : rule} (hr : r ∈ g.rules)
    (hr2 : r.2.2 ≠ "NONE") {i : Nat} {w : word} (hi : i + 1 < w.length) (memo : Memo) :
    Continue (fun w' _ => w'.length ≤ w.length) (LoopTraceOK g) (tryTwo rec r i w memo) := by
  have hrhs : rhs r = [r.2.1, r.2.2] := by simp [rhs, hr2]
  unfold tryTwo
  by_cases hl : r.1.2 = "NONE"
  · simp only [hl, if_true]
    have hlen : ((w.set i r.1.1).eraseIdx (i + 1)).length = w.length - 1 := by
      rw [List.length_eraseIdx_of_lt (by simpa using hi)]
      simp
    have hrest : ∀ memo', Continue (fun w' _ => w'.length ≤ w.length) (LoopTraceOK g)
        ((restoreTwo r i ((w.set i r.1.1).eraseIdx (i + 1))).bind
          (fun w' => .ok (.next w' memo'))) := by
      intro memo'
      unfold restoreTwo
      split
      · simp only [Run.bind, Continue, List.length_set, hlen]
        omega
      · simp [Run.bind, Continue, LoopTraceOK]
    by_cases hm : (w.set i r.1.1).eraseIdx (i + 1) ∈ memo
    · simp only [hm, if_true]
      exact hrest memo
    · simp only [hm, if_false]
      have hf := hrec ((w.set i r.1.1).eraseIdx (i + 1) :: memo) ((w.set i r.1.1).eraseIdx (i + 1))
      rcases hres : rec ((w.set i r.1.1).eraseIdx (i + 1) :: memo)
        ((w.set i r.1.1).eraseIdx (i + 1)) with ⟨b, tr, memo'⟩ | e | _
      · rw [hres] at hf
        cases b
        · exact hrest memo'
        · simp only [Continue, LoopTraceOK]
          apply traceShape_snoc hf hr
          rw [hrhs]
          exact pair_insert_occurs _ _ i _ (by rw [hlen]; omega)
      · simp [Continue, LoopTraceOK]
      · simp [Continue, LoopTraceOK]
  · simp only [hl, if_false]
    have hrest : ∀ memo', Continue (fun w' _ => w'.length ≤ w.length) (LoopTraceOK g)
        ((restoreTwo r i ((w.set i r.1.1).set (i + 1) r.1.2)).bind
          (fun w' => .ok (.next w' memo'))) := by
      intro memo'
      unfold restoreTwo
      split
      · simp [Run.bind, Continue]
      · simp [Run.bind, Continue, LoopTraceOK]
    by_cases hm : (w.set i r.1.1).set (i + 1) r.1.2 ∈ memo
    · simp only [hm, if_true]
      exact hrest memo
    · simp only [hm, if_false]
      have hf := hrec ((w.set i r.1.1).set (i + 1) r.1.2 :: memo)
        ((w.set i r.1.1).set (i + 1) r.1.2)
      rcases hres : rec ((w.set i r.1.1).set (i + 1) r.1.2 :: memo)
        ((w.set i r.1.1).set (i + 1) r.1.2) with ⟨b, tr, memo'⟩ | e | _
      · rw [hres] at hf
        cases b
        · exact hrest memo'
        · simp only [Continue, LoopTraceOK]
          apply traceShape_snoc hf hr
          rw [hrhs]
          exact pair_set_occurs _ _ i _ (by simpa using hi)
      · simp [Continue, LoopTraceOK]
      · simp [Continue, LoopTraceOK]

theorem ruleLoop_traceOK {g : Grammar} {rec : Memo → word → HelperResult}
    (hrec : ∀ memo w, TraceOK g (rec memo w)) :
    ∀ (rs : List rule) (w : word) (memo : Memo), (∀ r ∈ rs, r ∈ g.rules) →
      Continue (fun _ _ => True) (LoopTraceOK g) (ruleLoop rec rs w memo) := by
  intro rs w memo hrs
  have := ruleLoop_rule' rec (fun rs _ _ => ∀ r ∈ rs, r ∈ g.rules) (LoopTraceOK g) ?_ ?_
    rs w memo hrs
  · rcases hres : ruleLoop rec rs w memo with (⟨w', memo'⟩ | ⟨tr, memo'⟩) | e | _
    · trivial
    · rw [hres] at this; exact this
    · rw [hres] at this; exact this
    · rw [hres] at this; exact this
  · intro r rs w memo hI hr2
    have hr := hI r (List.mem_cons_self _ _)
    apply oneSymbol_rule' rec r (fun _ _ _ => True)
    · intro i w memo _ _
      exact fun r' h => hI r' (List.mem_cons_of_mem _ h)
    · intro i w memo _ _ _
      trivial
    · intro i w memo _ hi _
      have h := tryOne_traceOK hrec hr hr2 hi memo
      rcases hres : tryOne rec r i w memo with (⟨w', memo'⟩ | ⟨tr, memo'⟩) | e | _
      · rw [hres] at h
        exact ⟨trivial, le_of_eq h⟩
      · rw [hres] at h; exact h
      · rw [hres] at h; exact h
      · rw [hres] at h; exact h
    · trivial
    · omega
  · intro r rs w memo hI hr2
    have hr := hI r (List.mem_cons_self _ _)
    apply twoSymbol_rule' rec r (fun _ _ _ => True)
    · intro i w memo _ _
      trivial
    · intro i w memo _ _
      exact fun r' h => hI r' (List.mem_cons_of_mem _ h)
    · intro i w memo _ _ _
      trivial
    · intro i w memo _ hi _ _
      have h := tryTwo_traceOK hrec hr hr2 hi memo
      rcases hres : tryTwo rec r i w memo with (⟨w', memo'⟩ | ⟨tr, memo'⟩) | e | _
      · rw [hres] at h
        exact ⟨trivial, h⟩
      · rw [hres] at h; exact h
      · rw [hres] at h; exact h
      · rw [hres] at h; exact h
    · trivial
    · omega

theorem helperBody_traceOK (g : Grammar) {rec : Memo → word → HelperResult}
    (hrec : ∀ memo w, TraceOK g (rec memo w)) (memo : Memo) (w : word) :
    TraceOK g (helperBody g rec memo w) := by
  unfold helperBody
  by_cases h0 : w.length = 0
  · simp [h0, TraceOK]
  simp only [h0, if_false]
  rw [baseCase_guard]
  rcases hb : baseCase g.Srules w with _ | r
  · have hl := ruleLoop_traceOK hrec g.rules w memo (fun _ h => h)
    simp only
    rcases hres : ruleLoop rec g.rules w memo with (⟨w', memo'⟩ | ⟨tr, memo'⟩) | e | _
    · trivial
    · rw [hres] at hl
      exact hl
    · trivial
    · trivial
  · simp only [TraceOK]
    rw [baseCase_eq_find] at hb
    have hmem := List.mem_of_find?_eq_some hb
    have hmatch : startMatches r w = true := by
      have := List.find?_some hb
      simpa using this
    refine ⟨r, w, [], rfl, hmem, hmatch, ?_⟩
    intro step hs
    rw [List.mem_singleton.mp hs]
    exact ⟨Or.inr hmem, (startMatches_rhs_occurs hmatch).1⟩

theorem parse_helper_traceOK (g : Grammar) :
    ∀ (n : Nat) (memo : Memo) (w : word), TraceOK g (parse_helper g n memo w) := by
  intro n
  induction n with
  | zero => intro memo w; trivial
  | succ n ih => exact helperBody_traceOK g ih

/-! ## The call log -/

theorem tryOneLogged_erase {rec : Memo → word → HelperResult}
    {recL : Memo → CallLog → word → LoggedResult}
    (h : ∀ m lg v, eraseLog (recL m lg v) = rec m v)
    (r : rule) (i : Nat) (w : word) (memo : Memo) (log : CallLog) :
    eraseLog (tryOneLogged recL r i w memo log) = tryOne rec r i w memo := by
  unfold tryOneLogged tryOne
  simp only []
  by_cases hm : w.set i r.1.1 ∈ memo
  · simp only [if_pos hm]
    rfl
  · simp only [if_neg hm]
    rw [← h (w.set i r.1.1 :: memo) log (w.set i r.1.1)]
    rcases recL (w.set i r.1.1 :: memo) log (w.set i r.1.1) with ⟨⟨b, tr, m'⟩, lg'⟩ | e | _
    · cases b <;> rfl
    · rfl
    · rfl

theorem restoreTwo_bind_erase (r : rule) (i : Nat) (w1 : word) (memo : Memo) (log : CallLog) :
    eraseLog ((restoreTwo r i w1).bind (fun w' => .ok (Loop.next w' memo, log))) =
      (restoreTwo r i w1).bind (fun w' => .ok (Loop.next w' memo)) := by
  rcases restoreTwo r i w1 with w' | e | _ <;> rfl

theorem tryTwoLogged_erase {rec : Memo → word → HelperResult}
    {recL : Memo → CallLog → word → LoggedResult}
    (h : ∀ m lg v, eraseLog (recL m lg v) = rec m v)
    (r : rule) (i : Nat) (w : word) (memo : Memo) (log : CallLog) :
    eraseLog (tryTwoLogged recL r i w memo log) = tryTwo rec r i w memo := by
  unfold tryTwoLogged tryTwo
  simp only []
  generalize (if r.1.2 = "NONE" then (w.set i r.1.1).eraseIdx (i + 1)
    else (w.set i r.1.1).set (i + 1) r.1.2) = w1
  by_cases hm : w1 ∈ memo
  · simp only [if_pos hm]
    exact restoreTwo_bind_erase r i w1 memo log
  · simp only [if_neg hm]
    rw [← h (w1 :: memo) log w1]
    rcases recL (w1 :: memo) log w1 with ⟨⟨b, tr, m'⟩, lg'⟩ | e | _
    · cases b
      · exact restoreTwo_bind_erase r i w1 m' lg'
      · rfl
    · rfl
    · rfl

theorem oneSymbolLogged_erase {rec : Memo → word → HelperResult}
    {recL : Memo → CallLog → word → LoggedResult}
    (h : ∀ m lg v, eraseLog (recL m lg v) = rec m v) (r : rule) :
    ∀ (k i : Nat) (w : word) (memo : Memo) (log : CallLog),
      eraseLog (oneSymbolLogged recL r k i w memo log) = oneSymbol rec r k i w memo := by
  intro k
  induction k with
  | zero =>
    intro i w memo log
    unfold oneSymbolLogged oneSymbol
    by_cases hi : i < w.length
    · simp only [if_pos hi]
      rfl
    · simp only [if_neg hi]
      rfl
  | succ k ih =>
    intro i w memo log
    unfold oneSymbolLogged oneSymbol
    by_cases hi : i < w.length
    · simp only [if_pos hi]
      by_cases hq : w[i]? = some r.2.1
      · simp only [if_pos hq]
        rw [← tryOneLogged_erase h r i w memo log]
        rcases tryOneLogged recL r i w memo log with
          ⟨(⟨w', memo'⟩ | ⟨tr, memo'⟩), lg'⟩ | e | _
        · exact ih (i + 1) w' memo' lg'
        · rfl
        · rfl
        · rfl
      · simp only [if_neg hq]
        exact ih (i + 1) w memo log
    · simp only [if_neg hi]
      rfl

theorem twoSymbolLogged_erase {rec : Memo → word → HelperResult}
    {recL : Memo → CallLog → word → LoggedResult}
    (h : ∀ m lg v, eraseLog (recL m lg v) = rec m v) (r : rule) :
    ∀ (k i : Nat) (w : word) (memo : Memo) (log : CallLog),
      eraseLog (twoSymbolLogged recL r k i w memo log) = twoSymbol rec r k i w memo := by
  intro k
  induction k with
  | zero =>
    intro i w memo log
    unfold twoSymbolLogged twoSymbol
    by_cases h0 : w.length = 0
    · simp only [if_pos h0]
      rfl
    · simp only [if_neg h0]
      by_cases hi : i + 1 < w.length
      · simp only [if_pos hi]
        rfl
      · simp only [if_neg hi]
        rfl
  | succ k ih =>
    intro i w memo log
    unfold twoSymbolLogged twoSymbol
    by_cases h0 : w.length = 0
    · simp only [if_pos h0]
      rfl
    · simp only [if_neg h0]
      by_cases hi : i + 1 < w.length
      · simp only [if_pos hi]
        by_cases hq : w[i]? = some r.2.1 ∧ w[i + 1]? = some r.2.2
        · simp only [if_pos hq]
          rw [← tryTwoLogged_erase h r i w memo log]
          rcases tryTwoLogged recL r i w memo log with
            ⟨(⟨w', memo'⟩ | ⟨tr, memo'⟩), lg'⟩ | e | _
          · exact ih (i + 1) w' memo' lg'
          · rfl
          · rfl
          · rfl
        · simp only [if_neg hq]
          exact ih (i + 1) w memo log
      · simp only [if_neg hi]
        rfl

theorem ruleLoopLogged_erase {rec : Memo → word → HelperResult}
    {recL : Memo → CallLog → word → LoggedResult}
    (h : ∀ m lg v, eraseLog (recL m lg v) = rec m v) :
    ∀ (rs : List rule) (w : word) (memo : Memo) (log : CallLog),
      eraseLog (ruleLoopLogged recL rs w memo log) = ruleLoop rec rs w memo := by
  intro rs
  induction rs with
  | nil =>
    intro w memo log
    rfl
  | cons r rs ih =>
    intro w memo log
    unfold ruleLoopLogged ruleLoop
    by_cases hr : r.2.2 = "NONE"
    · simp only [if_pos hr]
      rw [← oneSymbolLogged_erase h r w.length 0 w memo log]
      rcases oneSymbolLogged recL r w.length 0 w memo log with
        ⟨(⟨w', memo'⟩ | ⟨tr, memo'⟩), lg'⟩ | e | _
      · exact ih w' memo' lg'
      · rfl
      · rfl
      · rfl
    · simp only [if_neg hr]
      rw [← twoSymbolLogged_erase h r w.length 0 w memo log]
      rcases twoSymbolLogged recL r w.length 0 w memo log with
        ⟨(⟨w', memo'⟩ | ⟨tr, memo'⟩), lg'⟩ | e | _
      · exact ih w' memo' lg'
      · rfl
      · rfl
      · rfl

theorem helperBodyLogged_erase (g : Grammar) {rec : Memo → word → HelperResult}
    {recL : Memo → CallLog → word → LoggedResult}
    (h : ∀ m lg v, eraseLog (recL m lg v) = rec m v) (memo : Memo) (log : CallLog) (w : word) :
    eraseLog (helperBodyLogged g recL memo log w) = helperBody g rec memo w := by
  unfold helperBodyLogged helperBody
  by_cases h0 : w.length = 0
  · simp only [if_pos h0]
    rfl
  · simp only [if_neg h0]
    rcases (if w.length ≤ 2 then baseCase g.Srules w else none) with _ | r
    · simp only []
      rw [← ruleLoopLogged_erase h g.rules w memo (w :: log)]
      rcases ruleLoopLogged recL g.rules w memo (w :: log) with
        ⟨(⟨w', memo'⟩ | ⟨tr, memo'⟩), lg'⟩ | e | _ <;> rfl
    · rfl

/-- Forgetting the call log of the logged function gives `parse_helper`. -/
theorem parse_helperLogged_erase (g : Grammar) :
    ∀ (fuel : Nat) (memo : Memo) (log : CallLog) (w : word),
      eraseLog (parse_helperLogged g fuel memo log w) = parse_helper g fuel memo w := by
  intro fuel
  induction fuel with
  | zero =>
    intro memo log w
    rfl
  | succ n ih =>
    intro memo log w
    exact helperBodyLogged_erase g ih memo log w

theorem sameAdded_refl (memo : Memo) (log : CallLog) : SameAdded memo log memo log :=
  ⟨[], rfl, rfl⟩

theorem sameAdded_trans {memo memo' memo'' : Memo} {log log' log'' : CallLog}
    (h1 : SameAdded memo log memo' log') (h2 : SameAdded memo' log' memo'' log'') :
    SameAdded memo log memo'' log'' := by
  rcases h1 with ⟨a1, hm1, hl1⟩
  rcases h2 with ⟨a2, hm2, hl2⟩
  exact ⟨a2 ++ a1, by rw [hm2, hm1, List.append_assoc], by rw [hl2, hl1, List.append_assoc]⟩

theorem sameAdded_call {memo memo' : Memo} {log log' : CallLog} {v : word}
    (h : SameAdded (v :: memo) (v :: log) memo' log') : SameAdded memo log memo' log' :=
  sameAdded_trans ⟨[v], rfl, rfl⟩ h

theorem loopLoggedOK_trans {memo memo' : Memo} {log log' : CallLog}
    (h1 : SameAdded memo log memo' log') {x : Run (Loop × CallLog)}
    (h2 : LoopLoggedOK memo' log' x) : LoopLoggedOK memo log x := by
  rcases x with ⟨(⟨w', m'⟩ | ⟨tr, m'⟩), lg'⟩ | e | _
  · exact sameAdded_trans h1 h2
  · exact sameAdded_trans h1 h2
  · trivial
  · trivial

theorem tryOneLogged_sameAdded {recL : Memo → CallLog → word → LoggedResult}
    (h : ∀ m lg v, LoggedOK m (v :: lg) (recL m lg v))
    (r : rule) (i : Nat) (w : word) (memo : Memo) (log : CallLog) :
    LoopLoggedOK memo log (tryOneLogged recL r i w memo log) := by
  unfold tryOneLogged
  simp only []
  by_cases hm : w.set i r.1.1 ∈ memo
  · simp only [if_pos hm]
    exact sameAdded_refl memo log
  · simp only [if_neg hm]
    have hc := h (w.set i r.1.1 :: memo) log (w.set i r.1.1)
    rcases hres : recL (w.set i r.1.1 :: memo) log (w.set i r.1.1) with ⟨⟨b, tr, m'⟩, lg'⟩ | e | _
    · rw [hres] at hc
      cases b
      · exact sameAdded_call hc
      · exact sameAdded_call hc
    · rw [hres] at hc
      trivial
    · rw [hres] at hc
      trivial

theorem restoreTwo_bind_sameAdded (r : rule) (i : Nat) (w1 : word) {memo memo' : Memo}
    {log log' : CallLog} (h : SameAdded memo log memo' log') :
    LoopLoggedOK memo log ((restoreTwo r i w1).bind (fun w' => .ok (Loop.next w' memo', log'))) := by
  rcases restoreTwo r i w1 with w' | e | _
  · exact h
  · trivial
  · trivial

theorem tryTwoLogged_sameAdded {recL : Memo → CallLog → word → LoggedResult}
    (h : ∀ m lg v, LoggedOK m (v :: lg) (recL m lg v))
    (r : rule) (i : Nat) (w : word) (memo : Memo) (log : CallLog) :
    LoopLoggedOK memo log (tryTwoLogged recL r i w memo log) := by
  unfold tryTwoLogged
  simp only []
  generalize (if r.1.2 = "NONE" then (w.set i r.1.1).eraseIdx (i + 1)
    else (w.set i r.1.1).set (i + 1) r.1.2) = w1
  by_cases hm : w1 ∈ memo
  · simp only [if_pos hm]
    exact restoreTwo_bind_sameAdded r i w1 (sameAdded_refl memo log)
  · simp only [if_neg hm]
    have hc := h (w1 :: memo) log w1
    rcases hres : recL (w1 :: memo) log w1 with ⟨⟨b, tr, m'⟩, lg'⟩ | e | _
    · rw [hres] at hc
      cases b
      · exact restoreTwo_bind_sameAdded r i w1 (sameAdded_call hc)
      · exact sameAdded_call hc
    · rw [hres] at hc
      trivial
    · rw [hres] at hc
      trivial

theorem oneSymbolLogged_sameAdded {recL : Memo → CallLog → word → LoggedResult}
    (h : ∀ m lg v, LoggedOK m (v :: lg) (recL m lg v)) (r : rule) :
    ∀ (k i : Nat) (w : word) (memo : Memo) (log : CallLog),
      LoopLoggedOK memo log (oneSymbolLogged recL r k i w memo log) := by
  intro k
  induction k with
  | zero =>
    intro i w memo log
    unfold oneSymbolLogged
    by_cases hi : i < w.length
    · simp only [if_pos hi]
      trivial
    · simp only [if_neg hi]
      exact sameAdded_refl memo log
  | succ k ih =>
    intro i w memo log
    unfold oneSymbolLogged
    by_cases hi : i < w.length
    · simp only [if_pos hi]
      by_cases hq : w[i]? = some r.2.1
      · simp only [if_pos hq]
        have ht := tryOneLogged_sameAdded h r i w memo log
        rcases hres : tryOneLogged recL r i w memo log with
          ⟨(⟨w', memo'⟩ | ⟨tr, memo'⟩), lg'⟩ | e | _
        · rw [hres] at ht
          exact loopLoggedOK_trans ht (ih (i + 1) w' memo' lg')
        · rw [hres] at ht
          exact ht
        · rw [hres] at ht
          trivial
        · rw [hres] at ht
          trivial
      · simp only [if_neg hq]
        exact ih (i + 1) w memo log
    · simp only [if_neg hi]
      exact sameAdded_refl memo log

theorem twoSymbolLogged_sameAdded {recL : Memo → CallLog → word → LoggedResult}
    (h : ∀ m lg v, LoggedOK m (v :: lg) (recL m lg v)) (r : rule) :
    ∀ (k i : Nat) (w : word) (memo : Memo) (log : CallLog),
      LoopLoggedOK memo log (twoSymbolLogged recL r k i w memo log) := by
  intro k
  induction k with
  | zero =>
    intro i w memo log
    unfold twoSymbolLogged
    by_cases h0 : w.length = 0
    · simp only [if_pos h0]
      trivial
    · simp only [if_neg h0]
      by_cases hi : i + 1 < w.length
      · simp only [if_pos hi]
        trivial
      · simp only [if_neg hi]
        exact sameAdded_refl memo log
  | succ k ih =>
    intro i w memo log
    unfold twoSymbolLogged
    by_cases h0 : w.length = 0
    · simp only [if_pos h0]
      trivial
    · simp only [if_neg h0]
      by_cases hi : i + 1 < w.length
      · simp only [if_pos hi]
        by_cases hq : w[i]? = some r.2.1 ∧ w[i + 1]? = some r.2.2
        · simp only [if_pos hq]
          have ht := tryTwoLogged_sameAdded h r i w memo log
          rcases hres : tryTwoLogged recL r i w memo log with
            ⟨(⟨w', memo'⟩ | ⟨tr, memo'⟩), lg'⟩ | e | _
          · rw [hres] at ht
            exact loopLoggedOK_trans ht (ih (i + 1) w' memo' lg')
          · rw [hres] at ht
            exact ht
          · rw [hres] at ht
            trivial
          · rw [hres] at ht
            trivial
        · simp only [if_neg hq]
          exact ih (i + 1) w memo log
      · simp only [if_neg hi]
        exact sameAdded_refl memo log

theorem ruleLoopLogged_sameAdded {recL : Memo → CallLog → word → LoggedResult}
    (h : ∀ m lg v, LoggedOK m (v :: lg) (recL m lg v)) :
    ∀ (rs : List rule) (w : word) (memo : Memo) (log : CallLog),
      LoopLoggedOK memo log (ruleLoopLogged recL rs w memo log) := by
  intro rs
  induction rs with
  | nil =>
    intro w memo log
    exact sameAdded_refl memo log
  | cons r rs ih =>
    intro w memo log
    unfold ruleLoopLogged
    by_cases hr : r.2.2 = "NONE"
    · simp only [if_pos hr]
      have ht := oneSymbolLogged_sameAdded h r w.length 0 w memo log
      rcases hres : oneSymbolLogged recL r w.length 0 w memo log with
        ⟨(⟨w', memo'⟩ | ⟨tr, memo'⟩), lg'⟩ | e | _
      · rw [hres] at ht
        exact loopLoggedOK_trans ht (ih w' memo' lg')
      · rw [hres] at ht
        exact ht
      · rw [hres] at ht
        trivial
      · rw [hres] at ht
        trivial
    · simp only [if_neg hr]
      have ht := twoSymbolLogged_sameAdded h r w.length 0 w memo log
      rcases hres : twoSymbolLogged recL r w.length 0 w memo log with
        ⟨(⟨w', memo'⟩ | ⟨tr, memo'⟩), lg'⟩ | e | _
      · rw [hres] at ht
        exact loopLoggedOK_trans ht (ih w' memo' lg')
      · rw [hres] at ht
        exact ht
      · rw [hres] at ht
        trivial
      · rw [hres] at ht
        trivial

theorem helperBodyLogged_sameAdded (g : Grammar) {recL : Memo → CallLog → word → LoggedResult}
    (h : ∀ m lg v, LoggedOK m (v :: lg) (recL m lg v)) (memo : Memo) (log : CallLog) (w : word) :
    LoggedOK memo (w :: log) (helperBodyLogged g recL memo log w) := by
  unfold helperBodyLogged
  by_cases h0 : w.length = 0
  · simp only [if_pos h0]
    exact sameAdded_refl memo (w :: log)
  · simp only [if_neg h0]
    rcases (if w.length ≤ 2 then baseCase g.Srules w else none) with _ | r
    · simp only []
      have ht := ruleLoopLogged_sameAdded h g.rules w memo (w :: log)
      rcases hres : ruleLoopLogged recL g.rules w memo (w :: log) with
        ⟨(⟨w', memo'⟩ | ⟨tr, memo'⟩), lg'⟩ | e | _
      · rw [hres] at ht
        exact ht
      · rw [hres] at ht
        exact ht
      · rw [hres] at ht
        trivial
      · rw [hres] at ht
        trivial
    · exact sameAdded_refl memo (w :: log)

/-- A call of the logged `parse_helper` that returns put the same forms in
front of the memo and, after its own argument, in front of the log. -/
theorem parse_helperLogged_sameAdded (g : Grammar) :
    ∀ (fuel : Nat) (memo : Memo) (log : CallLog) (w : word),
      LoggedOK memo (w :: log) (parse_helperLogged g fuel memo log w) := by
  intro fuel
  induction fuel with
  | zero =>
    intro memo log w
    trivial
  | succ n ih =>
    intro memo log w
    exact helperBodyLogged_sameAdded g ih memo log w

/-! ## The claims on the memo and on the returned trace -/

/-- C19.  The memo is append-only and guards every recursion, so that no
form is handed to `parse_helper` twice.  A call of `parse_helper` that returns
leaves the memo it was given with new entries in front, pairwise distinct and
absent before.  The body of `parse_helper` makes a recursive call only on a
form that was absent from the memo and that it has just put in front of it:
two callbacks that agree on such calls give the same run.  And `parse` hands
at most one form `w1` to `parse_helper`, with the memo holding `w1` alone.
With the log of the calls carried beside the memo (forgetting the log gives
`parse_helper` again): the forms handed to `parse_helper` by the recursive
calls made during a call are exactly the forms the call adds to the memo, in
the same order, each once and none of them in the memo before; and for the
call that `parse` makes, the log of all calls at the end is the memo at the
end, a list without repetition. -/
theorem parse_helper_memo_guards_recursion (g : Grammar) :
    (∀ (fuel : Nat) (memo : Memo) (w : word) (b : Bool) (tr : List change) (memo' : Memo),
      parse_helper g fuel memo w = .ok (b, tr, memo') →
      ∃ added : List word, memo' = added ++ memo ∧ added.Nodup ∧ ∀ v ∈ added, v ∉ memo) ∧
    (∀ (rec rec' : Memo → word → HelperResult) (memo : Memo) (w : word),
      (∀ (m : Memo) (v : word), v ∉ m → rec (v :: m) v = rec' (v :: m) v) →
      helperBody g rec memo w = helperBody g rec' memo w) ∧
    (∀ (fuel : Nat) (memo0 : Memo) (w w1 : word), w1 ∈ (parse g fuel memo0 w).calls →
      (parse g fuel memo0 w).calls = [w1] ∧
      ∀ (b : Bool) (tr : List change) (memo' : Memo),
        parse_helper g fuel [w1] w1 = .ok (b, tr, memo') →
        (parse g fuel memo0 w).memo = memo' ∧
        ∃ added : List word, memo' = added ++ [w1] ∧ (added ++ [w1]).Nodup) ∧
    (∀ (fuel : Nat) (memo : Memo) (log : CallLog) (w : word),
      eraseLog (parse_helperLogged g fuel memo log w) = parse_helper g fuel memo w) ∧
    (∀ (fuel : Nat) (memo : Memo) (log : CallLog) (w : word) (b : Bool) (tr : List change)
        (memo' : Memo) (log' : CallLog),
      parse_helperLogged g fuel memo log w = .ok ((b, tr, memo'), log') →
      ∃ added : List word, memo' = added ++ memo ∧ log' = added ++ w :: log ∧
        added.Nodup ∧ ∀ v ∈ added, v ∉ memo) ∧
    (∀ (fuel : Nat) (w1 : word) (b : Bool) (tr : List change) (memo' : Memo),
      parse_helper g fuel [w1] w1 = .ok (b, tr, memo') →
      parse_helperLogged g fuel [w1] [] w1 = .ok ((b, tr, memo'), memo') ∧ memo'.Nodup) := by
  refine ⟨?_, ?_, ?_, ?_, ?_, ?_⟩
  · intro fuel memo w b tr memo' h
    have := parse_helper_appendOnly g fuel memo w
    rw [h] at this
    exact this
  · intro rec rec' memo w h
    exact helperBody_guarded g h memo w
  · intro fuel memo0 w w1 hmem
    have hadd : ∀ (v : word) (b : Bool) (tr : List change) (memo' : Memo),
        parse_helper g fuel [v] v = .ok (b, tr, memo') →
        ∃ added : List word, memo' = added ++ [v] ∧ (added ++ [v]).Nodup := by
      intro v b tr memo' h
      have := parse_helper_appendOnly g fuel [v] v
      rw [h] at this
      rcases this with ⟨added, h1, h2, h3⟩
      refine ⟨added, h1, ?_⟩
      rw [List.nodup_append]
      refine ⟨h2, List.nodup_singleton v, ?_⟩
      intro x hx hx'
      exact h3 x hx hx'
    unfold parse at hmem ⊢
    simp only [] at hmem ⊢
    rcases hm : maxesOf g w with maxes | e | _
    · rw [hm] at hmem
      simp only [] at hmem ⊢
      rcases hw : wordFrom g (List.replicate w.length 0) w with v | e | _
      · rw [hw] at hmem
        simp only [] at hmem ⊢
        rcases hp : parse_helper g fuel [v] v with ⟨b0, tr0, memo1⟩ | e | _
        · rw [hp] at hmem
          simp only [candidateLoop_not_entered] at hmem ⊢
          have hv : w1 = v := by
            cases b0 <;> simpa using hmem
          subst hv
          refine ⟨by cases b0 <;> simp, ?_⟩
          intro b tr memo' h
          rw [hp] at h
          have hmm : memo1 = memo' := by
            simp only [Run.ok.injEq, Prod.mk.injEq] at h
            exact h.2.2
          subst hmm
          refine ⟨by cases b0 <;> simp, hadd w1 b0 tr0 memo1 hp⟩
        · rw [hp] at hmem
          have hv : w1 = v := by simpa using hmem
          subst hv
          refine ⟨rfl, ?_⟩
          intro b tr memo' h
          rw [hp] at h
          exact Run.noConfusion h
        · rw [hp] at hmem
          have hv : w1 = v := by simpa using hmem
          subst hv
          refine ⟨rfl, ?_⟩
          intro b tr memo' h
          rw [hp] at h
          exact Run.noConfusion h
      · rw [hw] at hmem
        simp at hmem
      · rw [hw] at hmem
        simp at hmem
    · rw [hm] at hmem
      simp at hmem
    · rw [hm] at hmem
      simp at hmem
  · exact parse_helperLogged_erase g
  · intro fuel memo log w b tr memo' log' h
    have hs := parse_helperLogged_sameAdded g fuel memo log w
    rw [h] at hs
    rcases hs with ⟨added, hm, hl⟩
    have he := parse_helperLogged_erase g fuel memo log w
    rw [h] at he
    have ha := parse_helper_appendOnly g fuel memo w
    rw [← he] at ha
    rcases ha with ⟨added2, hm2, hnd, hnew⟩
    have hadd : added2 = added := List.append_cancel_right (hm2.symm.trans hm)
    subst hadd
    exact ⟨added2, hm, hl, hnd, hnew⟩
  · intro fuel w1 b tr memo' h
    have he := parse_helperLogged_erase g fuel [w1] [] w1
    rw [h] at he
    have hs := parse_helperLogged_sameAdded g fuel [w1] [] w1
    rcases hres : parse_helperLogged g fuel [w1] [] w1 with ⟨⟨b2, tr2, m2⟩, lg⟩ | e | _
    · rw [hres] at he hs
      have hinj : (b2, tr2, m2) = (b, tr, memo') := Run.ok.inj he
      simp only [Prod.mk.injEq] at hinj
      rcases hinj with ⟨hb, htr, hmm⟩
      subst hb htr hmm
      rcases hs with ⟨added, hm, hl⟩
      have hlm : lg = m2 := by rw [hl, hm]
      subst hlm
      refine ⟨rfl, ?_⟩
      have ha := parse_helper_appendOnly g fuel [w1] w1
      rw [h] at ha
      rcases ha with ⟨added2, hm2, hnd, hnew⟩
      rw [hm2, List.nodup_append]
      exact ⟨hnd, List.nodup_singleton w1, fun x hx hx' => hnew x hx hx'⟩
    · rw [hres] at he
      exact Run.noConfusion he
    · rw [hres] at he
      exact Run.noConfusion he

/-- Instance of C19.  The call on `B C D` in the grammar `A → B C`, `E → B C`,
`S → E` adds the forms `A D` and `E` to the memo.  In the grammar `A → X`,
`B → X` the search from `X X` reaches `A A`, `A B`, `B A` and `B B` along two
branches each; the log of the calls holds each of the nine forms once. -/
theorem parse_helper_memo_guards_recursion_witness :
    parse_helper gCollapse 2 [["B", "C", "D"]] ["B", "C", "D"] =
      .ok (true,
        [(ruleOf "S" "NONE" "E" "NONE", ["E"]), (ruleOf "E" "NONE" "B" "C", ["B", "C"])],
        [["E"], ["A", "D"], ["B", "C", "D"]]) ∧
    (∃ added : List word, [["E"], ["A", "D"], ["B", "C", "D"]] = added ++ [["B", "C", "D"]] ∧
      added.Nodup ∧ ∀ v ∈ added, v ∉ [["B", "C", "D"]]) ∧
    parse_helper gSiblings 4 [["X", "X"]] ["X", "X"] =
      .ok (false, [],
        [["X", "B"], ["B", "B"], ["B", "X"], ["B", "A"], ["X", "A"], ["A", "B"], ["A", "A"],
         ["A", "X"], ["X", "X"]]) ∧
    parse_helperLogged gSiblings 4 [["X", "X"]] [] ["X", "X"] =
      .ok ((false, [],
        [["X", "B"], ["B", "B"], ["B", "X"], ["B", "A"], ["X", "A"], ["A", "B"], ["A", "A"],
         ["A", "X"], ["X", "X"]]),
        [["X", "B"], ["B", "B"], ["B", "X"], ["B", "A"], ["X", "A"], ["A", "B"], ["A", "A"],
         ["A", "X"], ["X", "X"]]) ∧
    ([["X", "B"], ["B", "B"], ["B", "X"], ["B", "A"], ["X", "A"], ["A", "B"], ["A", "A"],
      ["A", "X"], ["X", "X"]] : List word).Nodup :=
  ⟨by decide,
    (parse_helper_memo_guards_recursion gCollapse).1 2 [["B", "C", "D"]] ["B", "C", "D"] true
      [(ruleOf "S" "NONE" "E" "NONE", ["E"]), (ruleOf "E" "NONE" "B" "C", ["B", "C"])]
      [["E"], ["A", "D"], ["B", "C", "D"]] (by decide),
    by decide,
    (parse_helper_memo_guards_recursion gSiblings).2.2.2.2.2 4 ["X", "X"] false []
      [["X", "B"], ["B", "B"], ["B", "X"], ["B", "A"], ["X", "A"], ["A", "B"], ["A", "A"],
       ["A", "X"], ["X", "X"]] (by decide)⟩

/-- C20 (counterexample to the claim as stated).  In the grammar with the
single rule `S → X`, `parse_helper` on the form of the two symbols `X`, `NONE`
returns success with the one step `(S → X, X NONE)`: the form of the first
step is not the right side `X` of its rule. -/
theorem parse_helper_sentinel_form :
    (∀ n : Nat, parse_helper gSentinel (n + 1) [] ["X", "NONE"] =
      .ok (true, [(ruleOf "S" "NONE" "X" "NONE", ["X", "NONE"])], [])) ∧
    rhs (ruleOf "S" "NONE" "X" "NONE") = ["X"] ∧
    (["X", "NONE"] : word) ≠ rhs (ruleOf "S" "NONE" "X" "NONE") := by
  refine ⟨fun n => ?_, by decide, by decide⟩
  have h := @parse_helper_add gSentinel 1 [] ["X", "NONE"]
    (true, [(ruleOf "S" "NONE" "X" "NONE", ["X", "NONE"])], []) (by decide) n
  rw [Nat.add_comm] at h
  exact h

/-- C20 (amended).  In a grammar built by the constructor, whenever
`parse_helper` returns success the trace is non-empty, its first step
`(r, f)` has `r` in `Srules` and `f` positionally equal to the right side of
`r`, which is that right side without the `NONE` slot when the symbol `NONE`
does not occur in `f`; and for every step `(r, f)` of the trace `r` is a member
of `rules` and the right side of `r` occurs contiguously in `f`. -/
theorem parse_helper_trace_shape (vs ts : List symbol) (rs : List rule) (fuel : Nat)
    (memo : Memo) (w : word) (tr : List change) (memo' : Memo)
    (h : parse_helper (Grammar.create vs ts rs) fuel memo w = .ok (true, tr, memo')) :
    ∃ (r : rule) (f : word) (rest : List change), tr = (r, f) :: rest ∧
      r ∈ (Grammar.create vs ts rs).Srules ∧ startMatches r f = true ∧
      ("NONE" ∉ f → f = rhs r) ∧
      ∀ step ∈ tr, step.1 ∈ (Grammar.create vs ts rs).rules ∧ rhs step.1 <:+: step.2 := by
  have := parse_helper_traceOK (Grammar.create vs ts rs) fuel memo w
  rw [h] at this
  rcases this with ⟨r, f, rest, h1, h2, h3, h4⟩
  refine ⟨r, f, rest, h1, h2, h3, (startMatches_rhs_occurs h3).2, ?_⟩
  intro step hs
  rcases h4 step hs with ⟨h5 | h5, h6⟩
  · exact ⟨h5, h6⟩
  · exact ⟨create_Srules_subset vs ts rs _ h5, h6⟩

/-- Instance of the amended C20: the example grammar with the rule `B → b` and
the form `A B C`. -/
theorem parse_helper_trace_shape_witness :
    parse_helper gExampleB 3 [["A", "B", "C"]] ["A", "B", "C"] =
      .ok (true,
        [(ruleOf "S" "NONE" "A'" "NONE", ["A'"]),
         (ruleOf "A'" "NONE" "A" "B'", ["A", "B'"]),
         (ruleOf "B'" "NONE" "B" "C", ["A", "B", "C"])],
        [["A'"], ["A", "B'"], ["A", "B", "C"]]) ∧
    ∃ (r : rule) (f : word) (rest : List change),
      [(ruleOf "S" "NONE" "A'" "NONE", ["A'"]),
       (ruleOf "A'" "NONE" "A" "B'", ["A", "B'"]),
       (ruleOf "B'" "NONE" "B" "C", ["A", "B", "C"])] = (r, f) :: rest ∧
      r ∈ gExampleB.Srules ∧ startMatches r f = true ∧ ("NONE" ∉ f → f = rhs r) ∧
      ∀ step ∈ [(ruleOf "S" "NONE" "A'" "NONE", ["A'"]),
          (ruleOf "A'" "NONE" "A" "B'", ["A", "B'"]),
          (ruleOf "B'" "NONE" "B" "C", ["A", "B", "C"])],
        step.1 ∈ gExampleB.rules ∧ rhs step.1 <:+: step.2 :=
  ⟨by decide,
    parse_helper_trace_shape ["A", "A'", "B", "B'", "C"] ["a", "b", "c"]
      [ruleOf "S" "NONE" "A'" "NONE", ruleOf "A'" "NONE" "A" "B'", ruleOf "A" "NONE" "a" "NONE",
       ruleOf "B'" "NONE" "B" "C", ruleOf "C" "NONE" "c" "NONE", ruleOf "B" "NONE" "b" "NONE"]
      3 [["A", "B", "C"]] ["A", "B", "C"]
      [(ruleOf "S" "NONE" "A'" "NONE", ["A'"]), (ruleOf "A'" "NONE" "A" "B'", ["A", "B'"]),
       (ruleOf "B'" "NONE" "B" "C", ["A", "B", "C"])]
      [["A'"], ["A", "B'"], ["A", "B", "C"]] (by decide)⟩

/-! ## The claim on the indices of the working form -/

/-- In a grammar without collapsing rules no run of `parse_helper` stops at
an access out of range, whatever the form, the memo and the recursion
bound. -/
theorem parse_helper_in_range_of_lengthPreserving {g : Grammar} (hg : LengthPreserving g)
    (n : Nat) (memo : Memo) (w : word) (e : Fault) : parse_helper g n memo w ≠ .fault e := by
  intro h
  have := parse_helper_explored hg n memo w
  rw [h] at this
  exact this

theorem tryOne_keeps_length (rec : Memo → word → HelperResult) (r : rule) (i : Nat)
    (w : word) (memo : Memo) :
    Continue (fun w' _ => w'.length = w.length) (fun _ => True) (tryOne rec r i w memo) := by
  unfold tryOne
  by_cases hm : w.set i r.1.1 ∈ memo
  · simp [hm, Continue]
  · simp only [hm, if_false]
    rcases rec (w.set i r.1.1 :: memo) (w.set i r.1.1) with ⟨b, tr, memo'⟩ | e | _
    · cases b <;> simp [Continue]
    · simp [Continue]
    · simp [Continue]

theorem tryTwo_keeps_nonempty (rec : Memo → word → HelperResult) (r : rule) (i : Nat)
    (w : word) (memo : Memo) :
    Continue (fun w' _ => 0 < w'.length ∧ w'.length ≤ w.length) (fun _ => True)
      (tryTwo rec r i w memo) := by
  unfold tryTwo
  have hlen : (if r.1.2 = "NONE" then (w.set i r.1.1).eraseIdx (i + 1)
      else (w.set i r.1.1).set (i + 1) r.1.2).length ≤ w.length := by
    split
    · exact le_trans (List.length_eraseIdx_le _ _) (by simp)
    · simp
  generalize (if r.1.2 = "NONE" then (w.set i r.1.1).eraseIdx (i + 1)
    else (w.set i r.1.1).set (i + 1) r.1.2) = w1 at hlen ⊢
  have hrest : ∀ memo', Continue (fun w' _ => 0 < w'.length ∧ w'.length ≤ w.length)
      (fun _ => True) ((restoreTwo r i w1).bind (fun w' => .ok (.next w' memo'))) := by
    intro memo'
    unfold restoreTwo
    by_cases hi : i + 1 < w1.length
    · simp only [hi, if_true, Run.bind, Continue, List.length_set]
      omega
    · simp [hi, Run.bind, Continue]
  by_cases hm : w1 ∈ memo
  · simp only [hm, if_true]
    exact hrest memo
  · simp only [hm, if_false]
    rcases rec (w1 :: memo) w1 with ⟨b, tr, memo'⟩ | e | _
    · cases b
      · exact hrest memo'
      · simp [Continue]
    · simp [Continue]
    · simp [Continue]

/-- The working form is non-empty whenever a loop of `parse_helper` tests its
bound: the loops entered with a non-empty form keep it non-empty. -/
theorem ruleLoop_form_nonempty (rec : Memo → word → HelperResult) :
    ∀ (rs : List rule) (w : word) (memo : Memo), 0 < w.length →
      Continue (fun w' _ => 0 < w'.length) (fun _ => True) (ruleLoop rec rs w memo) := by
  apply ruleLoop_rule' rec (fun _ w _ => 0 < w.length)
  · intro r rs w memo hI _
    apply oneSymbol_rule' rec r (fun _ w _ => 0 < w.length)
    · intro i w memo h _
      exact h
    · intro i w memo h _ _
      exact h
    · intro i w memo h _ _
      have ht := tryOne_keeps_length rec r i w memo
      rcases hres : tryOne rec r i w memo with (⟨w', memo'⟩ | ⟨tr, memo'⟩) | e | _
      · rw [hres] at ht
        have hl : w'.length = w.length := ht
        exact ⟨by omega, by omega⟩
      · trivial
      · trivial
      · trivial
    · exact hI
    · omega
  · intro r rs w memo hI _
    apply twoSymbol_rule' rec r (fun _ w _ => 0 < w.length)
    · intro i w memo _ _
      trivial
    · intro i w memo h _
      exact h
    · intro i w memo h _ _
      exact h
    · intro i w memo h _ _ _
      have ht := tryTwo_keeps_nonempty rec r i w memo
      rcases hres : tryTwo rec r i w memo with (⟨w', memo'⟩ | ⟨tr, memo'⟩) | e | _
      · rw [hres] at ht
        exact ht
      · trivial
      · trivial
      · trivial
    · exact hI
    · omega

/-- C21 (the code breaks the claim).  In the grammar `A → B C`, `E → B C`,
`S → E`, `B → b`, `C → c` the non-empty form `B C` is handed to `parse_helper`
by `parse` on the word `b c`.  The reverse application of `A → B C` at
position 0 erases `w[1]`, the recursive call on `A` fails, and the restoring
write to `w[1]` is made on a form of length 1: `parse_helper` and `parse`
stop at an access out of range, for every recursion bound of at least 2. -/
theorem parse_helper_restore_out_of_range :
    (["B", "C"] : word) ≠ [] ∧
    restoreTwo (ruleOf "A" "NONE" "B" "C") 0 ["A"] = .fault .outOfRange ∧
    (∀ n : Nat,
      tryTwo (parse_helper gRestore (1 + n)) (ruleOf "A" "NONE" "B" "C") 0 ["B", "C"]
        [["B", "C"]] = .fault .outOfRange) ∧
    (∀ n : Nat, parse_helper gRestore (2 + n) [["B", "C"]] ["B", "C"] = .fault .outOfRange) ∧
    (∀ n : Nat, parse gRestore (2 + n) [] ["b", "c"] =
      ⟨[["B", "C"]], [["B", "C"]], .fault .outOfRange⟩) := by
  have hp : ∀ n : Nat,
      parse_helper gRestore (2 + n) [["B", "C"]] ["B", "C"] = .fault .outOfRange := by
    intro n
    rw [parse_helper_mono gRestore 2 _ _ (by decide) n]
    decide
  refine ⟨by decide, by decide, fun n => ?_, hp, fun n => ?_⟩
  · rw [tryTwo_extends (parse_helper_extends_add gRestore 1 n) _ _ _ _ (by decide)]
    decide
  · have hm : maxesOf gRestore ["b", "c"] = .ok [1, 1] := by decide
    have hw : wordFrom gRestore (List.replicate ["b", "c"].length 0) ["b", "c"] =
        .ok ["B", "C"] := by decide
    unfold parse
    simp only [hm, hw, hp n]

end CSG
